import Mathlib

/-!
Verification of the `geen` Merkle Mountain Range library.

The development shallowly embeds the library's data model and operations:

* The 32-byte hash digests produced by the external BLAKE hasher are modelled
  as a free term algebra (`Hash`): distinct streams of chained byte chunks give
  distinct terms, and equal streams give equal terms, which is exactly the
  determinism used by the source code.
* Roaring bitmaps are modelled as canonically sorted, duplicate-free lists of
  naturals; `serialize` is the canonical list itself.
* `Storage` backends are modelled as pure state-passing values.  A call of
  `get_or_panic` at an absent index is modelled by returning `none`, so a
  `none` outcome of an operation means the Rust code would panic.
* Fallible operations return `Option (Except GeneError _)` (`none` = panic).

The index-algebra module (`algos`) of the repository is referenced by every
source file but is itself absent from the provided sources, so those pure
functions are modelled from the specification (see the doc comments starting
with `Modelled from the spec:`).
-/

/-- Model of a 32-byte BLAKE digest.  A hasher stream is itself encoded as a
`Hash` term via `snil` / `scons` (a cons-list of 32-byte blocks);
`fin stream` is the finalized digest of a stream of blocks, and
`finB stream bs` is the digest of the blocks followed by a raw byte string
`bs` (used when a serialized bitmap is folded into the hash).  `base n`
denotes an arbitrary externally supplied hash; `zero` is `H256::zero()`.
Two digests are equal exactly when the byte streams fed to the hasher are
equal, which is the determinism the source relies on. -/
inductive Hash where
  | zero : Hash
  | base : Nat → Hash
  | snil : Hash
  | scons : Hash → Hash → Hash
  | fin : Hash → Hash
  | finB : Hash → List Nat → Hash
deriving DecidableEq, Repr

instance : Inhabited Hash := ⟨Hash.zero⟩

/-- The stream of 32-byte blocks `toks`, as a term. -/
def Hash.stream (toks : List Hash) : Hash := toks.foldr Hash.scons Hash.snil

/-- Digest of a chained-hasher stream of 32-byte blocks. -/
def Hash.digest (toks : List Hash) : Hash := Hash.fin (Hash.stream toks)

/-- Digest of a stream of 32-byte blocks followed by a raw byte string. -/
def Hash.digestB (toks : List Hash) (bs : List Nat) : Hash :=
  Hash.finB (Hash.stream toks) bs

/-- `H256::hash_with`: hash of the concatenation of two digests. -/
def Hash.hash_with (a b : Hash) : Hash := Hash.digest [a, b]

/-- The error enumeration of `lib.rs` (`GeneError`).  The string payload of
`BackendError` is dropped; no claim depends on the message text. -/
inductive GeneError where
  | outdatedProof
  | invalidProof
  | rootMismatch
  | nonLeafNode
  | hashNotFound : Nat → GeneError
  | incorrectPeakMap
  | unexpected
  | backendError
  | invalidMerkleTree
  | corruptDataStructure
  | maximumSizeReached
  | outOfRange
  | invalidConfig
deriving DecidableEq, Repr

/-- Model of `croaring::Bitmap`: a set of 32-bit integers, represented
canonically as a sorted duplicate-free list. -/
abbrev Bitmap := List Nat

/-- `Bitmap::create`. -/
def Bitmap.create : Bitmap := []

/-- Sorted duplicate-free insertion. -/
def Bitmap.insert (i : Nat) : Bitmap → Bitmap
  | [] => [i]
  | x :: xs =>
    if i < x then i :: x :: xs
    else if i = x then x :: xs
    else x :: Bitmap.insert i xs

/-- `Bitmap::add`. -/
def Bitmap.add (b : Bitmap) (i : Nat) : Bitmap := Bitmap.insert i b

/-- `Bitmap::contains`. -/
def Bitmap.bContains (b : Bitmap) (i : Nat) : Bool := b.contains i

/-- `Bitmap::cardinality`. -/
def Bitmap.cardinality (b : Bitmap) : Nat := b.length

/-- `Bitmap::or_inplace`: set union (canonical because `add` is sorted). -/
def Bitmap.or (b other : Bitmap) : Bitmap := other.foldl Bitmap.add b

/-- `Bitmap::run_optimize`: representation-level compression, a no-op on the
canonical set model.  The Rust call returns a `bool`, which no caller uses. -/
def Bitmap.runOptimize (b : Bitmap) : Bitmap := b

/-- `Bitmap::serialize`: a deterministic injective encoding of the set; the
canonical element list serves as the byte string. -/
def Bitmap.serialize (b : Bitmap) : List Nat := b

/-- The `Storage` trait of `storage.rs`, as pure state-passing operations.
`push` returns the new state together with the returned index.
`get_or_panic` returns `none` when the Rust code would panic. -/
class Storage (σ : Type) where
  len : σ → Nat
  push : σ → Hash → σ × Nat
  get : σ → Nat → Option Hash
  get_or_panic : σ → Nat → Option Hash
  clear : σ → σ

/-- The `impl Storage for Vec<T>` backend. -/
instance : Storage (List Hash) where
  len st := st.length
  push st h := (st ++ [h], st.length)
  get st i := st[i]?
  get_or_panic st i := st[i]?
  clear _ := []

/-! ### Index algebra (the missing `algos` module), modelled from the spec -/

/-- Modelled from the spec: one step of the peak-map automaton.  From the
state `(peak_map, height)` describing the next position to write, if the
peak map has a peak at the current height the next node merges with it
(clearing that bit and moving one level up); otherwise the node becomes a
peak at that height and the next position is a fresh leaf. -/
def pmStep (s : Nat × Nat) : Nat × Nat :=
  if s.1.testBit s.2 then (s.1 - 2 ^ s.2, s.2 + 1) else (s.1 + 2 ^ s.2, 0)

/-- Modelled from the spec: `peak_map_height(p)` from the missing `algos`
module.  For a position `p` that is the next slot to write, returns a bitmask
whose set bits mark the heights of the currently unmerged peaks, and the
height at which the node at position `p` sits (0 for a legal append). -/
def peak_map_height (pos : Nat) : Nat × Nat := pmStep^[pos] (0, 0)

/-- Modelled from the spec: `bintree_height(p)`, the height of node `p`. -/
def bintree_height (p : Nat) : Nat := (peak_map_height p).2

/-- Modelled from the spec: `is_leaf(p)`, height zero. -/
def is_leaf (p : Nat) : Bool := bintree_height p == 0

/-- Helper for `find_peaks`: emit the root positions of the perfect trees
whose heights are the set bits of `m`, scanning bits from high (`e - 1`)
to low, with `acc` the number of nodes already laid down. -/
def peaksGo : Nat → Nat → Nat → List Nat
  | 0, _, _ => []
  | e + 1, m, acc =>
    if m.testBit e then (acc + 2 ^ (e + 1) - 2) :: peaksGo e m (acc + 2 ^ (e + 1) - 1)
    else peaksGo e m acc

/-- Fuelled bit length (structural, so it reduces definitionally). -/
def bitlenGo : Nat → Nat → Nat
  | 0, _ => 0
  | fuel + 1, n => if n = 0 then 0 else bitlenGo fuel (n / 2) + 1

/-- Number of binary digits of `n` (0 for 0). -/
def bitlen (n : Nat) : Nat := bitlenGo n n

/-- Modelled from the spec: `find_peaks(n)`, the deterministic peak list for
an MMR of size `n`, left to right (descending height order). -/
def find_peaks (n : Nat) : List Nat :=
  if n = 0 then [] else
    let m := (peak_map_height n).1
    peaksGo (bitlen m) m 0

/-- Modelled from the spec: `n_leaves(n)`, the count of leaves given `n`
nodes. -/
def n_leaves (n : Nat) : Nat :=
  let s := peak_map_height n
  if s.2 = 0 then s.1 else s.1 + 1

/-- Fuelled population count (structural, so it reduces definitionally). -/
def popcountGo : Nat → Nat → Nat
  | 0, _ => 0
  | fuel + 1, n => if n = 0 then 0 else popcountGo fuel (n / 2) + n % 2

/-- Number of set bits of a natural number. -/
def popcount (n : Nat) : Nat := popcountGo n n

/-- Modelled from the spec: `leaf_index(k)`, the node position of the `k`-th
leaf (`2k` minus the number of set bits of `k`). -/
def leaf_index (k : Nat) : Nat := 2 * k - popcount k

/-- Modelled from the spec: `family(p) = (parent, sibling)`.  When the peak
map at `p` has a peak at `p`'s height, `p` is a right child merging with the
peak on its left; otherwise `p` is a left child whose sibling subtree lies
directly to its right. -/
def family (p : Nat) : Nat × Nat :=
  let s := peak_map_height p
  if s.1.testBit s.2 then (p + 1, p + 1 - 2 ^ (s.2 + 1))
  else (p + 2 ^ (s.2 + 1), p + 2 ^ (s.2 + 1) - 1)

/-- Modelled from the spec: `is_left_sibling(p)`. -/
def is_left_sibling (p : Nat) : Bool :=
  ! (peak_map_height p).1.testBit (peak_map_height p).2

/-- Fuelled implementation of `family_branch` (each step climbs to a parent
strictly greater than `p`, so `n` steps always suffice). -/
def familyBranchGo : Nat → Nat → Nat → List (Nat × Nat)
  | 0, _, _ => []
  | fuel + 1, p, n =>
    let f := family p
    if f.1 < n then f :: familyBranchGo fuel f.1 n else []

/-- Modelled from the spec: `family_branch(p, n)`, the ordered list of
`(parent, sibling)` pairs from `p` up to (but not including) the local peak
of the MMR of size `n`. -/
def family_branch (p n : Nat) : List (Nat × Nat) := familyBranchGo n p n

/-! ### The append-only MMR (`mmr.rs`) -/

/-- `MerkleMountainRange` over a storage backend. -/
structure MerkleMountainRange (σ : Type) where
  hashes : σ
deriving DecidableEq, Repr

namespace MerkleMountainRange

variable {σ : Type} [Storage σ]

/-- `MerkleMountainRange::new`. -/
def new (backend : σ) : MerkleMountainRange σ := ⟨backend⟩

/-- `MerkleMountainRange::len` (the vec and pruned backends never error). -/
def len (m : MerkleMountainRange σ) : Nat := Storage.len m.hashes

/-- `MerkleMountainRange::is_empty`. -/
def is_empty (m : MerkleMountainRange σ) : Bool := m.len == 0

/-- `MerkleMountainRange::get_node_hash`. -/
def get_node_hash (m : MerkleMountainRange σ) (i : Nat) : Option Hash :=
  Storage.get m.hashes i

/-- `MerkleMountainRange::get_leaf_hash`. -/
def get_leaf_hash (m : MerkleMountainRange σ) (k : Nat) : Option Hash :=
  m.get_node_hash (leaf_index k)

/-- `MerkleMountainRange::get_leaf_count`. -/
def get_leaf_count (m : MerkleMountainRange σ) : Nat := n_leaves m.len

/-- The merge loop of `MerkleMountainRange::push`: while the peak map has a
bit at the current merge level, pop the left sibling and the node just
pushed, push their combined hash and move one level up.  `none` models a
panic of `get_or_panic`.  The fuel never runs out when it is at least
`peak_map + 1`. -/
def pushLoopGo (pm : Nat) : Nat → Nat → Nat → σ → Option (σ × Nat)
  | 0, _, pos, st => some (st, pos)
  | fuel + 1, k, pos, st =>
    if pm.testBit k then
      match Storage.get_or_panic st (pos + 1 - 2 * 2 ^ k) with
      | none => none
      | some leftHash =>
        match Storage.get_or_panic st (Storage.len st - 1) with
        | none => none
        | some lastHash =>
          let st1 := (Storage.push st (leftHash.hash_with lastHash)).1
          pushLoopGo pm fuel (k + 1) (pos + 1) st1
    else some (st, pos)

/-- `MerkleMountainRange::push`.  Returns `none` on a `get_or_panic` panic,
`some (.error _)` on the `CorruptDataStructure` check, and otherwise the new
state together with the value the Rust function returns. -/
def push (m : MerkleMountainRange σ) (h : Hash) :
    Option (Except GeneError (MerkleMountainRange σ × Nat)) :=
  if m.len = 0 then
    let r := Storage.push m.hashes h
    some (.ok (⟨r.1⟩, r.2))
  else
    let pos := m.len
    let pm := peak_map_height pos
    if pm.2 ≠ 0 then some (.error .corruptDataStructure)
    else
      let st0 := (Storage.push m.hashes h).1
      match pushLoopGo pm.1 (pm.1 + 1) 0 pos st0 with
      | none => none
      | some (st1, pos1) => some (.ok (⟨st1⟩, pos1))

/-- The chained hasher of `hash_to_root`: the peak hashes in canonical
order; `none` models a `get_or_panic` panic. -/
def hash_to_root (m : MerkleMountainRange σ) : Option (List Hash) :=
  (find_peaks m.len).mapM (Storage.get_or_panic m.hashes)

/-- `MerkleMountainRange::get_merkle_root`: the zero hash when empty, else
the digest of the bagged peaks. -/
def get_merkle_root (m : MerkleMountainRange σ) : Option Hash :=
  if m.len = 0 then some Hash.zero
  else (m.hash_to_root).map Hash.digest

/-- Push a list of hashes in order, stopping at the first error or panic. -/
def pushAll (m : MerkleMountainRange σ) :
    List Hash → Option (Except GeneError (MerkleMountainRange σ))
  | [] => some (.ok m)
  | h :: rest =>
    match m.push h with
    | none => none
    | some (.error e) => some (.error e)
    | some (.ok (m1, _)) => m1.pushAll rest

/-- Modelled from the spec: `MerkleMountainRange::clear` (called by
`MutableMmr::clear` but absent from `mmr.rs`): clear the backing storage. -/
def clear (m : MerkleMountainRange σ) : MerkleMountainRange σ :=
  ⟨Storage.clear m.hashes⟩

/-- `MerkleMountainRange::restore`: clear the storage, then push every leaf
hash in sequence, stopping at the first failure. -/
def restore (m : MerkleMountainRange σ) (leaf_hashes : List Hash) :
    Option (MerkleMountainRange σ × Except GeneError Unit) :=
  restoreGo m.clear leaf_hashes
where
  restoreGo : MerkleMountainRange σ → List Hash →
      Option (MerkleMountainRange σ × Except GeneError Unit)
  | m0, [] => some (m0, .ok ())
  | m0, h :: rest =>
    match m0.push h with
    | none => none
    | some (.error e) => some (m0, .error e)
    | some (.ok (m1, _)) => restoreGo m1 rest

end MerkleMountainRange

/-! ### Merkle proofs (`merkle_proof.rs`) -/

/-- `MerkleProof`: MMR size at proof time, the sibling path from the leaf to
its local peak, and all the other peaks. -/
structure MerkleProof where
  mmr_size : Nat
  path : List Hash
  peaks : List Hash
deriving DecidableEq, Repr

namespace MerkleProof

/-- `MerkleProof::generate_proof`. -/
def generate_proof {σ : Type} [Storage σ] (mmr : MerkleMountainRange σ)
    (pos : Nat) : Except GeneError MerkleProof :=
  match mmr.get_node_hash pos with
  | none => .error (.hashNotFound pos)
  | some _ =>
    let mmr_size := mmr.len
    let fb := family_branch pos mmr_size
    match fb.mapM (fun pr =>
        match mmr.get_node_hash pr.2 with
        | some v => some v
        | none => none) with
    | none =>
      .error (.hashNotFound ((fb.find? (fun pr => (mmr.get_node_hash pr.2).isNone)).getD
        (0, 0)).2)
    | some path =>
      let peak_pos := match fb.getLast? with
        | some pr => pr.1
        | none => pos
      match ((find_peaks mmr_size).filter (· ≠ peak_pos)).mapM
          (fun i => mmr.get_node_hash i) with
      | none =>
        .error (.hashNotFound ((((find_peaks mmr_size).filter (· ≠ peak_pos)).find?
          (fun i => (mmr.get_node_hash i).isNone)).getD 0))
      | some peak_hashes => .ok ⟨mmr_size, path, peak_hashes⟩

/-- `MerkleProof::for_leaf_node`. -/
def for_leaf_node {σ : Type} [Storage σ] (mmr : MerkleMountainRange σ)
    (leaf_pos : Nat) : Except GeneError MerkleProof :=
  generate_proof mmr (leaf_index leaf_pos)

/-- `MerkleProof::for_node`: rejects non-leaf positions. -/
def for_node {σ : Type} [Storage σ] (mmr : MerkleMountainRange σ)
    (pos : Nat) : Except GeneError MerkleProof :=
  if !is_leaf pos then .error .nonLeafNode
  else generate_proof mmr pos

/-- The peak-chaining fold of `MerkleProof::check_root`: stream the canonical
peak positions, substituting `hash` at position `pos` and consuming the
proof's peak list elsewhere.  `none` models the `unwrap` panic hit when the
proof's peak iterator is exhausted. -/
def chainPeaks : List Nat → List Hash → Hash → Nat → Option (List Hash)
  | [], _, _, _ => some []
  | i :: is, phs, hash, pos =>
    if i = pos then (chainPeaks is phs hash pos).map (hash :: ·)
    else
      match phs with
      | [] => none
      | ph :: rest => (chainPeaks is rest hash pos).map (ph :: ·)

/-- `MerkleProof::verify_consume` as a recursion over the remaining path,
ending in `check_root`.  `none` models a panic. -/
def verifyGo (mmr_size : Nat) (peaks : List Nat) (proofPeaks : List Hash)
    (root : Hash) : List Hash → Hash → Nat → Option (Except GeneError Unit)
  | [], hash, pos =>
    if peaks.length ≠ proofPeaks.length + 1 then some (.error .incorrectPeakMap)
    else
      match chainPeaks peaks proofPeaks hash pos with
      | none => none
      | some toks =>
        some (if root = Hash.digest toks then .ok () else .error .rootMismatch)
  | sibling :: rest, hash, pos =>
    let fs := family pos
    if fs.1 > mmr_size then some (.error .unexpected)
    else
      verifyGo mmr_size peaks proofPeaks root rest
        (if is_left_sibling fs.2 then sibling.hash_with hash else hash.hash_with sibling)
        fs.1

/-- `MerkleProof::verify`. -/
def verify (p : MerkleProof) (root hash : Hash) (pos : Nat) :
    Option (Except GeneError Unit) :=
  verifyGo p.mmr_size (find_peaks p.mmr_size) p.peaks root p.path hash pos

/-- `MerkleProof::verify_leaf`. -/
def verify_leaf (p : MerkleProof) (root hash : Hash) (leaf_pos : Nat) :
    Option (Except GeneError Unit) :=
  p.verify root hash (leaf_index leaf_pos)

end MerkleProof

/-! ### Pruned hash set (`pruned_hashset.rs`) and pruned MMRs (`pruned_mmr.rs`) -/

/-- `PrunedHashSet`: peaks of a frozen prefix plus an appended tail. -/
structure PrunedHashSet where
  base_offset : Nat
  peak_indices : List Nat
  peak_hashes : List Hash
  hashes : List Hash
deriving DecidableEq, Repr

/-- `PrunedHashSet::get`.  The `binary_search` over the (sorted) peak index
list is modelled by the first-match index. -/
def PrunedHashSet.get (s : PrunedHashSet) (i : Nat) : Option Hash :=
  if i < s.base_offset then
    match s.peak_indices.findIdx? (· = i) with
    | some n => s.peak_hashes[n]?
    | none => none
  else s.hashes[i - s.base_offset]?

/-- The `impl Storage for PrunedHashSet`. -/
instance : Storage PrunedHashSet where
  len s := s.base_offset + s.hashes.length
  push s h := ({ s with hashes := s.hashes ++ [h] }, s.base_offset + s.hashes.length)
  get := PrunedHashSet.get
  get_or_panic := PrunedHashSet.get
  clear _ := ⟨0, [], [], []⟩

/-- `PrunedHashSet::try_from(&MerkleMountainRange)`: snapshot the length and
the peak hashes. -/
def PrunedHashSet.fromMmr {σ : Type} [Storage σ] (mmr : MerkleMountainRange σ) :
    Except GeneError PrunedHashSet :=
  let base_offset := mmr.len
  let peak_indices := find_peaks base_offset
  match peak_indices.mapM (fun i => mmr.get_node_hash i) with
  | none =>
    .error (.hashNotFound (((peak_indices.find?
      (fun i => (mmr.get_node_hash i).isNone)).getD 0)))
  | some peak_hashes => .ok ⟨base_offset, peak_indices, peak_hashes, []⟩

/-- `prune_mmr`. -/
def prune_mmr {σ : Type} [Storage σ] (mmr : MerkleMountainRange σ) :
    Except GeneError (MerkleMountainRange PrunedHashSet) :=
  (PrunedHashSet.fromMmr mmr).map (⟨·⟩)

/-! ### Mutable MMR (`mutable_mmr.rs`, `mutable_mmr_leaf_nodes.rs`) -/

/-- `u32::MAX`. -/
def u32Max : Nat := 4294967295

/-- `MutableMmrLeafNodes`: a restorable snapshot. -/
structure MutableMmrLeafNodes where
  leaf_hashes : List Hash
  deleted : Bitmap
deriving DecidableEq, Repr

/-- `MutableMmr`: an MMR plus a deletion bitmap and the leaf-insertion
count. -/
structure MutableMmr (σ : Type) where
  mmr : MerkleMountainRange σ
  deleted : Bitmap
  size : Nat
deriving DecidableEq, Repr

namespace MutableMmr

variable {σ : Type} [Storage σ]

/-- `MutableMmr::new`. -/
def new (backend : σ) : MutableMmr σ :=
  ⟨MerkleMountainRange.new backend, Bitmap.create, 0⟩

/-- `MutableMmr::from(MerkleMountainRange)`. -/
def fromMmr (mmr : MerkleMountainRange σ) : MutableMmr σ :=
  ⟨mmr, Bitmap.create, n_leaves mmr.len⟩

/-- `MutableMmr::len`: live leaves (insertions minus deletions). -/
def len (m : MutableMmr σ) : Nat := m.size - m.deleted.cardinality

/-- `MutableMmr::is_empty`. -/
def is_empty (m : MutableMmr σ) : Bool :=
  m.mmr.is_empty || (m.deleted.cardinality == m.size)

/-- `MutableMmr::get_leaf_count`. -/
def get_leaf_count (m : MutableMmr σ) : Nat := m.size

/-- `MutableMmr::get_leaf_hash`: `none` for deleted or absent leaves. -/
def get_leaf_hash (m : MutableMmr σ) (k : Nat) : Option Hash :=
  if m.deleted.bContains k then none
  else m.mmr.get_node_hash (leaf_index k)

/-- `MutableMmr::push`.  Note the source discards the result of the inner
`MerkleMountainRange::push`: the size is incremented only on success, but the
function returns `Ok(size)` regardless. -/
def push (m : MutableMmr σ) (h : Hash) :
    Option (MutableMmr σ × Except GeneError Nat) :=
  if m.size ≥ u32Max then some (m, .error .maximumSizeReached)
  else
    match m.mmr.push h with
    | none => none
    | some (.error _) => some (m, .ok m.size)
    | some (.ok (mmr1, _)) =>
      some ({ m with mmr := mmr1, size := m.size + 1 }, .ok (m.size + 1))

/-- `MutableMmr::delete_and_compress`: returns the updated value and the
reported boolean. -/
def delete_and_compress (m : MutableMmr σ) (i : Nat) (compress : Bool) :
    MutableMmr σ × Bool :=
  if i ≥ m.size || m.deleted.bContains i then (m, false)
  else
    let m1 := { m with deleted := m.deleted.add i }
    (if compress then { m1 with deleted := m1.deleted.runOptimize } else m1, true)

/-- `MutableMmr::delete`. -/
def delete (m : MutableMmr σ) (i : Nat) : MutableMmr σ × Bool :=
  m.delete_and_compress i true

/-- `MutableMmr::compress`. -/
def compress (m : MutableMmr σ) : MutableMmr σ :=
  { m with deleted := m.deleted.runOptimize }

/-- `MutableMmr::get_merkle_root`: hash of the inner merkle root's bytes
followed by the serialized deletion bitmap. -/
def get_merkle_root (m : MutableMmr σ) : Option Hash :=
  match m.mmr.get_merkle_root with
  | none => none
  | some r => some (Hash.digestB [r] m.deleted.serialize)

/-- `MutableMmr::get_mmr_only_root`. -/
def get_mmr_only_root (m : MutableMmr σ) : Option Hash :=
  m.mmr.get_merkle_root

/-- `MutableMmr::restore`: restore the inner MMR from the snapshot's leaves,
then adopt the snapshot's bitmap and recompute the size. -/
def restore (m : MutableMmr σ) (state : MutableMmrLeafNodes) :
    Option (MutableMmr σ × Except GeneError Unit) :=
  match m.mmr.restore state.leaf_hashes with
  | none => none
  | some (mmr1, .error e) => some ({ m with mmr := mmr1 }, .error e)
  | some (mmr1, .ok _) =>
    some (⟨mmr1, state.deleted, n_leaves mmr1.len⟩, .ok ())

/-- `MutableMmr::clear`. -/
def clear (m : MutableMmr σ) : MutableMmr σ :=
  ⟨m.mmr.clear, Bitmap.create, 0⟩

end MutableMmr

/-- `prune_mutable_mmr`. -/
def prune_mutable_mmr {σ : Type} [Storage σ] (m : MutableMmr σ) :
    Except GeneError (MutableMmr PrunedHashSet) :=
  (PrunedHashSet.fromMmr m.mmr).map (fun backend =>
    ⟨MerkleMountainRange.new backend, m.deleted, m.size⟩)

/-! ### Change tracker (`change_tracker.rs`) -/

/-- `MerkleCheckPoint`. -/
structure MerkleCheckPoint where
  nodes_added : List Hash
  nodes_deleted : Bitmap
deriving DecidableEq, Repr

/-- The push loop of `MerkleCheckPoint::apply`: push every added hash,
stopping at (and keeping the state of) the first failure. -/
def applyFold {σ : Type} [Storage σ] :
    List Hash → MutableMmr σ → Option (MutableMmr σ × Except GeneError Unit)
  | [], m => some (m, .ok ())
  | h :: rest, m =>
    match m.push h with
    | none => none
    | some (m1, .error e) => some (m1, .error e)
    | some (m1, .ok _) => applyFold rest m1

/-- `MerkleCheckPoint::apply`: push the added hashes, then OR the deletion
bitmap into the target (without recompression). -/
def MerkleCheckPoint.apply {σ : Type} [Storage σ] (cp : MerkleCheckPoint)
    (m : MutableMmr σ) : Option (MutableMmr σ × Except GeneError Unit) :=
  match applyFold cp.nodes_added m with
  | none => none
  | some (m1, .error e) => some (m1, .error e)
  | some (m1, .ok _) =>
    some ({ m1 with deleted := m1.deleted.or cp.nodes_deleted }, .ok ())

/-- `MerkleChangeTrackerConfig`. -/
structure MerkleChangeTrackerConfig where
  min_history_len : Nat
  max_history_len : Nat
deriving DecidableEq, Repr

/-- `MerkleChangeTracker` with a vector base backend and a vector checkpoint
backend. -/
structure MerkleChangeTracker where
  base : MutableMmr (List Hash)
  mmr : MutableMmr PrunedHashSet
  checkpoints : List MerkleCheckPoint
  current_additions : List Hash
  current_deletions : Bitmap
  config : MerkleChangeTrackerConfig
  hist_commit_count : Nat
deriving DecidableEq, Repr

namespace MerkleChangeTracker

/-- `MerkleChangeTracker::new`. -/
def new (base : MutableMmr (List Hash)) (diffs : List MerkleCheckPoint)
    (config : MerkleChangeTrackerConfig) : Except GeneError MerkleChangeTracker :=
  if config.max_history_len < config.min_history_len then .error .invalidConfig
  else
    (prune_mutable_mmr base).map (fun mmr =>
      ⟨base, mmr, diffs, [], Bitmap.create, config,
        config.max_history_len - config.min_history_len + 1⟩)

/-- `MerkleChangeTracker::checkpoint_count`. -/
def checkpoint_count (t : MerkleChangeTracker) : Nat := t.checkpoints.length

/-- `MerkleChangeTracker::push`: push into the current MMR and record the
addition. -/
def push (t : MerkleChangeTracker) (h : Hash) :
    Option (MerkleChangeTracker × Except GeneError Nat) :=
  match t.mmr.push h with
  | none => none
  | some (m1, .error e) => some ({ t with mmr := m1 }, .error e)
  | some (m1, .ok r) =>
    some ({ t with mmr := m1, current_additions := t.current_additions ++ [h] }, .ok r)

/-- `MerkleChangeTracker::delete_and_compress`. -/
def delete_and_compress (t : MerkleChangeTracker) (i : Nat) (compress : Bool) :
    MerkleChangeTracker × Bool :=
  let r := t.mmr.delete_and_compress i compress
  if r.2 then
    ({ t with mmr := r.1, current_deletions := t.current_deletions.add i }, true)
  else ({ t with mmr := r.1 }, false)

/-- `MerkleChangeTracker::delete`. -/
def delete (t : MerkleChangeTracker) (i : Nat) : MerkleChangeTracker × Bool :=
  t.delete_and_compress i true

/-- The promotion loop of `update_base_mmr`: apply the given checkpoints to
the base in order, stopping at the first failure. -/
def baseApplyFold : List MerkleCheckPoint → MutableMmr (List Hash) →
    Option (MutableMmr (List Hash) × Except GeneError Unit)
  | [], b => some (b, .ok ())
  | cp :: rest, b =>
    match cp.apply b with
    | none => none
    | some (b1, .error e) => some (b1, .error e)
    | some (b1, .ok _) => baseApplyFold rest b1

/-- `MerkleChangeTracker::update_base_mmr`: once the log exceeds
`max_history_len`, apply the oldest `hist_commit_count` checkpoints to the
base and drop them from the log. -/
def update_base_mmr (t : MerkleChangeTracker) :
    Option (MerkleChangeTracker × Except GeneError Unit) :=
  if t.checkpoints.length > t.config.max_history_len then
    match baseApplyFold (t.checkpoints.take t.hist_commit_count) t.base with
    | none => none
    | some (b1, .error e) => some ({ t with base := b1 }, .error e)
    | some (b1, .ok _) =>
      some ({ t with base := b1
                     checkpoints := t.checkpoints.drop t.hist_commit_count }, .ok ())
  else some (t, .ok ())

/-- `MerkleChangeTracker::commit`: move the pending change set into a fresh
checkpoint appended to the log, then enforce the history bound. -/
def commit (t : MerkleChangeTracker) :
    Option (MerkleChangeTracker × Except GeneError Unit) :=
  let diff : MerkleCheckPoint := ⟨t.current_additions, t.current_deletions⟩
  update_base_mmr { t with current_additions := []
                           current_deletions := Bitmap.create
                           checkpoints := t.checkpoints ++ [diff] }

/-- `MerkleChangeTracker::revert_mmr_to_base`: prune the base and clear the
pending sets (the pending sets are only cleared when pruning succeeds). -/
def revert_mmr_to_base (t : MerkleChangeTracker) :
    Except GeneError (MerkleChangeTracker × MutableMmr PrunedHashSet) :=
  (prune_mutable_mmr t.base).map (fun m =>
    ({ t with current_additions := [], current_deletions := Bitmap.create }, m))

/-- The `for_each` latch of `replay`: apply the checkpoints in order;  once a
result is an error the remaining checkpoints are skipped and the state at the
error is kept. -/
def replayFold : List MerkleCheckPoint → MutableMmr PrunedHashSet →
    Option (MutableMmr PrunedHashSet × Except GeneError Unit)
  | [], m => some (m, .ok ())
  | cp :: rest, m =>
    match cp.apply m with
    | none => none
    | some (m1, .error e) => some (m1, .error e)
    | some (m1, .ok _) => replayFold rest m1

/-- `MerkleChangeTracker::replay`: revert to the pruned base, truncate the
log to `num_checkpoints`, apply the remaining checkpoints in order, compress
and install the result, returning the first error encountered. -/
def replay (t : MerkleChangeTracker) (num_checkpoints : Nat) :
    Option (MerkleChangeTracker × Except GeneError Unit) :=
  match t.revert_mmr_to_base with
  | .error e => some (t, .error e)
  | .ok (t1, m0) =>
    let t2 := { t1 with checkpoints := t1.checkpoints.take num_checkpoints }
    match replayFold t2.checkpoints m0 with
    | none => none
    | some (m1, res) => some ({ t2 with mmr := m1.compress }, res)

/-- `MerkleChangeTracker::reset`. -/
def reset (t : MerkleChangeTracker) :
    Option (MerkleChangeTracker × Except GeneError Unit) :=
  t.replay t.checkpoint_count

/-- `MerkleChangeTracker::rewind`: replay all but the last `steps_back`
checkpoints.  The source computes `checkpoint_count()? - steps_back` on
`usize`, which underflows when `steps_back` exceeds the checkpoint count;
`none` models that panic. -/
def rewind (t : MerkleChangeTracker) (steps_back : Nat) :
    Option (MerkleChangeTracker × Except GeneError Unit) :=
  if steps_back ≤ t.checkpoint_count then
    t.replay (t.checkpoint_count - steps_back)
  else none

/-- `MerkleChangeTracker::get_merkle_root` (through `Deref` to the current
MMR). -/
def get_merkle_root (t : MerkleChangeTracker) : Option Hash :=
  t.mmr.get_merkle_root

end MerkleChangeTracker

/-! ### Verification infrastructure: the forest view of an MMR

A vector-backed MMR built by pushes is the post-order flattening of a forest
of perfect binary trees of strictly decreasing heights (the binary-counter
representation of the leaf count).  The definitions below are proof
apparatus, not part of the embedded source. -/

/-- A binary tree carrying a stored hash at every node. -/
inductive PTree where
  | leaf : Hash → PTree
  | node : Hash → PTree → PTree → PTree
deriving DecidableEq, Repr

namespace PTree

/-- The stored hash at the root. -/
def top : PTree → Hash
  | .leaf h => h
  | .node h _ _ => h

/-- Height (leaf = 0). -/
def ht : PTree → Nat
  | .leaf _ => 0
  | .node _ l _ => l.ht + 1

/-- Post-order flattening: left, right, root. -/
def flat : PTree → List Hash
  | .leaf h => [h]
  | .node h l r => l.flat ++ r.flat ++ [h]

/-- Perfect shape: children of equal heights. -/
def shapeOk : PTree → Prop
  | .leaf _ => True
  | .node _ l r => l.ht = r.ht ∧ l.shapeOk ∧ r.shapeOk

/-- Hash-correct: every internal hash is the digest of its children's. -/
def hashOk : PTree → Prop
  | .leaf _ => True
  | .node h l r => h = Hash.digest [l.top, r.top] ∧ l.hashOk ∧ r.hashOk

/-- Leaf hashes in order. -/
def leafHashes : PTree → List Hash
  | .leaf h => [h]
  | .node _ l r => l.leafHashes ++ r.leafHashes

/-- The `j`-th leaf hash. -/
def leafAt : PTree → Nat → Hash
  | .leaf h, _ => h
  | .node _ l r, j => if j < 2 ^ l.ht then l.leafAt j else r.leafAt (j - 2 ^ l.ht)

/-- Post-order position of the `j`-th leaf within the tree's layout. -/
def llp : PTree → Nat → Nat
  | .leaf _, _ => 0
  | .node _ l r, j =>
    if j < 2 ^ l.ht then l.llp j
    else (2 ^ (l.ht + 1) - 1) + r.llp (j - 2 ^ l.ht)

/-- Sibling hashes along the path from the `j`-th leaf up to the root
(bottom-up, root's children last). -/
def leafPath : PTree → Nat → List Hash
  | .leaf _, _ => []
  | .node _ l r, j =>
    if j < 2 ^ l.ht then l.leafPath j ++ [r.top]
    else r.leafPath (j - 2 ^ l.ht) ++ [l.top]

/-- The `(parent, sibling)` pairs along the path from the `j`-th leaf up to
the root, for a tree laid out starting at absolute position `a`. -/
def branchIn : PTree → Nat → Nat → List (Nat × Nat)
  | .leaf _, _, _ => []
  | .node _ l r, a, j =>
    let c := 2 ^ (l.ht + 1) - 1
    if j < 2 ^ l.ht then l.branchIn a j ++ [(a + 2 * c, a + 2 * c - 1)]
    else r.branchIn (a + c) (j - 2 ^ l.ht) ++ [(a + 2 * c, a + c - 1)]

end PTree

/-- Flattening of a forest (layout order: tallest tree first). -/
def flatF (F : List PTree) : List Hash := (F.map PTree.flat).flatten

/-- Number of nodes of a forest. -/
def lenF (F : List PTree) : Nat := (flatF F).length

/-- The peak bitmap of a forest: the sum of `2 ^ height` over its trees
(equal to the leaf count when the heights are distinct). -/
def bitsF (F : List PTree) : Nat := (F.map (fun t => 2 ^ t.ht)).sum

/-- Leaf hashes of a forest in order. -/
def leavesF (F : List PTree) : List Hash := (F.map PTree.leafHashes).flatten

/-- Strictly decreasing heights, left to right. -/
def decF (F : List PTree) : Prop := F.Pairwise (fun a b => b.ht < a.ht)

/-- Every tree perfectly shaped. -/
def shapeF (F : List PTree) : Prop := ∀ t ∈ F, t.shapeOk

/-- Every tree hash-correct. -/
def hashF (F : List PTree) : Prop := ∀ t ∈ F, t.hashOk

/-- Root positions of the forest's trees, given a starting offset. -/
def rootPosGo : Nat → List PTree → List Nat
  | _, [] => []
  | acc, t :: ts => (acc + 2 ^ (t.ht + 1) - 2) :: rootPosGo (acc + 2 ^ (t.ht + 1) - 1) ts

/-- Root positions of the forest's trees in the layout. -/
def rootPositions (F : List PTree) : List Nat := rootPosGo 0 F

/-- Binary-counter insertion of a carried tree into the reversed forest
(smallest heights first): merge while the next tree has the same height. -/
def insertT : PTree → List PTree → List PTree
  | t, [] => [t]
  | t, u :: us =>
    if u.ht = t.ht then insertT (.node (Hash.digest [u.top, t.top]) u t) us
    else t :: u :: us

/-- Forest-level push of a new leaf. -/
def pushF (F : List PTree) (h : Hash) : List PTree :=
  (insertT (.leaf h) F.reverse).reverse

/-- The forest built by pushing a list of leaves into an empty MMR. -/
def builtF (hs : List Hash) : List PTree := hs.foldl pushF []

/-- Rebuild the perfect tree of height `e` whose post-order flattening is
`xs` (for `xs` of length `2 ^ (e+1) - 1`). -/
def unflatten : Nat → List Hash → PTree
  | 0, xs => .leaf (xs.headD Hash.zero)
  | e + 1, xs =>
    let c := 2 ^ (e + 1) - 1
    .node (xs.getLastD Hash.zero) (unflatten e (xs.take c))
      (unflatten e ((xs.drop c).take c))

/-- Total node count of an MMR whose peak bitmap is `m`:
`2 m - popcount m`. -/
def nodesOf (m : Nat) : Nat := 2 * m - popcount m

/-- The deleted-bits bound of a `MutableMmr` (claim C9): every deleted leaf
index is below the insertion count. -/
def deletedOk {σ : Type} [Storage σ] (m : MutableMmr σ) : Prop :=
  ∀ i ∈ m.deleted, i < m.size

/-- A run of the `family` climb: starting at position `p`, each listed
`(parent, sibling)` pair is the family of the current position, the parent
becoming current; `R` is the position reached at the end. -/
def chainRun : Nat → List (Nat × Nat) → Nat → Prop
  | p, [], R => p = R
  | p, pr :: rest, R => family p = pr ∧ chainRun pr.1 rest R

/-- Clean all-successes iteration of checkpoint application (used to state
the replay error-atomicity claim). -/
def applyChainOk : List MerkleCheckPoint → MutableMmr PrunedHashSet →
    Option (MutableMmr PrunedHashSet)
  | [], m => some m
  | cp :: rest, m =>
    match cp.apply m with
    | some (m1, .ok _) => applyChainOk rest m1
    | _ => none

example : bintree_height 0 = 0 := by decide
example : bintree_height 2 = 1 := by decide
example : bintree_height 6 = 2 := by decide
example : (List.range 7).map bintree_height = [0, 0, 1, 0, 0, 1, 2] := by decide
example : [0, 1, 2, 3, 4, 8].map leaf_index = [0, 1, 3, 4, 7, 15] := by decide
example : find_peaks 7 = [6] := by decide
example : find_peaks 10 = [6, 9] := by decide
example : find_peaks 4 = [2, 3] := by decide
example : n_leaves 7 = 4 := by decide
example : family 3 = (5, 4) := by decide
example : family 4 = (5, 3) := by decide
example : family 2 = (6, 5) := by decide
example : family_branch 3 7 = [(5, 4), (6, 2)] := by decide
example : is_left_sibling 3 = true ∧ is_left_sibling 4 = false := by decide

/-! ### Arithmetic groundwork -/

theorem popcountGo_congr : ∀ {f g n : Nat}, n ≤ f → n ≤ g →
    popcountGo f n = popcountGo g n := by
  intro f
  induction f with
  | zero =>
    intro g n hf _
    interval_cases n
    cases g <;> simp [popcountGo]
  | succ f ih =>
    intro g n hf hg
    cases g with
    | zero =>
      interval_cases n
      simp [popcountGo]
    | succ g =>
      by_cases hn : n = 0
      · simp [popcountGo, hn]
      · have h2 : n / 2 < n := Nat.div_lt_self (Nat.pos_of_ne_zero hn) (by omega)
        simp only [popcountGo, hn, if_false]
        have := ih (g := g) (n := n / 2) (by omega) (by omega)
        omega

theorem popcount_eq (n : Nat) :
    popcount n = if n = 0 then 0 else popcount (n / 2) + n % 2 := by
  by_cases hn : n = 0
  · simp [popcount, popcountGo, hn]
  · have h2 : n / 2 < n := Nat.div_lt_self (Nat.pos_of_ne_zero hn) (by omega)
    rcases Nat.exists_eq_succ_of_ne_zero hn with ⟨f, rfl⟩
    show popcountGo (f + 1) (f + 1) = _
    simp only [popcountGo, Nat.succ_ne_zero, if_false]
    have h := popcountGo_congr (f := f) (g := (f + 1) / 2) (n := (f + 1) / 2)
      (by omega) (le_refl _)
    rw [h]
    rfl

theorem popcount_zero : popcount 0 = 0 := by decide

theorem popcount_le (n : Nat) : popcount n ≤ n := by
  induction n using Nat.strong_induction_on with
  | _ n ih =>
    rw [popcount_eq]
    by_cases hn : n = 0
    · simp [hn]
    · have h2 : n / 2 < n := Nat.div_lt_self (Nat.pos_of_ne_zero hn) (by omega)
      have := ih (n / 2) h2
      simp only [hn, if_false]
      omega

theorem popcount_add_pow {m h : Nat} (hbit : m.testBit h = false) :
    popcount (m + 2 ^ h) = popcount m + 1 := by
  induction h generalizing m with
  | zero =>
    have hm2 : m % 2 = 0 := by
      simpa [Nat.testBit_zero] using hbit
    simp only [pow_zero]
    rw [popcount_eq (m + 1), popcount_eq m]
    by_cases hm : m = 0
    · simp [hm, popcount_zero]
    · have hd : (m + 1) / 2 = m / 2 := by omega
      simp only [Nat.add_one_ne_zero, if_false, hm, hd]
      omega
  | succ h ih =>
    have hdiv : (m + 2 ^ (h + 1)) / 2 = m / 2 + 2 ^ h := by
      have he : m + 2 ^ (h + 1) = m + 2 ^ h * 2 := by ring_nf
      rw [he, Nat.add_mul_div_right _ _ (by omega : (0:Nat) < 2)]
    have hmod : (m + 2 ^ (h + 1)) % 2 = m % 2 := by
      have he : m + 2 ^ (h + 1) = m + 2 ^ h * 2 := by ring_nf
      omega
    have hbit2 : (m / 2).testBit h = false := by
      rw [← Nat.testBit_succ]
      exact hbit
    rw [popcount_eq (m + 2 ^ (h + 1)), popcount_eq m]
    have hne : ¬ (m + 2 ^ (h + 1) = 0) := by positivity
    simp only [hne, if_false, hdiv, hmod, ih hbit2]
    by_cases hm : m = 0
    · simp [hm, popcount_zero]
    · simp only [hm, if_false]
      omega

theorem two_pow_le_of_testBit {m h : Nat} (hbit : m.testBit h = true) :
    2 ^ h ≤ m := by
  induction h generalizing m with
  | zero =>
    have : m % 2 = 1 := by simpa [Nat.testBit_zero] using hbit
    simpa using by omega
  | succ h ih =>
    rw [Nat.testBit_succ] at hbit
    have h2 : 2 ^ h ≤ m / 2 := ih hbit
    have h3 := Nat.div_mul_le_self m 2
    have : 2 ^ (h + 1) = 2 ^ h * 2 := by ring
    omega

theorem popcount_sub_pow {m h : Nat} (hbit : m.testBit h = true) :
    popcount m = popcount (m - 2 ^ h) + 1 := by
  induction h generalizing m with
  | zero =>
    have hm2 : m % 2 = 1 := by simpa [Nat.testBit_zero] using hbit
    simp only [pow_zero]
    rw [popcount_eq m, popcount_eq (m - 1)]
    by_cases hm1 : m = 1
    · simp [hm1, popcount_zero]
    · have hne : ¬ (m = 0) := by omega
      have hne1 : ¬ (m - 1 = 0) := by omega
      have hd : (m - 1) / 2 = m / 2 := by omega
      simp only [hne, hne1, if_false, hd]
      omega
  | succ h ih =>
    rw [Nat.testBit_succ] at hbit
    have hle : 2 ^ h ≤ m / 2 := two_pow_le_of_testBit hbit
    have hpow : (2:Nat) ^ (h + 1) = 2 ^ h * 2 := by ring
    have hle2 : 2 ^ (h + 1) ≤ m := by
      have h3 := Nat.div_mul_le_self m 2
      omega
    have hdiv : (m - 2 ^ (h + 1)) / 2 = m / 2 - 2 ^ h := by omega
    have hmod : (m - 2 ^ (h + 1)) % 2 = m % 2 := by omega
    rw [popcount_eq m, popcount_eq (m - 2 ^ (h + 1))]
    have hm0 : ¬ (m = 0) := by
      have : (0:Nat) < 2 ^ (h+1) := by positivity
      omega
    by_cases hz : m - 2 ^ (h + 1) = 0
    · have hdiv2 : m / 2 = 2 ^ h := by omega
      have hmod2 : m % 2 = 0 := by omega
      have h1 := ih (m := m / 2) hbit
      rw [hdiv2] at h1
      simp only [Nat.sub_self, popcount_zero] at h1
      rw [if_neg hm0, if_pos hz, hdiv2, hmod2]
      omega
    · rw [if_neg hm0, if_neg hz, hdiv, hmod]
      have := ih hbit
      omega

theorem testBit_add_pow_lt {m h j : Nat} (hj : j < h) :
    (m + 2 ^ h).testBit j = m.testBit j := by
  rw [Nat.testBit_to_div_mod, Nat.testBit_to_div_mod]
  have hsplit : (2:Nat) ^ h = 2 ^ j * (2 * 2 ^ (h - j - 1)) := by
    rw [← pow_succ']
    rw [← pow_add]
    congr 1
    omega
  have hdiv : (m + 2 ^ h) / 2 ^ j = m / 2 ^ j + 2 * 2 ^ (h - j - 1) := by
    rw [hsplit, Nat.add_mul_div_left _ _ (by positivity : (0:Nat) < 2 ^ j)]
  rw [hdiv]
  have : (m / 2 ^ j + 2 * 2 ^ (h - j - 1)) % 2 = m / 2 ^ j % 2 := by omega
  rw [this]

theorem testBit_add_pow_self {m h : Nat} (hbit : m.testBit h = false) :
    (m + 2 ^ h).testBit h = true := by
  rw [Nat.testBit_to_div_mod] at hbit ⊢
  have hdiv : (m + 2 ^ h) / 2 ^ h = m / 2 ^ h + 1 :=
    Nat.add_div_right _ (by positivity)
  rw [hdiv]
  have h0 : m / 2 ^ h % 2 = 0 := by
    revert hbit
    rcases Nat.mod_two_eq_zero_or_one (m / 2 ^ h) with h2 | h2 <;> simp [h2]
  simp only [decide_eq_true_eq]
  omega

theorem testBit_sub_pow_lt {m h j : Nat} (hbit : m.testBit h = true) (hj : j < h) :
    (m - 2 ^ h).testBit j = m.testBit j := by
  have hle : 2 ^ h ≤ m := two_pow_le_of_testBit hbit
  have heq : m - 2 ^ h + 2 ^ h = m := by omega
  conv_rhs => rw [← heq]
  rw [testBit_add_pow_lt hj]

theorem testBit_sub_pow_self {m h : Nat} (hbit : m.testBit h = true) :
    (m - 2 ^ h).testBit h = false := by
  have hle : 2 ^ h ≤ m := two_pow_le_of_testBit hbit
  have hpos : (0:Nat) < 2 ^ h := by positivity
  rw [Nat.testBit_to_div_mod] at hbit ⊢
  have hq : m / 2 ^ h % 2 = 1 := by
    revert hbit
    rcases Nat.mod_two_eq_zero_or_one (m / 2 ^ h) with h2 | h2 <;> simp [h2]
  have hdiv : (m - 2 ^ h) / 2 ^ h = m / 2 ^ h - 1 := by
    rcases Nat.exists_eq_add_of_le hle with ⟨k, hk⟩
    have h1 : m - 2 ^ h = k := by omega
    have h2 : m / 2 ^ h = k / 2 ^ h + 1 := by
      rw [hk, Nat.add_comm (2 ^ h) k, Nat.add_div_right _ hpos]
    rw [h1, h2]
    simp
  rw [hdiv]
  simp only [decide_eq_false_iff_not]
  omega

theorem testBit_lt_pow {m j : Nat} (hm : m < 2 ^ j) : m.testBit j = false := by
  rw [Nat.testBit_to_div_mod]
  have : m / 2 ^ j = 0 := Nat.div_eq_of_lt hm
  simp [this]

theorem bitlenGo_congr : ∀ {f g n : Nat}, n ≤ f → n ≤ g →
    bitlenGo f n = bitlenGo g n := by
  intro f
  induction f with
  | zero =>
    intro g n hf _
    interval_cases n
    cases g <;> simp [bitlenGo]
  | succ f ih =>
    intro g n hf hg
    cases g with
    | zero =>
      interval_cases n
      simp [bitlenGo]
    | succ g =>
      by_cases hn : n = 0
      · simp [bitlenGo, hn]
      · have h2 : n / 2 < n := Nat.div_lt_self (Nat.pos_of_ne_zero hn) (by omega)
        simp only [bitlenGo, hn, if_false]
        have := ih (g := g) (n := n / 2) (by omega) (by omega)
        omega

theorem bitlen_eq (n : Nat) :
    bitlen n = if n = 0 then 0 else bitlen (n / 2) + 1 := by
  by_cases hn : n = 0
  · simp [bitlen, bitlenGo, hn]
  · rcases Nat.exists_eq_succ_of_ne_zero hn with ⟨f, rfl⟩
    show bitlenGo (f + 1) (f + 1) = _
    simp only [bitlenGo, Nat.succ_ne_zero, if_false]
    have h := bitlenGo_congr (f := f) (g := (f + 1) / 2) (n := (f + 1) / 2)
      (by omega) (le_refl _)
    rw [h]
    rfl

theorem lt_two_pow_bitlen (n : Nat) : n < 2 ^ bitlen n := by
  induction n using Nat.strong_induction_on with
  | _ n ih =>
    rw [bitlen_eq]
    by_cases hn : n = 0
    · simp [hn]
    · have h2 : n / 2 < n := Nat.div_lt_self (Nat.pos_of_ne_zero hn) (by omega)
      have := ih (n / 2) h2
      simp only [hn, if_false, pow_succ]
      omega

theorem testBit_ge_bitlen {n j : Nat} (hj : bitlen n ≤ j) : n.testBit j = false := by
  apply testBit_lt_pow
  calc n < 2 ^ bitlen n := lt_two_pow_bitlen n
  _ ≤ 2 ^ j := Nat.pow_le_pow_right (by omega) hj

/-! ### The peak-map automaton over perfect trees and forests -/

theorem pmh_add (a b : Nat) :
    peak_map_height (a + b) = pmStep^[b] (peak_map_height a) := by
  show pmStep^[a + b] (0, 0) = _
  rw [Nat.add_comm, Function.iterate_add_apply]
  rfl

theorem PTree.flat_length {t : PTree} (hs : t.shapeOk) :
    t.flat.length = 2 ^ (t.ht + 1) - 1 := by
  induction t with
  | leaf h => simp [PTree.flat, PTree.ht]
  | node h l r ihl ihr =>
    obtain ⟨hlr, hl, hr⟩ := hs
    have h1 := ihl hl
    have h2 := ihr hr
    simp only [PTree.flat, PTree.ht, List.length_append, List.length_cons,
      List.length_nil, h1, h2, ← hlr]
    have hp : (0:Nat) < 2 ^ (l.ht + 1) := by positivity
    have hq : (2:Nat) ^ (l.ht + 1 + 1) = 2 ^ (l.ht + 1) * 2 := by ring
    omega

theorem PTree.flat_ne_nil (t : PTree) : t.flat ≠ [] := by
  cases t <;> simp [PTree.flat]

/-- State of the automaton at the root of a perfect tree: laying a perfect
tree of height `H` from a fresh-leaf state whose peak map is clear below `H`
arrives at the root in state `(m, H)`. -/
theorem pmRun_tree {t : PTree} (hs : t.shapeOk) :
    ∀ m : Nat, (∀ j, j < t.ht → m.testBit j = false) →
    pmStep^[2 ^ (t.ht + 1) - 2] (m, 0) = (m, t.ht) := by
  induction t with
  | leaf h =>
    intro m _
    simp [PTree.ht]
  | node h l r ihl ihr =>
    intro m hm
    obtain ⟨hlr, hl, hr⟩ := hs
    have hH : (PTree.node h l r).ht = l.ht + 1 := rfl
    have hc1 : (1:Nat) ≤ 2 ^ (l.ht + 1) := Nat.one_le_two_pow
    have hsteps : 2 ^ ((PTree.node h l r).ht + 1) - 2
        = (1 + (2 ^ (l.ht + 1) - 2)) + (1 + (2 ^ (l.ht + 1) - 2)) := by
      rw [hH]
      have h2 : (2:Nat) ^ (l.ht + 1 + 1) = 2 ^ (l.ht + 1) * 2 := by ring
      omega
    rw [hsteps, Function.iterate_add_apply]
    have hmlow : ∀ j, j < l.ht → m.testBit j = false := by
      intro j hj
      exact hm j (by rw [hH]; omega)
    have hbitH : m.testBit l.ht = false := hm l.ht (by rw [hH]; omega)
    have hleft : pmStep^[1 + (2 ^ (l.ht + 1) - 2)] (m, 0) = (m + 2 ^ l.ht, 0) := by
      rw [Function.iterate_add_apply, ihl hl m hmlow]
      simp [pmStep, hbitH]
    rw [hleft]
    have hmlow2 : ∀ j, j < r.ht → (m + 2 ^ l.ht).testBit j = false := by
      intro j hj
      rw [← hlr] at hj
      rw [testBit_add_pow_lt hj]
      exact hmlow j hj
    rw [Function.iterate_add_apply]
    have hr2 : (2:Nat) ^ (l.ht + 1) - 2 = 2 ^ (r.ht + 1) - 2 := by rw [hlr]
    rw [hr2, ihr hr (m + 2 ^ l.ht) hmlow2]
    have hbit2 : (m + 2 ^ l.ht).testBit l.ht = true := testBit_add_pow_self hbitH
    have hrl : r.ht = l.ht := hlr.symm
    rw [hrl]
    simp only [Function.iterate_one, pmStep, hbit2, if_true]
    rw [hH]
    simp

theorem flatF_nil : flatF [] = [] := rfl

theorem flatF_cons (t : PTree) (F : List PTree) :
    flatF (t :: F) = t.flat ++ flatF F := by
  simp [flatF]

theorem flatF_append (F G : List PTree) :
    flatF (F ++ G) = flatF F ++ flatF G := by
  simp [flatF]

theorem lenF_nil : lenF [] = 0 := rfl

theorem lenF_cons (t : PTree) (F : List PTree) :
    lenF (t :: F) = t.flat.length + lenF F := by
  simp [lenF, flatF_cons]

theorem lenF_append (F G : List PTree) :
    lenF (F ++ G) = lenF F + lenF G := by
  simp [lenF, flatF_append]

theorem bitsF_nil : bitsF [] = 0 := rfl

theorem bitsF_cons (t : PTree) (F : List PTree) :
    bitsF (t :: F) = 2 ^ t.ht + bitsF F := by
  simp [bitsF]

theorem bitsF_append (F G : List PTree) :
    bitsF (F ++ G) = bitsF F + bitsF G := by
  simp [bitsF]

/-- Laying a full perfect tree from a fresh-leaf state adds one peak. -/
theorem pmRun_treeA {t : PTree} (hs : t.shapeOk) (m : Nat)
    (hm : ∀ j, j ≤ t.ht → m.testBit j = false) :
    pmStep^[2 ^ (t.ht + 1) - 1] (m, 0) = (m + 2 ^ t.ht, 0) := by
  have hc1 : (1:Nat) ≤ 2 ^ (t.ht + 1) := Nat.one_le_two_pow
  have hsteps : 2 ^ (t.ht + 1) - 1 = 1 + (2 ^ (t.ht + 1) - 2) := by
    have h2 : (2:Nat) ^ (t.ht + 1) = 2 ^ t.ht * 2 := by ring
    have h3 : (1:Nat) ≤ 2 ^ t.ht := Nat.one_le_two_pow
    omega
  rw [hsteps, Function.iterate_add_apply,
    pmRun_tree hs m (fun j hj => hm j (by omega))]
  simp [pmStep, hm t.ht (le_refl _)]

/-- Laying a forest of strictly decreasing heights from a state clear at all
those heights adds all its peaks. -/
theorem pmRun_forest : ∀ (F : List PTree) (m : Nat), shapeF F → decF F →
    (∀ t ∈ F, ∀ j, j ≤ t.ht → m.testBit j = false) →
    pmStep^[lenF F] (m, 0) = (m + bitsF F, 0) := by
  intro F
  induction F with
  | nil =>
    intro m _ _ _
    simp [lenF_nil, bitsF_nil]
  | cons t F ih =>
    intro m hshape hdec hm
    have ht : t.shapeOk := hshape t (by simp)
    have hlen : lenF (t :: F) = (2 ^ (t.ht + 1) - 1) + lenF F := by
      rw [lenF_cons, PTree.flat_length ht]
    rw [hlen, Nat.add_comm, Function.iterate_add_apply]
    rw [pmRun_treeA ht m (hm t (by simp))]
    have hdec2 : decF F := (List.pairwise_cons.mp hdec).2
    have hlt : ∀ u ∈ F, u.ht < t.ht := (List.pairwise_cons.mp hdec).1
    have hm2 : ∀ u ∈ F, ∀ j, j ≤ u.ht → (m + 2 ^ t.ht).testBit j = false := by
      intro u hu j hj
      have hjt : j < t.ht := lt_of_le_of_lt hj (hlt u hu)
      rw [testBit_add_pow_lt hjt]
      exact hm u (by simp [hu]) j hj
    rw [ih (m + 2 ^ t.ht) (fun u hu => hshape u (by simp [hu])) hdec2 hm2]
    rw [bitsF_cons]
    ring_nf

/-- On a forest layout, the next append slot has height 0 and the peak map
is exactly the forest's peak bitmap. -/
theorem pmh_forest {F : List PTree} (hshape : shapeF F) (hdec : decF F) :
    peak_map_height (lenF F) = (bitsF F, 0) := by
  have h := pmRun_forest F 0 hshape hdec (by intro t _ j _; exact Nat.zero_testBit j)
  show pmStep^[lenF F] (0, 0) = _
  rw [h]
  simp

/-- Prefix version: the automaton state at the boundary between a prefix and
the rest of a forest. -/
theorem pmh_front {Fpre Fsuf : List PTree} (hshape : shapeF (Fpre ++ Fsuf))
    (hdec : decF (Fpre ++ Fsuf)) :
    peak_map_height (lenF Fpre) = (bitsF Fpre, 0) := by
  apply pmh_forest
  · intro t htmem
    exact hshape t (by simp [htmem])
  · exact (List.pairwise_append.mp hdec).1

theorem bitsF_lt {F : List PTree} {H : Nat} (hdec : decF F)
    (hht : ∀ u ∈ F, u.ht < H) : bitsF F < 2 ^ H := by
  induction F generalizing H with
  | nil =>
    rw [bitsF_nil]
    positivity
  | cons t F ih =>
    rw [bitsF_cons]
    have h1 : bitsF F < 2 ^ t.ht :=
      ih (List.pairwise_cons.mp hdec).2 (List.pairwise_cons.mp hdec).1
    have h2 : t.ht < H := hht t (by simp)
    have h3 : 2 ^ (t.ht + 1) ≤ 2 ^ H := Nat.pow_le_pow_right (by omega) (by omega)
    have h4 : (2:Nat) ^ (t.ht + 1) = 2 ^ t.ht * 2 := by ring
    omega

theorem bitsF_testBit : ∀ (F : List PTree), decF F → ∀ j : Nat,
    ((bitsF F).testBit j = true ↔ ∃ t ∈ F, t.ht = j) := by
  intro F
  induction F with
  | nil =>
    intro _ j
    rw [bitsF_nil]
    simp [Nat.zero_testBit]
  | cons t F ih =>
    intro hdec j
    have hlt : ∀ u ∈ F, u.ht < t.ht := (List.pairwise_cons.mp hdec).1
    have hdec2 : decF F := (List.pairwise_cons.mp hdec).2
    have hlow : bitsF F < 2 ^ t.ht := bitsF_lt hdec2 hlt
    have hcomm : bitsF (t :: F) = bitsF F + 2 ^ t.ht := by
      rw [bitsF_cons]; ring
    rw [hcomm]
    rcases lt_trichotomy j t.ht with hj | hj | hj
    · rw [testBit_add_pow_lt hj, ih hdec2 j]
      constructor
      · rintro ⟨u, hu, rfl⟩
        exact ⟨u, by simp [hu], rfl⟩
      · rintro ⟨u, hu, rfl⟩
        rcases List.mem_cons.mp hu with rfl | hu2
        · omega
        · exact ⟨u, hu2, rfl⟩
    · rw [hj, testBit_add_pow_self (testBit_lt_pow hlow)]
      exact iff_of_true rfl ⟨t, by simp, rfl⟩
    · have hlt2 : bitsF F + 2 ^ t.ht < 2 ^ j := by
        have h3 : 2 ^ (t.ht + 1) ≤ 2 ^ j := Nat.pow_le_pow_right (by omega) (by omega)
        have h4 : (2:Nat) ^ (t.ht + 1) = 2 ^ t.ht * 2 := by ring
        omega
      rw [testBit_lt_pow hlt2]
      refine iff_of_false (by simp) ?_
      rintro ⟨u, hu, rfl⟩
      rcases List.mem_cons.mp hu with rfl | hu2
      · omega
      · have := hlt u hu2
        omega

theorem peaksGo_congr_low : ∀ (e : Nat) (m m' acc : Nat),
    (∀ j, j < e → m.testBit j = m'.testBit j) →
    peaksGo e m acc = peaksGo e m' acc := by
  intro e
  induction e with
  | zero => intro m m' acc _; rfl
  | succ e ih =>
    intro m m' acc hbits
    have hih := ih m m' (acc + 2 ^ (e + 1) - 1) (fun j hj => hbits j (by omega))
    have hih2 := ih m m' acc (fun j hj => hbits j (by omega))
    simp only [peaksGo, hbits e (by omega)]
    by_cases hb : m'.testBit e = true
    · rw [if_pos hb, if_pos hb, hih]
    · rw [if_neg hb, if_neg hb]
      exact hih2

theorem peaksGo_forest : ∀ (e : Nat) (F : List PTree) (acc : Nat),
    decF F → (∀ t ∈ F, t.ht < e) →
    peaksGo e (bitsF F) acc = rootPosGo acc F := by
  intro e
  induction e with
  | zero =>
    intro F acc _ hht
    cases F with
    | nil => rfl
    | cons t F => exact absurd (hht t (by simp)) (by omega)
  | succ e ih =>
    intro F acc hdec hht
    by_cases hbit : (bitsF F).testBit e = true
    · rcases (bitsF_testBit F hdec e).mp hbit with ⟨t, htmem, hteq⟩
      cases F with
      | nil => simp at htmem
      | cons u F2 =>
        have hlt : ∀ v ∈ F2, v.ht < u.ht := (List.pairwise_cons.mp hdec).1
        have hdec2 : decF F2 := (List.pairwise_cons.mp hdec).2
        have hue : u.ht = e := by
          rcases List.mem_cons.mp htmem with rfl | hmem2
          · exact hteq
          · have h1 := hlt t hmem2
            have h2 := hht u (by simp)
            omega
        simp only [peaksGo]
        rw [if_pos hbit]
        simp only [rootPosGo, hue]
        congr 1
        have hcomm : bitsF (u :: F2) = bitsF F2 + 2 ^ u.ht := by
          rw [bitsF_cons]; ring
        have hstep : peaksGo e (bitsF (u :: F2)) (acc + 2 ^ (e + 1) - 1)
            = peaksGo e (bitsF F2) (acc + 2 ^ (e + 1) - 1) := by
          apply peaksGo_congr_low
          intro j hj
          rw [hcomm, testBit_add_pow_lt (by omega)]
        rw [hstep]
        exact ih F2 _ hdec2 (fun v hv => by have := hlt v hv; omega)
    · have hnone : ∀ t ∈ F, t.ht < e := by
        intro t htmem
        have h1 := hht t htmem
        by_contra hcon
        have hte : t.ht = e := by omega
        exact hbit ((bitsF_testBit F hdec e).mpr ⟨t, htmem, hte⟩)
      simp only [peaksGo]
      rw [if_neg hbit]
      exact ih F acc hdec hnone

theorem lenF_eq_zero {F : List PTree} (h : lenF F = 0) : F = [] := by
  cases F with
  | nil => rfl
  | cons t F =>
    rw [lenF_cons] at h
    have h1 := PTree.flat_ne_nil t
    have h2 : t.flat.length ≠ 0 := by
      intro hc
      exact h1 (List.length_eq_zero.mp hc)
    omega

theorem find_peaks_forest {F : List PTree} (hshape : shapeF F) (hdec : decF F) :
    find_peaks (lenF F) = rootPositions F := by
  by_cases hn : lenF F = 0
  · rw [lenF_eq_zero hn] at *
    rfl
  · rw [find_peaks]
    simp only [hn, if_false]
    rw [pmh_forest hshape hdec]
    show peaksGo (bitlen (bitsF F)) (bitsF F) 0 = rootPositions F
    apply peaksGo_forest _ _ _ hdec
    intro t htmem
    have h1 : 2 ^ t.ht ≤ bitsF F := by
      rcases List.append_of_mem htmem with ⟨A, B, rfl⟩
      rw [bitsF_append, bitsF_cons]
      omega
    have h2 : bitsF F < 2 ^ bitlen (bitsF F) := lt_two_pow_bitlen _
    by_contra hcon
    have h3 : 2 ^ bitlen (bitsF F) ≤ 2 ^ t.ht :=
      Nat.pow_le_pow_right (by omega) (by omega)
    omega

/-! ### Root positions -/

theorem rootPosGo_ge : ∀ (F : List PTree) (acc : Nat) (p : Nat),
    p ∈ rootPosGo acc F → acc ≤ p := by
  intro F
  induction F with
  | nil => intro acc p hp; simp [rootPosGo] at hp
  | cons t F ih =>
    intro acc p hp
    rcases List.mem_cons.mp hp with rfl | hp2
    · have : (1:Nat) ≤ 2 ^ (t.ht + 1) := Nat.one_le_two_pow
      omega
    · have := ih _ _ hp2
      have : (1:Nat) ≤ 2 ^ (t.ht + 1) := Nat.one_le_two_pow
      omega

theorem rootPosGo_lt : ∀ (F : List PTree) (acc : Nat), shapeF F →
    ∀ p ∈ rootPosGo acc F, p < acc + lenF F := by
  intro F
  induction F with
  | nil => intro acc _ p hp; simp [rootPosGo] at hp
  | cons t F ih =>
    intro acc hshape p hp
    have hflat : t.flat.length = 2 ^ (t.ht + 1) - 1 :=
      PTree.flat_length (hshape t (by simp))
    have h1 : (1:Nat) ≤ 2 ^ (t.ht + 1) := Nat.one_le_two_pow
    rw [lenF_cons]
    rcases List.mem_cons.mp hp with rfl | hp2
    · omega
    · have := ih _ (fun u hu => hshape u (by simp [hu])) p hp2
      omega

theorem rootPosGo_append : ∀ (A B : List PTree) (acc : Nat), shapeF A →
    rootPosGo acc (A ++ B) = rootPosGo acc A ++ rootPosGo (acc + lenF A) B := by
  intro A
  induction A with
  | nil => intro B acc _; simp [rootPosGo, lenF_nil]
  | cons t A ih =>
    intro B acc hshape
    have hflat : t.flat.length = 2 ^ (t.ht + 1) - 1 :=
      PTree.flat_length (hshape t (by simp))
    simp only [List.cons_append, rootPosGo, lenF_cons, List.append_eq]
    rw [ih B _ (fun u hu => hshape u (by simp [hu]))]
    have h1 : (1:Nat) ≤ 2 ^ (t.ht + 1) := Nat.one_le_two_pow
    have : acc + 2 ^ (t.ht + 1) - 1 + lenF A = acc + (t.flat.length + lenF A) := by
      omega
    rw [this]

theorem rootPosGo_pairwise : ∀ (F : List PTree) (acc : Nat),
    List.Pairwise (· < ·) (rootPosGo acc F) := by
  intro F
  induction F with
  | nil => intro acc; simp [rootPosGo]
  | cons t F ih =>
    intro acc
    simp only [rootPosGo]
    refine List.pairwise_cons.mpr ⟨?_, ih _⟩
    intro p hp
    have h1 := rootPosGo_ge F _ p hp
    have h2 : (1:Nat) ≤ 2 ^ (t.ht + 1) := Nat.one_le_two_pow
    omega

/-! ### Vector-backend push simulation -/

theorem vec_len (st : List Hash) : Storage.len st = st.length := rfl

theorem vec_push (st : List Hash) (h : Hash) :
    Storage.push st h = (st ++ [h], st.length) := rfl

theorem vec_get (st : List Hash) (i : Nat) : Storage.get st i = st[i]? := rfl

theorem vec_gop (st : List Hash) (i : Nat) :
    Storage.get_or_panic st i = st[i]? := rfl

theorem PTree.flat_getLast (t : PTree) :
    t.flat[t.flat.length - 1]? = some t.top := by
  have h1 : t.flat.getLast? = some t.top := by
    induction t with
    | leaf h => rfl
    | node h l r ihl ihr =>
      simp only [PTree.flat, PTree.top, ← List.append_assoc, List.getLast?_concat]
  rw [← List.getLast?_eq_getElem?]
  exact h1

theorem flatF_singleton (t : PTree) : flatF [t] = t.flat := by
  simp [flatF]

theorem flatF_reverse_cons (u : PTree) (G : List PTree) :
    flatF (u :: G).reverse = flatF G.reverse ++ u.flat := by
  rw [List.reverse_cons, flatF_append, flatF_singleton]

theorem pushLoopGo_sim : ∀ (G : List PTree) (fuel : Nat) (t : PTree) (pm : Nat),
    (∀ u ∈ G, u.shapeOk) → t.shapeOk →
    List.Pairwise (fun a b => a.ht < b.ht) G →
    (∀ u ∈ G, t.ht ≤ u.ht) →
    (∀ j, t.ht ≤ j → (pm.testBit j = true ↔ ∃ u ∈ G, u.ht = j)) →
    G.length < fuel →
    MerkleMountainRange.pushLoopGo (σ := List Hash) pm fuel t.ht
        ((flatF G.reverse ++ t.flat).length - 1) (flatF G.reverse ++ t.flat)
      = some (flatF (insertT t G).reverse,
              (flatF (insertT t G).reverse).length - 1) := by
  intro G
  induction G with
  | nil =>
    intro fuel t pm _ _ _ _ hbit hfuel
    rcases Nat.exists_eq_succ_of_ne_zero (by omega : fuel ≠ 0) with ⟨f, rfl⟩
    have hb : pm.testBit t.ht = false := by
      by_contra hcon
      rcases (hbit t.ht (le_refl _)).mp (by simpa using hcon) with ⟨u, hu, _⟩
      simp at hu
    show (if pm.testBit t.ht = true then _ else _) = _
    rw [if_neg (by simp [hb])]
    simp [insertT, flatF_reverse_cons, flatF_singleton, flatF_nil]
  | cons u G ih =>
    intro fuel t pm hshape hts hinc hge hbit hfuel
    rcases Nat.exists_eq_succ_of_ne_zero (by omega : fuel ≠ 0) with ⟨f, rfl⟩
    by_cases hcase : u.ht = t.ht
    · -- merge step
      have hb : pm.testBit t.ht = true :=
        (hbit t.ht (le_refl _)).mpr ⟨u, by simp, hcase⟩
      have hus : u.shapeOk := hshape u (by simp)
      have hul : u.flat.length = 2 ^ (t.ht + 1) - 1 := by
        rw [PTree.flat_length hus, hcase]
      have htl : t.flat.length = 2 ^ (t.ht + 1) - 1 := PTree.flat_length hts
      have h2 : (1:Nat) ≤ 2 ^ (t.ht + 1) := Nat.one_le_two_pow
      set A := flatF G.reverse with hA
      have hst : flatF (u :: G).reverse ++ t.flat = A ++ (u.flat ++ t.flat) := by
        rw [flatF_reverse_cons, List.append_assoc]
      have hlen : (flatF (u :: G).reverse ++ t.flat).length
          = A.length + u.flat.length + t.flat.length := by
        rw [hst]; simp; omega
      show (if pm.testBit t.ht = true then _ else _) = _
      rw [if_pos (by simp [hb])]
      -- the left sibling read
      have hidx : (flatF (u :: G).reverse ++ t.flat).length - 1 + 1 - 2 * 2 ^ t.ht
          = A.length + (u.flat.length - 1) := by
        have h3 : (2:Nat) ^ (t.ht + 1) = 2 * 2 ^ t.ht := by ring
        omega
      have hread1 : Storage.get_or_panic (σ := List Hash)
          (flatF (u :: G).reverse ++ t.flat)
          ((flatF (u :: G).reverse ++ t.flat).length - 1 + 1 - 2 * 2 ^ t.ht)
          = some u.top := by
        rw [vec_gop, hidx, hst]
        rw [List.getElem?_append_right (by omega)]
        have h4 : A.length + (u.flat.length - 1) - A.length = u.flat.length - 1 := by
          omega
        rw [h4, List.getElem?_append_left (by omega)]
        exact PTree.flat_getLast u
      rw [hread1]
      -- the last-hash read
      have hread2 : Storage.get_or_panic (σ := List Hash)
          (flatF (u :: G).reverse ++ t.flat)
          (Storage.len (σ := List Hash) (flatF (u :: G).reverse ++ t.flat) - 1)
          = some t.top := by
        rw [vec_gop, vec_len, hst]
        have h5 : A ++ (u.flat ++ t.flat) = (A ++ u.flat) ++ t.flat := by
          rw [List.append_assoc]
        rw [h5]
        have h6 : ((A ++ u.flat) ++ t.flat).length
            = (A ++ u.flat).length + t.flat.length := by simp; omega
        rw [h6]
        have h7 : (A ++ u.flat).length ≤ (A ++ u.flat).length + t.flat.length - 1 := by
          have := PTree.flat_ne_nil t
          have : t.flat.length ≠ 0 := by
            intro hc; exact this (List.length_eq_zero.mp hc)
          omega
        rw [List.getElem?_append_right h7]
        have h8 : (A ++ u.flat).length + t.flat.length - 1 - (A ++ u.flat).length
            = t.flat.length - 1 := by omega
        rw [h8]
        exact PTree.flat_getLast t
      rw [hread2]
      -- the merged tree
      show MerkleMountainRange.pushLoopGo pm f (t.ht + 1)
          ((flatF (u :: G).reverse ++ t.flat).length - 1 + 1)
          ((flatF (u :: G).reverse ++ t.flat) ++ [Hash.hash_with u.top t.top]) = _
      have ht2ht : (PTree.node (Hash.hash_with u.top t.top) u t).ht = t.ht + 1 := by
        show u.ht + 1 = t.ht + 1
        omega
      have ht2fl : (PTree.node (Hash.hash_with u.top t.top) u t).flat
          = u.flat ++ (t.flat ++ [Hash.hash_with u.top t.top]) := by
        simp [PTree.flat]
      have ht2len : (PTree.node (Hash.hash_with u.top t.top) u t).flat.length
          = u.flat.length + t.flat.length + 1 := by
        rw [ht2fl]; simp; omega
      have hstep : (flatF (u :: G).reverse ++ t.flat) ++ [Hash.hash_with u.top t.top]
          = flatF G.reverse ++ (PTree.node (Hash.hash_with u.top t.top) u t).flat := by
        rw [hst, ht2fl, hA]
        simp
      have hposlen : (flatF (u :: G).reverse ++ t.flat).length - 1 + 1
          = (flatF G.reverse
              ++ (PTree.node (Hash.hash_with u.top t.top) u t).flat).length - 1 := by
        have h10 : (flatF G.reverse
            ++ (PTree.node (Hash.hash_with u.top t.top) u t).flat).length
            = A.length + (u.flat.length + t.flat.length + 1) := by
          rw [← hA]
          simp [ht2len]
        omega
      rw [hposlen, hstep]
      have hins : insertT t (u :: G)
          = insertT (PTree.node (Hash.hash_with u.top t.top) u t) G := by
        show (if u.ht = t.ht then _ else _) = _
        rw [if_pos hcase]
        rfl
      rw [hins]
      have ih2 := ih f (PTree.node (Hash.hash_with u.top t.top) u t) pm
        (fun v hv => hshape v (by simp [hv]))
        (by exact ⟨hcase, hus, hts⟩)
        ((List.pairwise_cons.mp hinc).2)
        (by
          intro v hv
          have h11 := (List.pairwise_cons.mp hinc).1 v hv
          rw [ht2ht]
          omega)
        (by
          intro j hj
          rw [ht2ht] at hj
          rw [hbit j (by omega)]
          constructor
          · rintro ⟨v, hv, rfl⟩
            rcases List.mem_cons.mp hv with rfl | hv2
            · omega
            · exact ⟨v, hv2, rfl⟩
          · rintro ⟨v, hv, rfl⟩
            exact ⟨v, by simp [hv], rfl⟩)
        (by simp at hfuel ⊢; omega)
      rw [ht2ht] at ih2
      exact ih2
    · -- no merge: t slots in front
      have hb : pm.testBit t.ht = false := by
        by_contra hcon
        rcases (hbit t.ht (le_refl _)).mp (by simpa using hcon) with ⟨v, hv, hveq⟩
        rcases List.mem_cons.mp hv with rfl | hv2
        · exact hcase hveq
        · have h1 := (List.pairwise_cons.mp hinc).1 v hv2
          have h2 := hge u (by simp)
          omega
      show (if pm.testBit t.ht = true then _ else _) = _
      rw [if_neg (by simp [hb])]
      have hins : insertT t (u :: G) = t :: u :: G := by
        show (if u.ht = t.ht then _ else _) = _
        rw [if_neg hcase]
      rw [hins, flatF_reverse_cons, flatF_reverse_cons, flatF_reverse_cons]

theorem length_le_bitsF : ∀ F : List PTree, F.length ≤ bitsF F := by
  intro F
  induction F with
  | nil => simp [bitsF_nil]
  | cons t F ih =>
    rw [bitsF_cons]
    have : (1:Nat) ≤ 2 ^ t.ht := Nat.one_le_two_pow
    simp only [List.length_cons]
    omega

theorem leavesF_nil : leavesF [] = [] := rfl

theorem leavesF_cons (t : PTree) (F : List PTree) :
    leavesF (t :: F) = t.leafHashes ++ leavesF F := by
  simp [leavesF]

theorem leavesF_append (F G : List PTree) :
    leavesF (F ++ G) = leavesF F ++ leavesF G := by
  simp [leavesF]

theorem leavesF_reverse_cons (u : PTree) (G : List PTree) :
    leavesF (u :: G).reverse = leavesF G.reverse ++ u.leafHashes := by
  rw [List.reverse_cons, leavesF_append]
  simp [leavesF]

theorem PTree.leafHashes_length {t : PTree} (hs : t.shapeOk) :
    t.leafHashes.length = 2 ^ t.ht := by
  induction t with
  | leaf h => simp [PTree.leafHashes, PTree.ht]
  | node h l r ihl ihr =>
    obtain ⟨hlr, hl, hr⟩ := hs
    simp only [PTree.leafHashes, PTree.ht, List.length_append, ihl hl, ihr hr, ← hlr]
    ring

theorem leavesF_length {F : List PTree} (hshape : shapeF F) :
    (leavesF F).length = bitsF F := by
  induction F with
  | nil => rfl
  | cons t F ih =>
    rw [leavesF_cons, bitsF_cons]
    simp only [List.length_append]
    rw [PTree.leafHashes_length (hshape t (by simp)),
      ih (fun u hu => hshape u (by simp [hu]))]

/-- Structure of binary-counter insertion: a single new tree is produced in
front of an untouched suffix of the reversed forest. -/
theorem insertT_spec : ∀ (G : List PTree) (t : PTree),
    (∀ u ∈ G, u.shapeOk) → t.shapeOk →
    List.Pairwise (fun a b => a.ht < b.ht) G →
    (∀ u ∈ G, t.ht ≤ u.ht) →
    ∃ (T : PTree) (G2 : List PTree),
      insertT t G = T :: G2 ∧ G2.IsSuffix G ∧ t.ht ≤ T.ht ∧ T.shapeOk ∧
      List.Pairwise (fun a b => a.ht < b.ht) (T :: G2) ∧
      (t.hashOk → (∀ u ∈ G, u.hashOk) → T.hashOk) := by
  intro G
  induction G with
  | nil =>
    intro t _ hts _ _
    refine ⟨t, [], rfl, List.nil_suffix, le_refl _, hts, ?_, ?_⟩
    · simp
    · intro ht _
      exact ht
  | cons u G ih =>
    intro t hshape hts hinc hge
    by_cases hcase : u.ht = t.ht
    · have hins : insertT t (u :: G)
          = insertT (PTree.node (Hash.digest [u.top, t.top]) u t) G := by
        show (if u.ht = t.ht then _ else _) = _
        rw [if_pos hcase]
      have hus : u.shapeOk := hshape u (by simp)
      have h2ht : (PTree.node (Hash.digest [u.top, t.top]) u t).ht = t.ht + 1 := by
        show u.ht + 1 = t.ht + 1
        omega
      rcases ih (PTree.node (Hash.digest [u.top, t.top]) u t)
        (fun v hv => hshape v (by simp [hv]))
        ⟨hcase, hus, hts⟩
        (List.pairwise_cons.mp hinc).2
        (by
          intro v hv
          have := (List.pairwise_cons.mp hinc).1 v hv
          rw [h2ht]
          omega)
        with ⟨T, G2, heq, hsuf, hht, hTs, hTp, hTh⟩
      refine ⟨T, G2, by rw [hins, heq], hsuf.trans (List.suffix_cons u G), ?_, hTs,
        hTp, ?_⟩
      · rw [h2ht] at hht
        omega
      · intro hth huh
        exact hTh ⟨rfl, huh u (by simp), hth⟩ (fun v hv => huh v (by simp [hv]))
    · have hins : insertT t (u :: G) = t :: u :: G := by
        show (if u.ht = t.ht then _ else _) = _
        rw [if_neg hcase]
      refine ⟨t, u :: G, hins, List.suffix_refl _, le_refl _, hts, ?_, fun ht _ => ht⟩
      refine List.pairwise_cons.mpr ⟨?_, hinc⟩
      intro v hv
      rcases List.mem_cons.mp hv with rfl | hv2
      · have := hge v (by simp)
        omega
      · have h1 := (List.pairwise_cons.mp hinc).1 v hv2
        have h2 := hge u (by simp)
        omega

theorem insertT_leaves : ∀ (G : List PTree) (t : PTree),
    leavesF (insertT t G).reverse = leavesF G.reverse ++ t.leafHashes := by
  intro G
  induction G with
  | nil =>
    intro t
    simp [insertT, leavesF_reverse_cons, leavesF_nil, leavesF]
  | cons u G ih =>
    intro t
    by_cases hcase : u.ht = t.ht
    · have hins : insertT t (u :: G)
          = insertT (PTree.node (Hash.digest [u.top, t.top]) u t) G := by
        show (if u.ht = t.ht then _ else _) = _
        rw [if_pos hcase]
      rw [hins, ih, leavesF_reverse_cons]
      show leavesF G.reverse ++ (u.leafHashes ++ t.leafHashes) = _
      simp
    · have hins : insertT t (u :: G) = t :: u :: G := by
        show (if u.ht = t.ht then _ else _) = _
        rw [if_neg hcase]
      rw [hins, leavesF_reverse_cons]

theorem insertT_len_ge : ∀ (G : List PTree) (t : PTree),
    (flatF G.reverse).length + t.flat.length ≤ (flatF (insertT t G).reverse).length := by
  intro G
  induction G with
  | nil =>
    intro t
    simp [insertT, flatF_reverse_cons, flatF_nil, flatF_singleton]
  | cons u G ih =>
    intro t
    by_cases hcase : u.ht = t.ht
    · have hins : insertT t (u :: G)
          = insertT (PTree.node (Hash.digest [u.top, t.top]) u t) G := by
        show (if u.ht = t.ht then _ else _) = _
        rw [if_pos hcase]
      rw [hins]
      have h1 := ih (PTree.node (Hash.digest [u.top, t.top]) u t)
      have h2 : (PTree.node (Hash.digest [u.top, t.top]) u t).flat.length
          = u.flat.length + t.flat.length + 1 := by
        simp [PTree.flat]
        omega
      have h3 : (flatF (u :: G).reverse ++ t.flat).length
          = (flatF G.reverse).length + u.flat.length + t.flat.length := by
        rw [flatF_reverse_cons]
        simp
        omega
      simp only [List.length_append] at h3 ⊢
      omega
    · have hins : insertT t (u :: G) = t :: u :: G := by
        show (if u.ht = t.ht then _ else _) = _
        rw [if_neg hcase]
      rw [hins, flatF_reverse_cons, flatF_reverse_cons, flatF_reverse_cons]
      simp
      omega

theorem push_sim_vec : ∀ (F : List PTree) (h : Hash), shapeF F → decF F →
    MerkleMountainRange.push (σ := List Hash) ⟨flatF F⟩ h
      = some (.ok (⟨flatF (pushF F h)⟩, (flatF (pushF F h)).length - 1)) := by
  intro F h hshape hdec
  cases F with
  | nil => rfl
  | cons u F' =>
    have hne : lenF (u :: F') ≠ 0 := by
      intro h0
      exact absurd (lenF_eq_zero h0) (by simp)
    have hpm := pmh_forest hshape hdec
    show (if lenF (u :: F') = 0 then _ else _) = _
    rw [if_neg hne]
    have hl : MerkleMountainRange.len (σ := List Hash) ⟨flatF (u :: F')⟩
        = lenF (u :: F') := rfl
    have hp : (Storage.push (σ := List Hash) (flatF (u :: F')) h).1
        = flatF (u :: F') ++ [h] := rfl
    simp only [hl, hpm, hp]
    rw [if_neg (by simp)]
    have hsim := pushLoopGo_sim (u :: F').reverse (bitsF (u :: F') + 1)
        (PTree.leaf h) (bitsF (u :: F'))
        (by
          intro v hv
          exact hshape v (List.mem_reverse.mp hv))
        trivial
        (List.pairwise_reverse.mpr hdec)
        (by
          intro v _
          exact Nat.zero_le _)
        (by
          intro j _
          simp only [List.mem_reverse]
          exact bitsF_testBit _ hdec j)
        (by
          simp only [List.length_reverse]
          have := length_le_bitsF (u :: F')
          omega)
    rw [List.reverse_reverse] at hsim
    simp only [PTree.ht, PTree.flat] at hsim
    have hpos : (flatF (u :: F') ++ [h]).length - 1 = lenF (u :: F') := by
      simp [lenF]
    rw [hpos] at hsim
    rw [hsim]
    rfl

theorem pushF_inv {F : List PTree} {h : Hash} (hshape : shapeF F) (hdec : decF F) :
    shapeF (pushF F h) ∧ decF (pushF F h) ∧
    (hashF F → hashF (pushF F h)) := by
  obtain ⟨T, G2, hins, hsuf, -, hTs, hpair, hTh⟩ :=
    insertT_spec F.reverse (PTree.leaf h)
      (fun v hv => hshape v (List.mem_reverse.mp hv))
      trivial
      (List.pairwise_reverse.mpr hdec)
      (fun v _ => Nat.zero_le _)
  have hmem : ∀ v ∈ G2, v ∈ F := by
    intro v hv
    exact List.mem_reverse.mp (hsuf.sublist.subset hv)
  have hpf : pushF F h = G2.reverse ++ [T] := by
    show (insertT (PTree.leaf h) F.reverse).reverse = _
    rw [hins, List.reverse_cons]
  refine ⟨?_, ?_, ?_⟩
  · intro v hv
    rw [hpf] at hv
    rcases List.mem_append.mp hv with hvG | hvT
    · exact hshape v (hmem v (List.mem_reverse.mp hvG))
    · rw [List.mem_singleton.mp hvT]
      exact hTs
  · show List.Pairwise (fun a b => b.ht < a.ht)
      (insertT (PTree.leaf h) F.reverse).reverse
    rw [hins]
    exact List.pairwise_reverse.mpr hpair
  · intro hhash v hv
    rw [hpf] at hv
    rcases List.mem_append.mp hv with hvG | hvT
    · exact hhash v (hmem v (List.mem_reverse.mp hvG))
    · rw [List.mem_singleton.mp hvT]
      exact hTh trivial (fun w hw => hhash w (List.mem_reverse.mp hw))

theorem pushF_leaves (F : List PTree) (h : Hash) :
    leavesF (pushF F h) = leavesF F ++ [h] := by
  show leavesF (insertT (PTree.leaf h) F.reverse).reverse = _
  rw [insertT_leaves, List.reverse_reverse]
  rfl

theorem pushF_len_ge (F : List PTree) (h : Hash) :
    lenF F + 1 ≤ lenF (pushF F h) := by
  have h1 := insertT_len_ge F.reverse (PTree.leaf h)
  rw [List.reverse_reverse] at h1
  exact h1

theorem foldl_pushF_inv : ∀ (hs : List Hash) (F : List PTree),
    shapeF F → decF F → hashF F →
    shapeF (hs.foldl pushF F) ∧ decF (hs.foldl pushF F) ∧
    hashF (hs.foldl pushF F) ∧
    leavesF (hs.foldl pushF F) = leavesF F ++ hs := by
  intro hs
  induction hs with
  | nil =>
    intro F hsp hd hh
    exact ⟨hsp, hd, hh, by simp⟩
  | cons h hs ih =>
    intro F hsp hd hh
    obtain ⟨h1, h2, h3⟩ := pushF_inv (h := h) hsp hd
    obtain ⟨g1, g2, g3, g4⟩ := ih (pushF F h) h1 h2 (h3 hh)
    refine ⟨g1, g2, g3, ?_⟩
    rw [List.foldl_cons, g4, pushF_leaves]
    simp

theorem builtF_inv (hs : List Hash) :
    shapeF (builtF hs) ∧ decF (builtF hs) ∧ hashF (builtF hs) ∧
    leavesF (builtF hs) = hs := by
  obtain ⟨a, b, c, d⟩ := foldl_pushF_inv hs []
      (by intro t ht; simp at ht)
      List.Pairwise.nil
      (by intro t ht; simp at ht)
  exact ⟨a, b, c, by simpa [leavesF_nil] using d⟩

theorem pushAll_built : ∀ (hs : List Hash) (F : List PTree), shapeF F → decF F →
    MerkleMountainRange.pushAll (σ := List Hash) ⟨flatF F⟩ hs
      = some (.ok ⟨flatF (hs.foldl pushF F)⟩) := by
  intro hs
  induction hs with
  | nil =>
    intro F _ _
    rfl
  | cons h hs ih =>
    intro F hsp hd
    simp only [MerkleMountainRange.pushAll]
    rw [push_sim_vec F h hsp hd]
    obtain ⟨h1, h2, -⟩ := pushF_inv (h := h) hsp hd
    rw [List.foldl_cons]
    exact ih (pushF F h) h1 h2

theorem pushAll_built_nil (hs : List Hash) :
    MerkleMountainRange.pushAll (σ := List Hash) ⟨[]⟩ hs
      = some (.ok ⟨flatF (builtF hs)⟩) := by
  have h := pushAll_built hs []
      (by intro t ht; simp at ht) List.Pairwise.nil
  simpa [flatF_nil] using h

theorem popcount_div_mod (n : Nat) : popcount n = popcount (n / 2) + n % 2 := by
  rw [popcount_eq]
  by_cases hn : n = 0
  · simp [hn, popcount_zero]
  · rw [if_neg hn]

theorem popcount_add_disjoint : ∀ (e m j : Nat), j < 2 ^ e →
    (∀ i, i < e → m.testBit i = false) →
    popcount (m + j) = popcount m + popcount j := by
  intro e
  induction e with
  | zero =>
    intro m j hj _
    have hj0 : j = 0 := by omega
    simp [hj0, popcount_zero]
  | succ e ih =>
    intro m j hj hm
    have hm0 : m % 2 = 0 := by
      have h0 := hm 0 (by omega)
      rw [Nat.testBit_zero] at h0
      simpa using h0
    have hj2 : j / 2 < 2 ^ e := by
      have hp : (2:Nat) ^ (e + 1) = 2 * 2 ^ e := by ring
      omega
    have hm2 : ∀ i, i < e → (m / 2).testBit i = false := by
      intro i hi
      rw [Nat.testBit_div_two]
      exact hm (i + 1) (by omega)
    have hdiv : (m + j) / 2 = m / 2 + j / 2 := by omega
    have hmod : (m + j) % 2 = j % 2 := by omega
    rw [popcount_div_mod (m + j), hdiv, hmod, ih (m / 2) (j / 2) hj2 hm2,
      popcount_div_mod m, popcount_div_mod j, hm0]
    omega

theorem lenF_formula : ∀ F : List PTree, shapeF F → decF F →
    lenF F + popcount (bitsF F) = 2 * bitsF F := by
  intro F
  induction F with
  | nil => simp [lenF_nil, bitsF_nil, popcount_zero]
  | cons t F ih =>
    intro hshape hdec
    have hdec2 : decF F := (List.pairwise_cons.mp hdec).2
    have hlt : ∀ u ∈ F, u.ht < t.ht := (List.pairwise_cons.mp hdec).1
    have hb : bitsF F < 2 ^ t.ht := bitsF_lt hdec2 hlt
    have hbit : (bitsF F).testBit t.ht = false := testBit_lt_pow hb
    have hih := ih (fun u hu => hshape u (by simp [hu])) hdec2
    rw [lenF_cons, bitsF_cons, PTree.flat_length (hshape t (by simp))]
    rw [Nat.add_comm (2 ^ t.ht) (bitsF F), popcount_add_pow hbit]
    have hp : (2:Nat) ^ (t.ht + 1) = 2 * 2 ^ t.ht := by ring
    omega

theorem lenF_bound : ∀ (F : List PTree) (H : Nat), shapeF F → decF F →
    (∀ t ∈ F, t.ht < H) → lenF F ≤ 2 ^ (H + 1) - 2 := by
  intro F
  induction F with
  | nil =>
    intro H _ _ _
    simp [lenF_nil]
  | cons t F ih =>
    intro H hshape hdec hht
    have hdec2 : decF F := (List.pairwise_cons.mp hdec).2
    have hlt : ∀ u ∈ F, u.ht < t.ht := (List.pairwise_cons.mp hdec).1
    have hih := ih t.ht (fun u hu => hshape u (by simp [hu])) hdec2 hlt
    rw [lenF_cons, PTree.flat_length (hshape t (by simp))]
    have h1 : (2:Nat) ^ (t.ht + 1 + 1) ≤ 2 ^ (H + 1) :=
      Nat.pow_le_pow_right (by omega) (by have := hht t (by simp); omega)
    have h2 : (2:Nat) ^ (t.ht + 1 + 1) = 2 * 2 ^ (t.ht + 1) := by ring
    have h3 : (2:Nat) ≤ 2 ^ (t.ht + 1) := by
      have : (2:Nat) ^ 1 ≤ 2 ^ (t.ht + 1) := Nat.pow_le_pow_right (by omega) (by omega)
      simpa using this
    omega

theorem PTree.llp_lt : ∀ t : PTree, t.shapeOk → ∀ j, j < 2 ^ t.ht →
    t.llp j < t.flat.length := by
  intro t
  induction t with
  | leaf h =>
    intro _ j _
    simp [PTree.llp, PTree.flat]
  | node h l r ihl ihr =>
    intro hs j hj
    obtain ⟨hlr, hl, hr⟩ := hs
    have hflat : (PTree.node h l r).flat.length
        = l.flat.length + r.flat.length + 1 := by
      simp [PTree.flat]
      omega
    show (if j < 2 ^ l.ht then l.llp j
        else (2 ^ (l.ht + 1) - 1) + r.llp (j - 2 ^ l.ht)) < _
    by_cases hc : j < 2 ^ l.ht
    · rw [if_pos hc, hflat]
      have := ihl hl j hc
      omega
    · rw [if_neg hc, hflat]
      have hj2 : j - 2 ^ l.ht < 2 ^ r.ht := by
        have hht : (PTree.node h l r).ht = l.ht + 1 := rfl
        rw [hht] at hj
        have hp : (2:Nat) ^ (l.ht + 1) = 2 * 2 ^ l.ht := by ring
        rw [← hlr]
        omega
      have := ihr hr (j - 2 ^ l.ht) hj2
      have hll : l.flat.length = 2 ^ (l.ht + 1) - 1 := PTree.flat_length hl
      omega

theorem PTree.llp_formula : ∀ t : PTree, t.shapeOk → ∀ j, j < 2 ^ t.ht →
    t.llp j = 2 * j - popcount j := by
  intro t
  induction t with
  | leaf h =>
    intro _ j hj
    have hj0 : j = 0 := by
      have : (2:Nat) ^ (PTree.leaf h).ht = 1 := by simp [PTree.ht]
      omega
    simp [hj0, PTree.llp, popcount_zero]
  | node h l r ihl ihr =>
    intro hs j hj
    obtain ⟨hlr, hl, hr⟩ := hs
    show (if j < 2 ^ l.ht then l.llp j
        else (2 ^ (l.ht + 1) - 1) + r.llp (j - 2 ^ l.ht)) = _
    by_cases hc : j < 2 ^ l.ht
    · rw [if_pos hc]
      exact ihl hl j hc
    · rw [if_neg hc]
      have hht : (PTree.node h l r).ht = l.ht + 1 := rfl
      rw [hht] at hj
      have hp : (2:Nat) ^ (l.ht + 1) = 2 * 2 ^ l.ht := by ring
      have hj2 : j - 2 ^ l.ht < 2 ^ r.ht := by
        rw [← hlr]
        omega
      rw [ihr hr (j - 2 ^ l.ht) hj2]
      have hpcj : popcount j = popcount (j - 2 ^ l.ht) + 1 := by
        have hbit : j.testBit l.ht = true := by
          have hlow : j - 2 ^ l.ht < 2 ^ l.ht := by omega
          have heq : j = (j - 2 ^ l.ht) + 2 ^ l.ht := by omega
          rw [heq]
          exact testBit_add_pow_self (testBit_lt_pow hlow)
        exact popcount_sub_pow hbit
      have hpcle : popcount (j - 2 ^ l.ht) ≤ j - 2 ^ l.ht := popcount_le _
      omega

theorem PTree.flat_get_llp : ∀ t : PTree, t.shapeOk → ∀ j, j < 2 ^ t.ht →
    t.flat[t.llp j]? = some (t.leafAt j) := by
  intro t
  induction t with
  | leaf h =>
    intro _ j _
    simp [PTree.llp, PTree.flat, PTree.leafAt]
  | node h l r ihl ihr =>
    intro hs j hj
    obtain ⟨hlr, hl, hr⟩ := hs
    have hfl : (PTree.node h l r).flat = (l.flat ++ r.flat) ++ [h] := by
      simp [PTree.flat]
    by_cases hc : j < 2 ^ l.ht
    · have hllp : (PTree.node h l r).llp j = l.llp j := by
        show (if j < 2 ^ l.ht then _ else _) = _
        rw [if_pos hc]
      have hla : (PTree.node h l r).leafAt j = l.leafAt j := by
        show (if j < 2 ^ l.ht then _ else _) = _
        rw [if_pos hc]
      rw [hllp, hla, hfl]
      have hb := PTree.llp_lt l hl j hc
      rw [List.getElem?_append_left (by simp; omega),
        List.getElem?_append_left hb]
      exact ihl hl j hc
    · have hllp : (PTree.node h l r).llp j
          = (2 ^ (l.ht + 1) - 1) + r.llp (j - 2 ^ l.ht) := by
        show (if j < 2 ^ l.ht then _ else _) = _
        rw [if_neg hc]
      have hla : (PTree.node h l r).leafAt j = r.leafAt (j - 2 ^ l.ht) := by
        show (if j < 2 ^ l.ht then _ else _) = _
        rw [if_neg hc]
      have hht : (PTree.node h l r).ht = l.ht + 1 := rfl
      rw [hht] at hj
      have hp : (2:Nat) ^ (l.ht + 1) = 2 * 2 ^ l.ht := by ring
      have hj2 : j - 2 ^ l.ht < 2 ^ r.ht := by
        rw [← hlr]
        omega
      have hll : l.flat.length = 2 ^ (l.ht + 1) - 1 := PTree.flat_length hl
      have hb := PTree.llp_lt r hr (j - 2 ^ l.ht) hj2
      rw [hllp, hla, hfl]
      rw [List.getElem?_append_left (by simp; omega),
        List.getElem?_append_right (by omega)]
      have hidx : 2 ^ (l.ht + 1) - 1 + r.llp (j - 2 ^ l.ht) - l.flat.length
          = r.llp (j - 2 ^ l.ht) := by omega
      rw [hidx]
      exact ihr hr (j - 2 ^ l.ht) hj2

theorem PTree.leafHashes_get : ∀ t : PTree, t.shapeOk → ∀ j, j < 2 ^ t.ht →
    t.leafHashes[j]? = some (t.leafAt j) := by
  intro t
  induction t with
  | leaf h =>
    intro _ j hj
    have hj0 : j = 0 := by
      have : (2:Nat) ^ (PTree.leaf h).ht = 1 := by simp [PTree.ht]
      omega
    simp [hj0, PTree.leafHashes, PTree.leafAt]
  | node h l r ihl ihr =>
    intro hs j hj
    obtain ⟨hlr, hl, hr⟩ := hs
    have hlh : (PTree.node h l r).leafHashes = l.leafHashes ++ r.leafHashes := rfl
    have hlen : l.leafHashes.length = 2 ^ l.ht := PTree.leafHashes_length hl
    by_cases hc : j < 2 ^ l.ht
    · have hla : (PTree.node h l r).leafAt j = l.leafAt j := by
        show (if j < 2 ^ l.ht then _ else _) = _
        rw [if_pos hc]
      rw [hlh, hla, List.getElem?_append_left (by omega)]
      exact ihl hl j hc
    · have hla : (PTree.node h l r).leafAt j = r.leafAt (j - 2 ^ l.ht) := by
        show (if j < 2 ^ l.ht then _ else _) = _
        rw [if_neg hc]
      have hht : (PTree.node h l r).ht = l.ht + 1 := rfl
      rw [hht] at hj
      have hp : (2:Nat) ^ (l.ht + 1) = 2 * 2 ^ l.ht := by ring
      have hj2 : j - 2 ^ l.ht < 2 ^ r.ht := by
        rw [← hlr]
        omega
      rw [hlh, hla, List.getElem?_append_right (by omega), hlen]
      exact ihr hr (j - 2 ^ l.ht) hj2

theorem PTree.flat_get_root (t : PTree) (hs : t.shapeOk) :
    t.flat[2 ^ (t.ht + 1) - 2]? = some t.top := by
  have h1 := PTree.flat_getLast t
  rw [PTree.flat_length hs] at h1
  have h2 : 2 ^ (t.ht + 1) - 1 - 1 = 2 ^ (t.ht + 1) - 2 := by omega
  rw [h2] at h1
  exact h1

theorem pmh_shift (a k : Nat) :
    peak_map_height (a + k) = pmStep^[k] (peak_map_height a) := by
  show pmStep^[a + k] (0, 0) = pmStep^[k] (pmStep^[a] (0, 0))
  rw [Nat.add_comm, Function.iterate_add_apply]


theorem verify_climb : ∀ (t : PTree), t.shapeOk → t.hashOk →
    ∀ (m a n : Nat) (peaks : List Nat) (pp : List Hash) (root : Hash),
    (∀ i, i < t.ht → m.testBit i = false) →
    peak_map_height a = (m, 0) →
    a + (2 ^ (t.ht + 1) - 2) ≤ n →
    ∀ j, j < 2 ^ t.ht → ∀ (rest : List Hash),
    MerkleProof.verifyGo n peaks pp root (t.leafPath j ++ rest) (t.leafAt j)
        (a + t.llp j)
      = MerkleProof.verifyGo n peaks pp root rest t.top
        (a + (2 ^ (t.ht + 1) - 2)) := by
  intro t
  induction t with
  | leaf h =>
    intro _ _ m a n peaks pp root _ _ _ j _ rest
    simp [PTree.leafPath, PTree.leafAt, PTree.llp, PTree.top, PTree.ht]
  | node h l r ihl ihr =>
    intro hs hh m a n peaks pp root hm hA hn j hj rest
    obtain ⟨hlr, hl, hr⟩ := hs
    obtain ⟨hdig, hhl, hhr⟩ := hh
    have hht : (PTree.node h l r).ht = l.ht + 1 := rfl
    have hc2 : (2:Nat) ≤ 2 ^ (l.ht + 1) := by
      have h1 : (2:Nat) ^ 1 ≤ 2 ^ (l.ht + 1) := Nat.pow_le_pow_right (by omega) (by omega)
      simpa using h1
    have hpow : (2:Nat) ^ (l.ht + 1 + 1) = 2 * 2 ^ (l.ht + 1) := by ring
    have hn' : a + (2 ^ (l.ht + 1 + 1) - 2) ≤ n := by rw [hht] at hn; exact hn
    have hml : ∀ i, i < l.ht → m.testBit i = false := by
      intro i hi
      exact hm i (by rw [hht]; omega)
    have hmlt : m.testBit l.ht = false := hm l.ht (by rw [hht]; omega)
    have hSl : peak_map_height (a + (2 ^ (l.ht + 1) - 2)) = (m, l.ht) := by
      rw [pmh_shift, hA, pmRun_tree hl m hml]
    have hSe : peak_map_height (a + (2 ^ (l.ht + 1) - 1)) = (m + 2 ^ l.ht, 0) := by
      rw [pmh_shift, hA, pmRun_treeA hl m (fun i hi => hm i (by rw [hht]; omega))]
    have hm2 : ∀ i, i < r.ht → (m + 2 ^ l.ht).testBit i = false := by
      intro i hi
      rw [← hlr] at hi
      rw [testBit_add_pow_lt hi]
      exact hml i hi
    have hSr : peak_map_height (a + (2 * 2 ^ (l.ht + 1) - 3)) = (m + 2 ^ l.ht, l.ht) := by
      have hsplit : 2 * 2 ^ (l.ht + 1) - 3
          = (2 ^ (l.ht + 1) - 1) + (2 ^ (r.ht + 1) - 2) := by
        rw [← hlr]
        omega
      rw [hsplit, ← Nat.add_assoc, pmh_shift, hSe,
        pmRun_tree hr (m + 2 ^ l.ht) hm2, hlr]
    have hbitT : (m + 2 ^ l.ht).testBit l.ht = true := testBit_add_pow_self hmlt
    have htop : Hash.hash_with l.top r.top = (PTree.node h l r).top := by
      show Hash.digest [l.top, r.top] = h
      rw [hdig]
    by_cases hc : j < 2 ^ l.ht
    · have hlp : (PTree.node h l r).leafPath j = l.leafPath j ++ [r.top] := by
        show (if j < 2 ^ l.ht then _ else _) = _
        rw [if_pos hc]
      have hllp : (PTree.node h l r).llp j = l.llp j := by
        show (if j < 2 ^ l.ht then _ else _) = _
        rw [if_pos hc]
      have hla : (PTree.node h l r).leafAt j = l.leafAt j := by
        show (if j < 2 ^ l.ht then _ else _) = _
        rw [if_pos hc]
      rw [hlp, hllp, hla, List.append_assoc]
      rw [ihl hl hhl m a n peaks pp root hml hA (by omega) j hc ([r.top] ++ rest)]
      show MerkleProof.verifyGo n peaks pp root (r.top :: rest) l.top
          (a + (2 ^ (l.ht + 1) - 2)) = _
      simp only [MerkleProof.verifyGo]
      have e2 : a + (2 ^ (l.ht + 1) - 2) + 2 ^ (l.ht + 1) - 1
          = a + (2 * 2 ^ (l.ht + 1) - 3) := by omega
      have e1 : a + (2 ^ (l.ht + 1) - 2) + 2 ^ (l.ht + 1)
          = a + (2 ^ (l.ht + 1 + 1) - 2) := by rw [hpow]; omega
      have hfam : family (a + (2 ^ (l.ht + 1) - 2))
          = (a + (2 ^ (l.ht + 1 + 1) - 2), a + (2 * 2 ^ (l.ht + 1) - 3)) := by
        show (if (peak_map_height (a + (2 ^ (l.ht + 1) - 2))).1.testBit
            (peak_map_height (a + (2 ^ (l.ht + 1) - 2))).2 then _ else _) = _
        rw [hSl]
        show (if m.testBit l.ht then _ else _) = _
        rw [if_neg (by simp [hmlt])]
        rw [e2, e1]
      rw [hfam]
      have hils : is_left_sibling (a + (2 * 2 ^ (l.ht + 1) - 3)) = false := by
        show (! (peak_map_height _).1.testBit (peak_map_height _).2) = false
        rw [hSr]
        simp [hbitT]
      rw [if_neg (by omega)]
      rw [hils]
      simp only [Bool.false_eq_true, if_false]
      rw [htop]
      rfl
    · have hj' : j - 2 ^ l.ht < 2 ^ r.ht := by
        rw [hht] at hj
        rw [← hlr]
        have hp : (2:Nat) ^ (l.ht + 1) = 2 * 2 ^ l.ht := by ring
        omega
      have hlp : (PTree.node h l r).leafPath j
          = r.leafPath (j - 2 ^ l.ht) ++ [l.top] := by
        show (if j < 2 ^ l.ht then _ else _) = _
        rw [if_neg hc]
      have hllp : (PTree.node h l r).llp j
          = (2 ^ (l.ht + 1) - 1) + r.llp (j - 2 ^ l.ht) := by
        show (if j < 2 ^ l.ht then _ else _) = _
        rw [if_neg hc]
      have hla : (PTree.node h l r).leafAt j = r.leafAt (j - 2 ^ l.ht) := by
        show (if j < 2 ^ l.ht then _ else _) = _
        rw [if_neg hc]
      have e0 : a + ((2 ^ (l.ht + 1) - 1) + r.llp (j - 2 ^ l.ht))
          = (a + (2 ^ (l.ht + 1) - 1)) + r.llp (j - 2 ^ l.ht) := by omega
      rw [hlp, hllp, hla, List.append_assoc, e0]
      rw [ihr hr hhr (m + 2 ^ l.ht) (a + (2 ^ (l.ht + 1) - 1)) n peaks pp root
        hm2 hSe (by rw [← hlr]; omega) (j - 2 ^ l.ht) hj' ([l.top] ++ rest)]
      have e3 : a + (2 ^ (l.ht + 1) - 1) + (2 ^ (r.ht + 1) - 2)
          = a + (2 * 2 ^ (l.ht + 1) - 3) := by rw [← hlr]; omega
      rw [e3]
      show MerkleProof.verifyGo n peaks pp root (l.top :: rest) r.top
          (a + (2 * 2 ^ (l.ht + 1) - 3)) = _
      simp only [MerkleProof.verifyGo]
      have e4 : a + (2 * 2 ^ (l.ht + 1) - 3) + 1 - 2 ^ (l.ht + 1)
          = a + (2 ^ (l.ht + 1) - 2) := by omega
      have e5 : a + (2 * 2 ^ (l.ht + 1) - 3) + 1
          = a + (2 ^ (l.ht + 1 + 1) - 2) := by rw [hpow]; omega
      have hfam : family (a + (2 * 2 ^ (l.ht + 1) - 3))
          = (a + (2 ^ (l.ht + 1 + 1) - 2), a + (2 ^ (l.ht + 1) - 2)) := by
        show (if (peak_map_height (a + (2 * 2 ^ (l.ht + 1) - 3))).1.testBit
            (peak_map_height (a + (2 * 2 ^ (l.ht + 1) - 3))).2 then _ else _) = _
        rw [hSr]
        show (if (m + 2 ^ l.ht).testBit l.ht then _ else _) = _
        rw [if_pos (by simp [hbitT])]
        rw [e4, e5]
      rw [hfam]
      have hils : is_left_sibling (a + (2 ^ (l.ht + 1) - 2)) = true := by
        show (! (peak_map_height _).1.testBit (peak_map_height _).2) = true
        rw [hSl]
        simp [hmlt]
      rw [if_neg (by omega)]
      rw [hils]
      simp only [if_true]
      rw [htop]
      rfl

theorem chainRun_append_single : ∀ (ps : List (Nat × Nat)) (p q : Nat)
    (pr : Nat × Nat), chainRun p ps q → family q = pr →
    chainRun p (ps ++ [pr]) pr.1 := by
  intro ps
  induction ps with
  | nil =>
    intro p q pr hrun hfam
    have hp : p = q := hrun
    rw [List.nil_append]
    exact ⟨by rw [hp]; exact hfam, rfl⟩
  | cons hd tl ih =>
    intro p q pr hrun hfam
    obtain ⟨h1, h2⟩ := hrun
    exact ⟨h1, ih hd.1 q pr h2 hfam⟩

theorem branchIn_length : ∀ t : PTree, t.shapeOk → ∀ a j,
    (t.branchIn a j).length = t.ht := by
  intro t
  induction t with
  | leaf h =>
    intro _ a j
    simp [PTree.branchIn, PTree.ht]
  | node h l r ihl ihr =>
    intro hs a j
    obtain ⟨hlr, hl, hr⟩ := hs
    show (if j < 2 ^ l.ht then l.branchIn a j ++ _ else _).length = l.ht + 1
    by_cases hc : j < 2 ^ l.ht
    · rw [if_pos hc]
      simp [ihl hl]
    · rw [if_neg hc]
      simp [ihr hr, ← hlr]

theorem famChain : ∀ (t : PTree), t.shapeOk →
    ∀ (m a : Nat), (∀ i, i < t.ht → m.testBit i = false) →
    peak_map_height a = (m, 0) →
    ∀ j, j < 2 ^ t.ht →
    chainRun (a + t.llp j) (t.branchIn a j) (a + (2 ^ (t.ht + 1) - 2)) := by
  intro t
  induction t with
  | leaf h =>
    intro _ m a _ _ j _
    show a + (PTree.leaf h).llp j = a + (2 ^ ((PTree.leaf h).ht + 1) - 2)
    simp [PTree.llp, PTree.ht]
  | node h l r ihl ihr =>
    intro hs m a hm hA j hj
    obtain ⟨hlr, hl, hr⟩ := hs
    have hht : (PTree.node h l r).ht = l.ht + 1 := rfl
    have hc2 : (2:Nat) ≤ 2 ^ (l.ht + 1) := by
      have h1 : (2:Nat) ^ 1 ≤ 2 ^ (l.ht + 1) := Nat.pow_le_pow_right (by omega) (by omega)
      simpa using h1
    have hpow : (2:Nat) ^ (l.ht + 1 + 1) = 2 * 2 ^ (l.ht + 1) := by ring
    have hml : ∀ i, i < l.ht → m.testBit i = false := by
      intro i hi
      exact hm i (by rw [hht]; omega)
    have hmlt : m.testBit l.ht = false := hm l.ht (by rw [hht]; omega)
    have hSl : peak_map_height (a + (2 ^ (l.ht + 1) - 2)) = (m, l.ht) := by
      rw [pmh_shift, hA, pmRun_tree hl m hml]
    have hSe : peak_map_height (a + (2 ^ (l.ht + 1) - 1)) = (m + 2 ^ l.ht, 0) := by
      rw [pmh_shift, hA, pmRun_treeA hl m (fun i hi => hm i (by rw [hht]; omega))]
    have hm2 : ∀ i, i < r.ht → (m + 2 ^ l.ht).testBit i = false := by
      intro i hi
      rw [← hlr] at hi
      rw [testBit_add_pow_lt hi]
      exact hml i hi
    have hSr : peak_map_height (a + (2 * 2 ^ (l.ht + 1) - 3)) = (m + 2 ^ l.ht, l.ht) := by
      have hsplit : 2 * 2 ^ (l.ht + 1) - 3
          = (2 ^ (l.ht + 1) - 1) + (2 ^ (r.ht + 1) - 2) := by
        rw [← hlr]
        omega
      rw [hsplit, ← Nat.add_assoc, pmh_shift, hSe,
        pmRun_tree hr (m + 2 ^ l.ht) hm2, hlr]
    have hbitT : (m + 2 ^ l.ht).testBit l.ht = true := testBit_add_pow_self hmlt
    by_cases hc : j < 2 ^ l.ht
    · have hbr : (PTree.node h l r).branchIn a j
          = l.branchIn a j ++ [(a + 2 * (2 ^ (l.ht + 1) - 1),
              a + 2 * (2 ^ (l.ht + 1) - 1) - 1)] := by
        show (if j < 2 ^ l.ht then _ else _) = _
        rw [if_pos hc]
      have hllp : (PTree.node h l r).llp j = l.llp j := by
        show (if j < 2 ^ l.ht then _ else _) = _
        rw [if_pos hc]
      have hfam : family (a + (2 ^ (l.ht + 1) - 2))
          = (a + 2 * (2 ^ (l.ht + 1) - 1), a + 2 * (2 ^ (l.ht + 1) - 1) - 1) := by
        show (if (peak_map_height (a + (2 ^ (l.ht + 1) - 2))).1.testBit
            (peak_map_height (a + (2 ^ (l.ht + 1) - 2))).2 then _ else _) = _
        rw [hSl]
        show (if m.testBit l.ht then _ else _) = _
        rw [if_neg (by simp [hmlt])]
        have e1 : a + (2 ^ (l.ht + 1) - 2) + 2 ^ (l.ht + 1)
            = a + 2 * (2 ^ (l.ht + 1) - 1) := by omega
        have e2 : a + (2 ^ (l.ht + 1) - 2) + 2 ^ (l.ht + 1) - 1
            = a + 2 * (2 ^ (l.ht + 1) - 1) - 1 := by omega
        rw [e2, e1]
      have hglue := chainRun_append_single (l.branchIn a j)
        (a + l.llp j) (a + (2 ^ (l.ht + 1) - 2))
        (a + 2 * (2 ^ (l.ht + 1) - 1), a + 2 * (2 ^ (l.ht + 1) - 1) - 1)
        (ihl hl m a hml hA j hc) hfam
      rw [hbr, hllp]
      have e3 : a + 2 * (2 ^ (l.ht + 1) - 1)
          = a + (2 ^ ((PTree.node h l r).ht + 1) - 2) := by
        rw [hht, hpow]
        omega
      rw [← e3]
      exact hglue
    · have hj' : j - 2 ^ l.ht < 2 ^ r.ht := by
        rw [hht] at hj
        rw [← hlr]
        have hp : (2:Nat) ^ (l.ht + 1) = 2 * 2 ^ l.ht := by ring
        omega
      have hbr : (PTree.node h l r).branchIn a j
          = r.branchIn (a + (2 ^ (l.ht + 1) - 1)) (j - 2 ^ l.ht)
            ++ [(a + 2 * (2 ^ (l.ht + 1) - 1),
                a + (2 ^ (l.ht + 1) - 1) - 1)] := by
        show (if j < 2 ^ l.ht then _ else _) = _
        rw [if_neg hc]
      have hllp : (PTree.node h l r).llp j
          = (2 ^ (l.ht + 1) - 1) + r.llp (j - 2 ^ l.ht) := by
        show (if j < 2 ^ l.ht then _ else _) = _
        rw [if_neg hc]
      have hfam : family (a + (2 * 2 ^ (l.ht + 1) - 3))
          = (a + 2 * (2 ^ (l.ht + 1) - 1), a + (2 ^ (l.ht + 1) - 1) - 1) := by
        show (if (peak_map_height (a + (2 * 2 ^ (l.ht + 1) - 3))).1.testBit
            (peak_map_height (a + (2 * 2 ^ (l.ht + 1) - 3))).2 then _ else _) = _
        rw [hSr]
        show (if (m + 2 ^ l.ht).testBit l.ht then _ else _) = _
        rw [if_pos (by simp [hbitT])]
        have e4 : a + (2 * 2 ^ (l.ht + 1) - 3) + 1 - 2 ^ (l.ht + 1)
            = a + (2 ^ (l.ht + 1) - 1) - 1 := by omega
        have e5 : a + (2 * 2 ^ (l.ht + 1) - 3) + 1
            = a + 2 * (2 ^ (l.ht + 1) - 1) := by omega
        rw [e4, e5]
      have hrun := ihr hr (m + 2 ^ l.ht) (a + (2 ^ (l.ht + 1) - 1)) hm2 hSe
        (j - 2 ^ l.ht) hj'
      have e6 : a + (2 ^ (l.ht + 1) - 1) + (2 ^ (r.ht + 1) - 2)
          = a + (2 * 2 ^ (l.ht + 1) - 3) := by rw [← hlr]; omega
      rw [e6] at hrun
      have hglue := chainRun_append_single _ _ _ _ hrun hfam
      rw [hbr, hllp]
      have e3 : a + 2 * (2 ^ (l.ht + 1) - 1)
          = a + (2 ^ ((PTree.node h l r).ht + 1) - 2) := by
        rw [hht, hpow]
        omega
      have e7 : a + ((2 ^ (l.ht + 1) - 1) + r.llp (j - 2 ^ l.ht))
          = a + (2 ^ (l.ht + 1) - 1) + r.llp (j - 2 ^ l.ht) := by omega
      rw [← e3, e7]
      exact hglue

theorem familyBranchGo_of_chainRun : ∀ (ps : List (Nat × Nat)) (p R n fuel : Nat),
    chainRun p ps R → (∀ pr ∈ ps, pr.1 < n) → n ≤ (family R).1 →
    ps.length < fuel → familyBranchGo fuel p n = ps := by
  intro ps
  induction ps with
  | nil =>
    intro p R n fuel hrun _ hstop hfuel
    rcases Nat.exists_eq_succ_of_ne_zero (by omega : fuel ≠ 0) with ⟨f, rfl⟩
    have hp : p = R := hrun
    show (if (family p).1 < n then _ else _) = _
    rw [if_neg (by rw [hp]; omega)]
  | cons pr rest ih =>
    intro p R n fuel hrun hlt hstop hfuel
    rcases Nat.exists_eq_succ_of_ne_zero (by omega : fuel ≠ 0) with ⟨f, rfl⟩
    obtain ⟨h1, h2⟩ := hrun
    show (if (family p).1 < n then (family p) :: _ else _) = _
    rw [h1, if_pos (hlt pr (by simp))]
    rw [ih pr.1 R n f h2 (fun q hq => hlt q (by simp [hq])) hstop (by simpa using hfuel)]

theorem chainRun_last : ∀ (ps : List (Nat × Nat)) (p R : Nat),
    chainRun p ps R → ps ≠ [] →
    ∃ pr, ps.getLast? = some pr ∧ pr.1 = R := by
  intro ps
  induction ps with
  | nil =>
    intro p R _ hne
    exact absurd rfl hne
  | cons pr rest ih =>
    intro p R hrun _
    obtain ⟨h1, h2⟩ := hrun
    cases rest with
    | nil =>
      exact ⟨pr, rfl, h2⟩
    | cons q tl =>
      obtain ⟨w, hw1, hw2⟩ := ih pr.1 R h2 (by simp)
      exact ⟨w, by rw [List.getLast?_cons_cons]; exact hw1, hw2⟩

theorem family_gt (p : Nat) : p < (family p).1 := by
  have hunf : family p
      = if (peak_map_height p).1.testBit (peak_map_height p).2
        then (p + 1, p + 1 - 2 ^ ((peak_map_height p).2 + 1))
        else (p + 2 ^ ((peak_map_height p).2 + 1),
          p + 2 ^ ((peak_map_height p).2 + 1) - 1) := rfl
  rw [hunf]
  by_cases hc : (peak_map_height p).1.testBit (peak_map_height p).2
  · rw [if_pos hc]
    show p < p + 1
    omega
  · rw [if_neg hc]
    have hpos : (0:Nat) < 2 ^ ((peak_map_height p).2 + 1) := by positivity
    show p < p + 2 ^ ((peak_map_height p).2 + 1)
    omega

theorem chainRun_le : ∀ (ps : List (Nat × Nat)) (p R : Nat),
    chainRun p ps R → p ≤ R := by
  intro ps
  induction ps with
  | nil =>
    intro p R h
    exact le_of_eq h
  | cons pr rest ih =>
    intro p R hrun
    obtain ⟨h1, h2⟩ := hrun
    have hgt : p < pr.1 := by
      have := family_gt p
      rw [h1] at this
      exact this
    exact le_trans (le_of_lt hgt) (ih pr.1 R h2)

theorem chainRun_parents_le : ∀ (ps : List (Nat × Nat)) (p R : Nat),
    chainRun p ps R → ∀ pr ∈ ps, pr.1 ≤ R := by
  intro ps
  induction ps with
  | nil =>
    intro p R _ pr hpr
    simp at hpr
  | cons hd rest ih =>
    intro p R hrun pr hpr
    obtain ⟨h1, h2⟩ := hrun
    rcases List.mem_cons.mp hpr with hh | ht
    · rw [hh]
      exact chainRun_le rest hd.1 R h2
    · exact ih hd.1 R h2 pr ht

theorem decF_middle {P S : List PTree} {t : PTree}
    (hdec : decF (P ++ t :: S)) :
    (∀ u ∈ P, t.ht < u.ht) ∧ (∀ u ∈ S, u.ht < t.ht) := by
  rw [decF, List.pairwise_append] at hdec
  obtain ⟨h1, h2, h3⟩ := hdec
  constructor
  · intro u hu
    exact h3 u hu t (by simp)
  · intro u hu
    exact (List.pairwise_cons.mp h2).1 u hu

theorem prefix_clear {P S : List PTree} {t : PTree}
    (hdec : decF (P ++ t :: S)) :
    ∀ i, i ≤ t.ht → (bitsF P).testBit i = false := by
  intro i hi
  have hP : decF P := ((List.pairwise_append.mp hdec).1 : decF P)
  by_contra hcon
  have hbit : (bitsF P).testBit i = true := by
    cases hx : (bitsF P).testBit i
    · exact absurd hx hcon
    · rfl
  obtain ⟨u, hu, hui⟩ := (bitsF_testBit P hP i).mp hbit
  have := (decF_middle hdec).1 u hu
  omega

theorem family_at_peak (P S : List PTree) (t : PTree)
    (hshape : shapeF (P ++ t :: S)) (hdec : decF (P ++ t :: S)) :
    family (lenF P + (2 ^ (t.ht + 1) - 2))
      = (lenF P + (2 ^ (t.ht + 1) - 2) + 2 ^ (t.ht + 1),
         lenF P + (2 ^ (t.ht + 1) - 2) + 2 ^ (t.ht + 1) - 1)
    ∧ lenF (P ++ t :: S) < lenF P + (2 ^ (t.ht + 1) - 2) + 2 ^ (t.ht + 1) := by
  have hP : peak_map_height (lenF P) = (bitsF P, 0) :=
    @pmh_front P (t :: S) hshape hdec
  have hclear := prefix_clear hdec
  have hts : t.shapeOk := hshape t (by simp)
  have hstate : peak_map_height (lenF P + (2 ^ (t.ht + 1) - 2)) = (bitsF P, t.ht) := by
    rw [pmh_shift, hP, pmRun_tree hts (bitsF P) (fun i hi => hclear i (by omega))]
  constructor
  · show (if (peak_map_height (lenF P + (2 ^ (t.ht + 1) - 2))).1.testBit
        (peak_map_height (lenF P + (2 ^ (t.ht + 1) - 2))).2 then _ else _) = _
    rw [hstate]
    show (if (bitsF P).testBit t.ht then _ else _) = _
    rw [if_neg (by simp [hclear t.ht (le_refl _)])]
  · have hSb : lenF S ≤ 2 ^ (t.ht + 1) - 2 := by
      apply lenF_bound S t.ht
      · intro u hu
        exact hshape u (by simp [hu])
      · exact ((List.pairwise_append.mp hdec).2.1 : decF (t :: S)).sublist
          (List.sublist_cons_self t S)
      · exact (decF_middle hdec).2
    have hc2 : (2:Nat) ≤ 2 ^ (t.ht + 1) := by
      have h1 : (2:Nat) ^ 1 ≤ 2 ^ (t.ht + 1) := Nat.pow_le_pow_right (by omega) (by omega)
      simpa using h1
    rw [lenF_append, lenF_cons, PTree.flat_length hts]
    omega

theorem family_branch_eq (P S : List PTree) (t : PTree) (j : Nat)
    (hshape : shapeF (P ++ t :: S)) (hdec : decF (P ++ t :: S))
    (hj : j < 2 ^ t.ht) :
    family_branch (lenF P + t.llp j) (lenF (P ++ t :: S))
      = t.branchIn (lenF P) j := by
  have hP : peak_map_height (lenF P) = (bitsF P, 0) :=
    @pmh_front P (t :: S) hshape hdec
  have hclear := prefix_clear hdec
  have hts : t.shapeOk := hshape t (by simp)
  have hrun := famChain t hts (bitsF P) (lenF P)
    (fun i hi => hclear i (by omega)) hP j hj
  obtain ⟨hfam, hbound⟩ := family_at_peak P S t hshape hdec
  have hRlt : lenF P + (2 ^ (t.ht + 1) - 2) < lenF (P ++ t :: S) := by
    have hc2 : (2:Nat) ≤ 2 ^ (t.ht + 1) := by
      have h1 : (2:Nat) ^ 1 ≤ 2 ^ (t.ht + 1) :=
        Nat.pow_le_pow_right (by omega) (by omega)
      simpa using h1
    rw [lenF_append, lenF_cons, PTree.flat_length hts]
    omega
  apply familyBranchGo_of_chainRun _ _ (lenF P + (2 ^ (t.ht + 1) - 2)) _ _ hrun
  · intro pr hpr
    have := chainRun_parents_le _ _ _ hrun pr hpr
    omega
  · rw [hfam]
    omega
  · rw [branchIn_length t hts]
    have h1 : t.ht + 1 < 2 ^ (t.ht + 1) := Nat.lt_two_pow (t.ht + 1)
    omega

theorem mapM_option_congr {α β : Type} : ∀ (l : List α) (f g : α → Option β),
    (∀ a ∈ l, f a = g a) → l.mapM f = l.mapM g := by
  intro l
  induction l with
  | nil =>
    intro f g _
    rfl
  | cons a l ih =>
    intro f g hfg
    rw [List.mapM_cons, List.mapM_cons, hfg a (by simp),
      ih f g (fun x hx => hfg x (by simp [hx]))]

theorem rootPosGo_length : ∀ (F : List PTree) (acc : Nat),
    (rootPosGo acc F).length = F.length := by
  intro F
  induction F with
  | nil =>
    intro acc
    rfl
  | cons t F ih =>
    intro acc
    simp [rootPosGo, ih]

theorem rootPosGo_mapM_read : ∀ (F : List PTree) (pre suf L : List Hash),
    shapeF F → L = pre ++ (flatF F ++ suf) →
    (rootPosGo pre.length F).mapM (fun i => L[i]?) = some (F.map PTree.top) := by
  intro F
  induction F with
  | nil =>
    intro pre suf L _ _
    rfl
  | cons t F ih =>
    intro pre suf L hshape hL
    have hts : t.shapeOk := hshape t (by simp)
    have hfl : t.flat.length = 2 ^ (t.ht + 1) - 1 := PTree.flat_length hts
    have hc2 : (2:Nat) ≤ 2 ^ (t.ht + 1) := by
      have h1 : (2:Nat) ^ 1 ≤ 2 ^ (t.ht + 1) :=
        Nat.pow_le_pow_right (by omega) (by omega)
      simpa using h1
    have hL2 : L = (pre ++ t.flat) ++ (flatF F ++ suf) := by
      rw [hL, flatF_cons]
      simp
    show ((pre.length + 2 ^ (t.ht + 1) - 2)
        :: rootPosGo (pre.length + 2 ^ (t.ht + 1) - 1) F).mapM
        (fun i => L[i]?) = some (t.top :: F.map PTree.top)
    rw [List.mapM_cons]
    have hhead : L[pre.length + 2 ^ (t.ht + 1) - 2]? = some t.top := by
      rw [hL2]
      rw [List.getElem?_append_left (by simp [hfl]; omega)]
      rw [List.getElem?_append_right (by omega)]
      have hidx : pre.length + 2 ^ (t.ht + 1) - 2 - pre.length
          = 2 ^ (t.ht + 1) - 2 := by omega
      rw [hidx]
      exact PTree.flat_get_root t hts
    have htail := ih (pre ++ t.flat) suf L
      (fun u hu => hshape u (by simp [hu])) hL2
    have hacc : (pre ++ t.flat).length = pre.length + 2 ^ (t.ht + 1) - 1 := by
      simp [hfl]
      omega
    rw [hacc] at htail
    rw [hhead, htail]
    rfl

theorem rootPositions_filter (P S : List PTree) (t : PTree)
    (hshape : shapeF (P ++ t :: S)) :
    (rootPositions (P ++ t :: S)).filter
        (fun p => p ≠ lenF P + 2 ^ (t.ht + 1) - 2)
      = rootPosGo 0 P ++ rootPosGo (lenF P + 2 ^ (t.ht + 1) - 1) S := by
  have hc2 : (2:Nat) ≤ 2 ^ (t.ht + 1) := by
    have h1 : (2:Nat) ^ 1 ≤ 2 ^ (t.ht + 1) :=
      Nat.pow_le_pow_right (by omega) (by omega)
    simpa using h1
  have hPs : shapeF P := fun u hu => hshape u (by simp [hu])
  have hsplit : rootPositions (P ++ t :: S)
      = rootPosGo 0 P ++ ((lenF P + 2 ^ (t.ht + 1) - 2)
          :: rootPosGo (lenF P + 2 ^ (t.ht + 1) - 1) S) := by
    show rootPosGo 0 (P ++ t :: S) = _
    rw [rootPosGo_append P (t :: S) 0 hPs, Nat.zero_add]
    rfl
  rw [hsplit, List.filter_append]
  have hkeepP : (rootPosGo 0 P).filter
      (fun p => p ≠ lenF P + 2 ^ (t.ht + 1) - 2) = rootPosGo 0 P := by
    apply List.filter_eq_self.mpr
    intro p hp
    have h1 := rootPosGo_lt P 0 hPs p hp
    simp only [ne_eq, decide_eq_true_eq]
    omega
  have hdrop : ((lenF P + 2 ^ (t.ht + 1) - 2)
        :: rootPosGo (lenF P + 2 ^ (t.ht + 1) - 1) S).filter
      (fun p => p ≠ lenF P + 2 ^ (t.ht + 1) - 2)
      = rootPosGo (lenF P + 2 ^ (t.ht + 1) - 1) S := by
    rw [List.filter_cons_of_neg (by simp)]
    apply List.filter_eq_self.mpr
    intro p hp
    have h1 := rootPosGo_ge S (lenF P + 2 ^ (t.ht + 1) - 1) p hp
    simp only [ne_eq, decide_eq_true_eq]
    omega
  rw [hkeepP, hdrop]

theorem chainPeaks_no_match : ∀ (B : List Nat) (hb : List Hash) (h : Hash)
    (R : Nat), (∀ i ∈ B, i ≠ R) → B.length = hb.length →
    MerkleProof.chainPeaks B hb h R = some hb := by
  intro B
  induction B with
  | nil =>
    intro hb h R _ hlen
    have : hb = [] := by
      cases hb
      · rfl
      · simp at hlen
    rw [this]
    rfl
  | cons i B ih =>
    intro hb h R hne hlen
    cases hb with
    | nil => simp at hlen
    | cons ph rest =>
      show (if i = R then _ else _) = _
      rw [if_neg (hne i (by simp))]
      show (MerkleProof.chainPeaks B rest h R).map (ph :: ·) = _
      rw [ih rest h R (fun x hx => hne x (by simp [hx])) (by simpa using hlen)]
      rfl

theorem chainPeaks_split : ∀ (A : List Nat) (ha : List Hash) (B : List Nat)
    (hb : List Hash) (h : Hash) (R : Nat),
    (∀ i ∈ A, i ≠ R) → A.length = ha.length →
    (∀ i ∈ B, i ≠ R) → B.length = hb.length →
    MerkleProof.chainPeaks (A ++ R :: B) (ha ++ hb) h R
      = some (ha ++ h :: hb) := by
  intro A
  induction A with
  | nil =>
    intro ha B hb h R _ hlen hne2 hlen2
    have hha : ha = [] := by
      cases ha
      · rfl
      · simp at hlen
    rw [hha]
    show (if R = R then (MerkleProof.chainPeaks B hb h R).map (h :: ·) else _) = _
    rw [if_pos rfl, chainPeaks_no_match B hb h R hne2 hlen2]
    rfl
  | cons i A ih =>
    intro ha B hb h R hne hlen hne2 hlen2
    cases ha with
    | nil => simp at hlen
    | cons ph rest =>
      show (if i = R then _ else _) = _
      rw [if_neg (hne i (by simp))]
      show (MerkleProof.chainPeaks (A ++ R :: B) (rest ++ hb) h R).map (ph :: ·) = _
      rw [ih rest B hb h R (fun x hx => hne x (by simp [hx]))
        (by simpa using hlen) hne2 hlen2]
      rfl

theorem mapM_option_append {α β : Type} (f : α → Option β) :
    ∀ (l₁ : List α) (r₁ : List β) (l₂ : List α) (r₂ : List β),
    l₁.mapM f = some r₁ → l₂.mapM f = some r₂ →
    (l₁ ++ l₂).mapM f = some (r₁ ++ r₂) := by
  intro l₁
  induction l₁ with
  | nil =>
    intro r₁ l₂ r₂ h1 h2
    have hr : r₁ = [] := by
      have : (some [] : Option (List β)) = some r₁ := h1
      simpa using this.symm
    rw [hr]
    simpa using h2
  | cons a l ih =>
    intro r₁ l₂ r₂ h1 h2
    rw [List.mapM_cons] at h1
    cases hfa : f a with
    | none => rw [hfa] at h1; simp at h1
    | some b =>
      rw [hfa] at h1
      cases hl : l.mapM f with
      | none => rw [hl] at h1; simp at h1
      | some bs =>
        rw [hl] at h1
        simp at h1
        rw [List.cons_append, List.mapM_cons, hfa, ih bs l₂ r₂ hl h2]
        rw [← h1]
        rfl

theorem leaf_decomp : ∀ (F : List PTree), shapeF F →
    ∀ k, k < (leavesF F).length →
    ∃ (P : List PTree) (t : PTree) (S : List PTree) (j : Nat),
      F = P ++ t :: S ∧ j < 2 ^ t.ht ∧ k = (leavesF P).length + j ∧
      (leavesF F)[k]? = some (t.leafAt j) := by
  intro F
  induction F with
  | nil =>
    intro _ k hk
    simp [leavesF_nil] at hk
  | cons t F ih =>
    intro hshape k hk
    have hts : t.shapeOk := hshape t (by simp)
    have hll : t.leafHashes.length = 2 ^ t.ht := PTree.leafHashes_length hts
    by_cases hc : k < t.leafHashes.length
    · refine ⟨[], t, F, k, by simp, by omega, by simp [leavesF_nil], ?_⟩
      rw [leavesF_cons, List.getElem?_append_left hc]
      exact PTree.leafHashes_get t hts k (by omega)
    · have hk2 : k - t.leafHashes.length < (leavesF F).length := by
        rw [leavesF_cons] at hk
        simp at hk
        omega
      obtain ⟨P, u, S, j, hFeq, hj, hkeq, hget⟩ :=
        ih (fun v hv => hshape v (by simp [hv])) (k - t.leafHashes.length) hk2
      refine ⟨t :: P, u, S, j, by rw [hFeq]; rfl, hj, ?_, ?_⟩
      · rw [leavesF_cons]
        simp
        omega
      · rw [leavesF_cons, List.getElem?_append_right (by omega)]
        exact hget

theorem leaf_index_split (P S : List PTree) (t : PTree) (j : Nat)
    (hshape : shapeF (P ++ t :: S)) (hdec : decF (P ++ t :: S))
    (hj : j < 2 ^ t.ht) :
    leaf_index ((leavesF P).length + j) = lenF P + t.llp j := by
  have hPs : shapeF P := fun u hu => hshape u (by simp [hu])
  have hPd : decF P := (List.pairwise_append.mp hdec).1
  have hts : t.shapeOk := hshape t (by simp)
  have hlp : (leavesF P).length = bitsF P := leavesF_length hPs
  have hjlt : j < 2 ^ (t.ht + 1) := by
    have : (2:Nat) ^ t.ht ≤ 2 ^ (t.ht + 1) :=
      Nat.pow_le_pow_right (by omega) (by omega)
    omega
  have hpc : popcount (bitsF P + j) = popcount (bitsF P) + popcount j :=
    popcount_add_disjoint (t.ht + 1) (bitsF P) j hjlt
      (fun i hi => prefix_clear hdec i (by omega))
  have hlf := lenF_formula P hPs hPd
  have hllp : t.llp j = 2 * j - popcount j := PTree.llp_formula t hts j hj
  have hpcj : popcount j ≤ j := popcount_le j
  have hpcP : popcount (bitsF P) ≤ bitsF P := popcount_le _
  show 2 * ((leavesF P).length + j) - popcount ((leavesF P).length + j) = _
  rw [hlp, hpc, hllp]
  omega

theorem branch_sib_read : ∀ (t : PTree), t.shapeOk →
    ∀ (j : Nat) (pre suf L : List Hash), j < 2 ^ t.ht →
    L = pre ++ (t.flat ++ suf) →
    (t.branchIn pre.length j).mapM (fun pr => L[pr.2]?)
      = some (t.leafPath j) := by
  intro t
  induction t with
  | leaf h =>
    intro _ j pre suf L _ _
    rfl
  | node h l r ihl ihr =>
    intro hs j pre suf L hj hL
    obtain ⟨hlr, hl, hr⟩ := hs
    have hht : (PTree.node h l r).ht = l.ht + 1 := rfl
    have hc2 : (2:Nat) ≤ 2 ^ (l.ht + 1) := by
      have h1 : (2:Nat) ^ 1 ≤ 2 ^ (l.ht + 1) :=
        Nat.pow_le_pow_right (by omega) (by omega)
      simpa using h1
    have hfl : l.flat.length = 2 ^ (l.ht + 1) - 1 := PTree.flat_length hl
    have hfr : r.flat.length = 2 ^ (l.ht + 1) - 1 := by
      rw [PTree.flat_length hr, hlr]
    have hLa : L = pre ++ (l.flat ++ (r.flat ++ ([h] ++ suf))) := by
      rw [hL]
      simp [PTree.flat]
    have hLb : L = (pre ++ l.flat) ++ (r.flat ++ ([h] ++ suf)) := by
      rw [hLa]
      simp
    by_cases hc : j < 2 ^ l.ht
    · have hbr : (PTree.node h l r).branchIn pre.length j
          = l.branchIn pre.length j
            ++ [(pre.length + 2 * (2 ^ (l.ht + 1) - 1),
                pre.length + 2 * (2 ^ (l.ht + 1) - 1) - 1)] := by
        show (if j < 2 ^ l.ht then _ else _) = _
        rw [if_pos hc]
      have hlp : (PTree.node h l r).leafPath j = l.leafPath j ++ [r.top] := by
        show (if j < 2 ^ l.ht then _ else _) = _
        rw [if_pos hc]
      have hsib : L[pre.length + 2 * (2 ^ (l.ht + 1) - 1) - 1]? = some r.top := by
        rw [hLb, List.getElem?_append_right (by simp [hfl]; omega)]
        have hidx : pre.length + 2 * (2 ^ (l.ht + 1) - 1) - 1
            - (pre ++ l.flat).length = 2 ^ (l.ht + 1) - 2 := by
          simp [hfl]
          omega
        rw [hidx, List.getElem?_append_left (by omega)]
        have := PTree.flat_get_root r hr
        rw [← hlr] at this
        exact this
      rw [hbr, hlp]
      apply mapM_option_append _ _ _ _ _
        (ihl hl j pre (r.flat ++ ([h] ++ suf)) L hc hLa)
      rw [List.mapM_cons, hsib]
      rfl
    · have hj' : j - 2 ^ l.ht < 2 ^ r.ht := by
        rw [hht] at hj
        rw [← hlr]
        have hp : (2:Nat) ^ (l.ht + 1) = 2 * 2 ^ l.ht := by ring
        omega
      have hbr : (PTree.node h l r).branchIn pre.length j
          = r.branchIn (pre.length + (2 ^ (l.ht + 1) - 1)) (j - 2 ^ l.ht)
            ++ [(pre.length + 2 * (2 ^ (l.ht + 1) - 1),
                pre.length + (2 ^ (l.ht + 1) - 1) - 1)] := by
        show (if j < 2 ^ l.ht then _ else _) = _
        rw [if_neg hc]
      have hlp : (PTree.node h l r).leafPath j
          = r.leafPath (j - 2 ^ l.ht) ++ [l.top] := by
        show (if j < 2 ^ l.ht then _ else _) = _
        rw [if_neg hc]
      have hsib : L[pre.length + (2 ^ (l.ht + 1) - 1) - 1]? = some l.top := by
        rw [hLa, List.getElem?_append_right (by omega)]
        have hidx : pre.length + (2 ^ (l.ht + 1) - 1) - 1 - pre.length
            = 2 ^ (l.ht + 1) - 2 := by omega
        rw [hidx, List.getElem?_append_left (by omega)]
        exact PTree.flat_get_root l hl
      have hprelen : (pre ++ l.flat).length
          = pre.length + (2 ^ (l.ht + 1) - 1) := by
        simp [hfl]
      have hrec := ihr hr (j - 2 ^ l.ht) (pre ++ l.flat) ([h] ++ suf) L hj' hLb
      rw [hprelen] at hrec
      rw [hbr, hlp]
      apply mapM_option_append _ _ _ _ _ hrec
      rw [List.mapM_cons, hsib]
      rfl

theorem find_peaks_mapM_read (F : List PTree) (hshape : shapeF F)
    (hdec : decF F) :
    (find_peaks (lenF F)).mapM (fun i => (flatF F)[i]?)
      = some (F.map PTree.top) := by
  rw [find_peaks_forest hshape hdec]
  have h := rootPosGo_mapM_read F [] [] (flatF F) hshape (by simp)
  simpa using h

theorem get_merkle_root_forest (F : List PTree) (hne : F ≠ [])
    (hshape : shapeF F) (hdec : decF F) :
    MerkleMountainRange.get_merkle_root (σ := List Hash) ⟨flatF F⟩
      = some (Hash.digest (F.map PTree.top)) := by
  have hlen : lenF F ≠ 0 := by
    intro h0
    exact hne (lenF_eq_zero h0)
  show (if lenF F = 0 then _ else _) = _
  rw [if_neg hlen]
  have hroot : MerkleMountainRange.hash_to_root (σ := List Hash) ⟨flatF F⟩
      = some (F.map PTree.top) := by
    show (find_peaks (lenF F)).mapM
        (fun i => Storage.get_or_panic (σ := List Hash) (flatF F) i) = _
    rw [mapM_option_congr _ _ (fun i => (flatF F)[i]?) (fun i _ => vec_gop _ i)]
    exact find_peaks_mapM_read F hshape hdec
  show (MerkleMountainRange.hash_to_root (σ := List Hash) ⟨flatF F⟩).map
      Hash.digest = _
  rw [hroot]
  rfl

theorem generate_proof_eq (P S : List PTree) (t : PTree) (j : Nat)
    (hshape : shapeF (P ++ t :: S)) (hdec : decF (P ++ t :: S))
    (hj : j < 2 ^ t.ht) :
    MerkleProof.generate_proof (σ := List Hash) ⟨flatF (P ++ t :: S)⟩
        (lenF P + t.llp j)
      = .ok ⟨lenF (P ++ t :: S), t.leafPath j,
          P.map PTree.top ++ S.map PTree.top⟩ := by
  have hts : t.shapeOk := hshape t (by simp)
  have hPs : shapeF P := fun u hu => hshape u (by simp [hu])
  have hSs : shapeF S := fun u hu => hshape u (by simp [hu])
  have hc2 : (2:Nat) ≤ 2 ^ (t.ht + 1) := by
    have h1 : (2:Nat) ^ 1 ≤ 2 ^ (t.ht + 1) :=
      Nat.pow_le_pow_right (by omega) (by omega)
    simpa using h1
  have hfl : t.flat.length = 2 ^ (t.ht + 1) - 1 := PTree.flat_length hts
  have hget : ∀ i, MerkleMountainRange.get_node_hash (σ := List Hash)
      ⟨flatF (P ++ t :: S)⟩ i = (flatF (P ++ t :: S))[i]? := fun i => rfl
  have hlen : MerkleMountainRange.len (σ := List Hash)
      ⟨flatF (P ++ t :: S)⟩ = lenF (P ++ t :: S) := rfl
  have hflatF : flatF (P ++ t :: S) = flatF P ++ (t.flat ++ flatF S) := by
    rw [flatF_append, flatF_cons]
  have hplen : (flatF P).length = lenF P := rfl
  have hread0 : (flatF (P ++ t :: S))[lenF P + t.llp j]? = some (t.leafAt j) := by
    rw [hflatF]
    rw [List.getElem?_append_right (by rw [hplen]; omega)]
    have hidx : lenF P + t.llp j - (flatF P).length = t.llp j := by
      rw [hplen]
      omega
    rw [hidx, List.getElem?_append_left (PTree.llp_lt t hts j hj)]
    exact PTree.flat_get_llp t hts j hj
  have hpath : (t.branchIn (lenF P) j).mapM
      (fun pr => match (flatF (P ++ t :: S))[pr.2]? with
        | some v => some v
        | none => none) = some (t.leafPath j) := by
    rw [mapM_option_congr _ _ (fun pr => (flatF (P ++ t :: S))[pr.2]?)
      (by
        intro pr _
        show (match (flatF (P ++ t :: S))[pr.2]? with
          | some v => some v
          | none => none) = (flatF (P ++ t :: S))[pr.2]?
        cases hx : (flatF (P ++ t :: S))[pr.2]? <;> rfl)]
    have h := branch_sib_read t hts j (flatF P) (flatF S)
      (flatF (P ++ t :: S)) hj hflatF
    rw [hplen] at h
    exact h
  have hpp : (match (t.branchIn (lenF P) j).getLast? with
      | some pr => pr.1
      | none => lenF P + t.llp j) = lenF P + 2 ^ (t.ht + 1) - 2 := by
    by_cases hz : t.ht = 0
    · have hlen0 : (t.branchIn (lenF P) j).length = 0 := by
        rw [branchIn_length t hts, hz]
      have hnil : t.branchIn (lenF P) j = [] := List.length_eq_zero.mp hlen0
      rw [hnil]
      have hj0 : j = 0 := by
        rw [hz] at hj
        omega
      have hllp0 : t.llp j = 0 := by
        rw [PTree.llp_formula t hts j hj, hj0, popcount_zero]
      show lenF P + t.llp j = _
      rw [hllp0, hz]
      omega
    · have hne : t.branchIn (lenF P) j ≠ [] := by
        intro h0
        have := branchIn_length t hts (lenF P) j
        rw [h0] at this
        simp at this
        omega
      have hP : peak_map_height (lenF P) = (bitsF P, 0) :=
        @pmh_front P (t :: S) hshape hdec
      have hrun := famChain t hts (bitsF P) (lenF P)
        (fun i hi => prefix_clear hdec i (by omega)) hP j hj
      obtain ⟨pr, hw1, hw2⟩ := chainRun_last _ _ _ hrun hne
      rw [hw1]
      show pr.1 = _
      rw [hw2]
      omega
  have hflatF2 : flatF (P ++ t :: S) = (flatF P ++ t.flat) ++ (flatF S ++ []) := by
    rw [hflatF]
    simp
  have hacc : (flatF P ++ t.flat).length = lenF P + 2 ^ (t.ht + 1) - 1 := by
    simp [hfl, lenF]
    omega
  have hreadP := rootPosGo_mapM_read P [] (t.flat ++ flatF S)
    (flatF (P ++ t :: S)) hPs (by rw [hflatF]; simp)
  simp only [List.length_nil] at hreadP
  have hreadS := rootPosGo_mapM_read S (flatF P ++ t.flat) []
    (flatF (P ++ t :: S)) hSs hflatF2
  rw [hacc] at hreadS
  have hpeaks : (rootPosGo 0 P
      ++ rootPosGo (lenF P + 2 ^ (t.ht + 1) - 1) S).mapM
      (fun i => (flatF (P ++ t :: S))[i]?)
      = some (P.map PTree.top ++ S.map PTree.top) :=
    mapM_option_append _ _ _ _ _ hreadP hreadS
  simp only [MerkleProof.generate_proof, hget, hlen]
  rw [hread0]
  rw [family_branch_eq P S t j hshape hdec hj]
  rw [hpath, hpp, find_peaks_forest hshape hdec]
  rw [rootPositions_filter P S t hshape]
  rw [hpeaks]

theorem verify_eq (P S : List PTree) (t : PTree) (j : Nat)
    (hshape : shapeF (P ++ t :: S)) (hdec : decF (P ++ t :: S))
    (hhash : hashF (P ++ t :: S)) (hj : j < 2 ^ t.ht) :
    MerkleProof.verify
        ⟨lenF (P ++ t :: S), t.leafPath j, P.map PTree.top ++ S.map PTree.top⟩
        (Hash.digest ((P ++ t :: S).map PTree.top)) (t.leafAt j)
        (lenF P + t.llp j)
      = some (.ok ()) := by
  have hts : t.shapeOk := hshape t (by simp)
  have hth : t.hashOk := hhash t (by simp)
  have hPs : shapeF P := fun u hu => hshape u (by simp [hu])
  have hc2 : (2:Nat) ≤ 2 ^ (t.ht + 1) := by
    have h1 : (2:Nat) ^ 1 ≤ 2 ^ (t.ht + 1) :=
      Nat.pow_le_pow_right (by omega) (by omega)
    simpa using h1
  have hfl : t.flat.length = 2 ^ (t.ht + 1) - 1 := PTree.flat_length hts
  have hlenF : lenF (P ++ t :: S) = lenF P + (2 ^ (t.ht + 1) - 1) + lenF S := by
    rw [lenF_append, lenF_cons, hfl]
    omega
  have hP : peak_map_height (lenF P) = (bitsF P, 0) :=
    @pmh_front P (t :: S) hshape hdec
  show MerkleProof.verifyGo (lenF (P ++ t :: S))
      (find_peaks (lenF (P ++ t :: S)))
      (P.map PTree.top ++ S.map PTree.top)
      (Hash.digest ((P ++ t :: S).map PTree.top))
      (t.leafPath j) (t.leafAt j) (lenF P + t.llp j) = _
  rw [← List.append_nil (t.leafPath j)]
  rw [verify_climb t hts hth (bitsF P) (lenF P) (lenF (P ++ t :: S))
    (find_peaks (lenF (P ++ t :: S)))
    (P.map PTree.top ++ S.map PTree.top)
    (Hash.digest ((P ++ t :: S).map PTree.top))
    (fun i hi => prefix_clear hdec i (by omega)) hP
    (by omega) j hj []]
  have epos : lenF P + (2 ^ (t.ht + 1) - 2) = lenF P + 2 ^ (t.ht + 1) - 2 := by
    omega
  rw [epos]
  simp only [MerkleProof.verifyGo]
  have hsplit : find_peaks (lenF (P ++ t :: S))
      = rootPosGo 0 P ++ ((lenF P + 2 ^ (t.ht + 1) - 2)
          :: rootPosGo (lenF P + 2 ^ (t.ht + 1) - 1) S) := by
    rw [find_peaks_forest hshape hdec]
    show rootPosGo 0 (P ++ t :: S) = _
    rw [rootPosGo_append P (t :: S) 0 hPs, Nat.zero_add]
    rfl
  rw [hsplit]
  have hlens : (rootPosGo 0 P
      ++ ((lenF P + 2 ^ (t.ht + 1) - 2)
        :: rootPosGo (lenF P + 2 ^ (t.ht + 1) - 1) S)).length
      = (P.map PTree.top ++ S.map PTree.top).length + 1 := by
    simp [rootPosGo_length]
    omega
  rw [if_neg (by omega)]
  have hchain := chainPeaks_split (rootPosGo 0 P) (P.map PTree.top)
    (rootPosGo (lenF P + 2 ^ (t.ht + 1) - 1) S) (S.map PTree.top)
    t.top (lenF P + 2 ^ (t.ht + 1) - 2)
    (by
      intro i hi
      have := rootPosGo_lt P 0 hPs i hi
      omega)
    (by simp [rootPosGo_length])
    (by
      intro i hi
      have := rootPosGo_ge S _ i hi
      omega)
    (by simp [rootPosGo_length])
  rw [hchain]
  have htoks : (P ++ t :: S).map PTree.top
      = P.map PTree.top ++ t.top :: S.map PTree.top := by
    simp
  show some (if Hash.digest ((P ++ t :: S).map PTree.top)
      = Hash.digest (P.map PTree.top ++ t.top :: S.map PTree.top)
      then (Except.ok () : Except GeneError Unit)
      else Except.error GeneError.rootMismatch) = some (Except.ok ())
  rw [← htoks, if_pos rfl]

/-- C1: for an MMR built by pushing the leaf hashes `hs` into an empty
vector-backed storage, every leaf proof produced by
`MerkleProof::for_leaf_node` verifies via `verify_leaf` against the MMR's
merkle root and the hash that was pushed as the `k`-th leaf. -/
theorem c1_proof_soundness (hs : List Hash) (M : MerkleMountainRange (List Hash))
    (k : Nat) (h : Hash) (p : MerkleProof) (root : Hash)
    (hbuild : MerkleMountainRange.pushAll (σ := List Hash) ⟨[]⟩ hs
      = some (.ok M))
    (hk : k < M.get_leaf_count)
    (hh : hs[k]? = some h)
    (hp : MerkleProof.for_leaf_node M k = .ok p)
    (hroot : M.get_merkle_root = some root) :
    p.verify_leaf root h k = some (.ok ()) := by
  have hM : M = ⟨flatF (builtF hs)⟩ := by
    have heq := hbuild.symm.trans (pushAll_built_nil hs)
    exact Except.ok.inj (Option.some.inj heq)
  subst hM
  obtain ⟨hFs, hFd, hFh, hFl⟩ := builtF_inv hs
  have hcount : MerkleMountainRange.get_leaf_count (σ := List Hash)
      ⟨flatF (builtF hs)⟩ = bitsF (builtF hs) := by
    show (if (peak_map_height (lenF (builtF hs))).2 = 0
        then (peak_map_height (lenF (builtF hs))).1
        else (peak_map_height (lenF (builtF hs))).1 + 1) = _
    rw [pmh_forest hFs hFd]
    simp
  have hk2 : k < (leavesF (builtF hs)).length := by
    rw [leavesF_length hFs]
    rw [hcount] at hk
    omega
  obtain ⟨P, t, S, j, hFeq, hj, hkeq, hgetk⟩ := leaf_decomp (builtF hs) hFs k hk2
  have hgeth : hs[k]? = some (t.leafAt j) := by
    rw [← hFl]
    exact hgetk
  have hhval : h = t.leafAt j := Option.some.inj (hh.symm.trans hgeth)
  have hli : leaf_index k = lenF P + t.llp j := by
    rw [hkeq]
    exact leaf_index_split P S t j (hFeq ▸ hFs) (hFeq ▸ hFd) hj
  have hgen := generate_proof_eq P S t j (hFeq ▸ hFs) (hFeq ▸ hFd) hj
  have hfor : MerkleProof.for_leaf_node (σ := List Hash)
      ⟨flatF (builtF hs)⟩ k
      = .ok ⟨lenF (P ++ t :: S), t.leafPath j,
          P.map PTree.top ++ S.map PTree.top⟩ := by
    show MerkleProof.generate_proof (σ := List Hash)
      ⟨flatF (builtF hs)⟩ (leaf_index k) = _
    rw [hli, hFeq]
    exact hgen
  have hpeq : p = ⟨lenF (P ++ t :: S), t.leafPath j,
      P.map PTree.top ++ S.map PTree.top⟩ :=
    Except.ok.inj (hp.symm.trans hfor)
  have hrootv : root = Hash.digest ((P ++ t :: S).map PTree.top) := by
    rw [hFeq] at hroot
    have h2 := get_merkle_root_forest (P ++ t :: S) (by simp)
      (hFeq ▸ hFs) (hFeq ▸ hFd)
    exact Option.some.inj (hroot.symm.trans h2)
  subst hpeq hhval hrootv
  show MerkleProof.verify
      ⟨lenF (P ++ t :: S), t.leafPath j, P.map PTree.top ++ S.map PTree.top⟩
      (Hash.digest ((P ++ t :: S).map PTree.top)) (t.leafAt j)
      (leaf_index k) = _
  rw [hli]
  exact verify_eq P S t j (hFeq ▸ hFs) (hFeq ▸ hFd) (hFeq ▸ hFh) hj

/-- Witness for C1 at a concrete three-leaf MMR: the proof for leaf 1
verifies. -/
theorem c1_proof_soundness_witness :
    MerkleProof.verify_leaf
      ⟨4, [Hash.base 0], [Hash.base 2]⟩
      (Hash.digest [Hash.digest [Hash.base 0, Hash.base 1], Hash.base 2])
      (Hash.base 1) 1 = some (.ok ()) := by
  apply c1_proof_soundness [Hash.base 0, Hash.base 1, Hash.base 2]
    ⟨[Hash.base 0, Hash.base 1,
      Hash.digest [Hash.base 0, Hash.base 1], Hash.base 2]⟩ 1
  · rfl
  · decide
  · rfl
  · rfl
  · rfl

theorem pruned_get_eq {s : PrunedHashSet} {L : List Hash}
    (htail : s.hashes = L.drop s.base_offset) (i : Nat)
    (hi : s.base_offset ≤ i) :
    PrunedHashSet.get s i = L[i]? := by
  show (if i < s.base_offset then _ else _) = _
  rw [if_neg (by omega)]
  rw [htail, List.getElem?_drop]
  congr 1
  omega

theorem pruned_get_low {s : PrunedHashSet} {X : List Hash} {p : Nat}
    (hp : p < s.base_offset) :
    PrunedHashSet.get { s with hashes := X } p = PrunedHashSet.get s p := by
  show (if p < s.base_offset then _ else _) = (if p < s.base_offset then _ else _)
  rw [if_pos hp, if_pos hp]

theorem pushLoopGo_sim_pruned : ∀ (G : List PTree) (fuel : Nat) (t : PTree)
    (pm : Nat) (s : PrunedHashSet),
    (∀ u ∈ G, u.shapeOk) → t.shapeOk →
    List.Pairwise (fun a b => a.ht < b.ht) G →
    (∀ u ∈ G, t.ht ≤ u.ht) →
    (∀ j, t.ht ≤ j → (pm.testBit j = true ↔ ∃ u ∈ G, u.ht = j)) →
    G.length < fuel →
    s.base_offset < (flatF G.reverse ++ t.flat).length →
    s.hashes = (flatF G.reverse ++ t.flat).drop s.base_offset →
    (∀ p ∈ rootPositions G.reverse, p < s.base_offset →
        PrunedHashSet.get s p = (flatF G.reverse ++ t.flat)[p]?) →
    MerkleMountainRange.pushLoopGo (σ := PrunedHashSet) pm fuel t.ht
        ((flatF G.reverse ++ t.flat).length - 1) s
      = some ({ s with hashes := (flatF (insertT t G).reverse).drop s.base_offset },
              (flatF (insertT t G).reverse).length - 1) := by
  intro G
  induction G with
  | nil =>
    intro fuel t pm s _ _ _ _ hbit hfuel hbase htail _
    rcases Nat.exists_eq_succ_of_ne_zero (by omega : fuel ≠ 0) with ⟨f, rfl⟩
    have hb : pm.testBit t.ht = false := by
      by_contra hcon
      rcases (hbit t.ht (le_refl _)).mp (by simpa using hcon) with ⟨u, hu, _⟩
      simp at hu
    show (if pm.testBit t.ht = true then _ else _) = _
    rw [if_neg (by simp [hb])]
    have hins : flatF (insertT t ([] : List PTree)).reverse = t.flat := by
      simp [insertT, flatF_singleton]
    have hLt : flatF (([] : List PTree).reverse) ++ t.flat = t.flat := by
      simp [flatF_nil]
    rw [hins, hLt]
    rw [hLt] at htail
    rw [← htail]
  | cons u G ih =>
    intro fuel t pm s hshape hts hinc hge hbit hfuel hbase htail hcov
    rcases Nat.exists_eq_succ_of_ne_zero (by omega : fuel ≠ 0) with ⟨f, rfl⟩
    have hGs : shapeF G.reverse := by
      intro v hv
      exact hshape v (by simp at hv; simp [hv])
    have hroots : rootPositions (u :: G).reverse
        = rootPositions G.reverse ++ [lenF G.reverse + 2 ^ (u.ht + 1) - 2] := by
      show rootPosGo 0 (u :: G).reverse = _
      rw [List.reverse_cons, rootPosGo_append G.reverse [u] 0 hGs, Nat.zero_add]
      rfl
    by_cases hcase : u.ht = t.ht
    · -- merge step
      have hb : pm.testBit t.ht = true :=
        (hbit t.ht (le_refl _)).mpr ⟨u, by simp, hcase⟩
      have hus : u.shapeOk := hshape u (by simp)
      have hul : u.flat.length = 2 ^ (t.ht + 1) - 1 := by
        rw [PTree.flat_length hus, hcase]
      have htl : t.flat.length = 2 ^ (t.ht + 1) - 1 := PTree.flat_length hts
      have h2 : (1:Nat) ≤ 2 ^ (t.ht + 1) := Nat.one_le_two_pow
      set A := flatF G.reverse with hA
      have hst : flatF (u :: G).reverse ++ t.flat = A ++ (u.flat ++ t.flat) := by
        rw [flatF_reverse_cons, List.append_assoc]
      have hlen : (flatF (u :: G).reverse ++ t.flat).length
          = A.length + u.flat.length + t.flat.length := by
        rw [hst]; simp; omega
      show (if pm.testBit t.ht = true then _ else _) = _
      rw [if_pos (by simp [hb])]
      have hidx : (flatF (u :: G).reverse ++ t.flat).length - 1 + 1 - 2 * 2 ^ t.ht
          = A.length + (u.flat.length - 1) := by
        have h3 : (2:Nat) ^ (t.ht + 1) = 2 * 2 ^ t.ht := by ring
        omega
      have hlread : (flatF (u :: G).reverse ++ t.flat)[A.length
          + (u.flat.length - 1)]? = some u.top := by
        rw [hst]
        rw [List.getElem?_append_right (by omega)]
        have h4 : A.length + (u.flat.length - 1) - A.length = u.flat.length - 1 := by
          omega
        rw [h4, List.getElem?_append_left (by omega)]
        exact PTree.flat_getLast u
      have hread1 : Storage.get_or_panic (σ := PrunedHashSet) s
          ((flatF (u :: G).reverse ++ t.flat).length - 1 + 1 - 2 * 2 ^ t.ht)
          = some u.top := by
        show PrunedHashSet.get s _ = _
        rw [hidx]
        by_cases hlow : A.length + (u.flat.length - 1) < s.base_offset
        · have hmem : A.length + (u.flat.length - 1)
              ∈ rootPositions (u :: G).reverse := by
            rw [hroots]
            apply List.mem_append_right
            have he : lenF G.reverse + 2 ^ (u.ht + 1) - 2
                = A.length + (u.flat.length - 1) := by
              show (flatF G.reverse).length + 2 ^ (u.ht + 1) - 2 = _
              rw [hcase, ← hA]
              omega
            rw [← he]
            simp
          rw [hcov _ hmem hlow]
          exact hlread
        · rw [pruned_get_eq htail _ (by omega)]
          exact hlread
      rw [hread1]
      have hread2 : Storage.get_or_panic (σ := PrunedHashSet) s
          (Storage.len (σ := PrunedHashSet) s - 1) = some t.top := by
        have hslen : Storage.len (σ := PrunedHashSet) s
            = (flatF (u :: G).reverse ++ t.flat).length := by
          show s.base_offset + s.hashes.length = _
          rw [htail, List.length_drop]
          omega
        show PrunedHashSet.get s _ = _
        rw [hslen]
        rw [pruned_get_eq htail _ (by omega)]
        have hidx2 : (flatF (u :: G).reverse ++ t.flat).length - 1
            = (A ++ u.flat).length + (t.flat.length - 1) := by
          rw [hlen]
          simp
          omega
        rw [hidx2]
        have h5 : flatF (u :: G).reverse ++ t.flat = (A ++ u.flat) ++ t.flat := by
          rw [hst, List.append_assoc]
        rw [h5]
        rw [List.getElem?_append_right (by omega)]
        have h8 : (A ++ u.flat).length + (t.flat.length - 1)
            - (A ++ u.flat).length = t.flat.length - 1 := by omega
        rw [h8]
        exact PTree.flat_getLast t
      rw [hread2]
      show MerkleMountainRange.pushLoopGo pm f (t.ht + 1)
          ((flatF (u :: G).reverse ++ t.flat).length - 1 + 1)
          { s with hashes := s.hashes ++ [Hash.hash_with u.top t.top] } = _
      have ht2ht : (PTree.node (Hash.hash_with u.top t.top) u t).ht = t.ht + 1 := by
        show u.ht + 1 = t.ht + 1
        omega
      have ht2fl : (PTree.node (Hash.hash_with u.top t.top) u t).flat
          = u.flat ++ (t.flat ++ [Hash.hash_with u.top t.top]) := by
        simp [PTree.flat]
      have ht2len : (PTree.node (Hash.hash_with u.top t.top) u t).flat.length
          = u.flat.length + t.flat.length + 1 := by
        rw [ht2fl]; simp; omega
      have hstep : (flatF (u :: G).reverse ++ t.flat) ++ [Hash.hash_with u.top t.top]
          = flatF G.reverse ++ (PTree.node (Hash.hash_with u.top t.top) u t).flat := by
        rw [hst, ht2fl, hA]
        simp
      have hposlen : (flatF (u :: G).reverse ++ t.flat).length - 1 + 1
          = (flatF G.reverse
              ++ (PTree.node (Hash.hash_with u.top t.top) u t).flat).length - 1 := by
        have h10 : (flatF G.reverse
            ++ (PTree.node (Hash.hash_with u.top t.top) u t).flat).length
            = A.length + (u.flat.length + t.flat.length + 1) := by
          rw [← hA]
          simp [ht2len]
        omega
      have htail2 : ({ s with hashes := s.hashes
            ++ [Hash.hash_with u.top t.top] } : PrunedHashSet).hashes
          = (flatF G.reverse
              ++ (PTree.node (Hash.hash_with u.top t.top) u t).flat).drop
            s.base_offset := by
        show s.hashes ++ [Hash.hash_with u.top t.top] = _
        have hda : ((flatF (u :: G).reverse ++ t.flat)
              ++ [Hash.hash_with u.top t.top]).drop s.base_offset
            = (flatF (u :: G).reverse ++ t.flat).drop s.base_offset
              ++ [Hash.hash_with u.top t.top] :=
          List.drop_append_of_le_length (by omega)
        rw [← hstep, hda, htail]
      have hcov2 : ∀ p ∈ rootPositions G.reverse,
          p < ({ s with hashes := s.hashes
              ++ [Hash.hash_with u.top t.top] } : PrunedHashSet).base_offset →
          PrunedHashSet.get { s with hashes := s.hashes
              ++ [Hash.hash_with u.top t.top] } p
            = (flatF G.reverse
                ++ (PTree.node (Hash.hash_with u.top t.top) u t).flat)[p]? := by
        intro p hp hplow
        have hplow2 : p < s.base_offset := hplow
        rw [pruned_get_low hplow2]
        rw [hcov p (by rw [hroots]; exact List.mem_append_left _ hp) hplow2]
        have hgl : ((flatF (u :: G).reverse ++ t.flat)
              ++ [Hash.hash_with u.top t.top])[p]?
            = (flatF (u :: G).reverse ++ t.flat)[p]? :=
          List.getElem?_append_left (by omega)
        rw [← hstep, hgl]
      have hins : insertT t (u :: G)
          = insertT (PTree.node (Hash.hash_with u.top t.top) u t) G := by
        show (if u.ht = t.ht then _ else _) = _
        rw [if_pos hcase]
        rfl
      rw [hins, hposlen]
      have ih2 := ih f (PTree.node (Hash.hash_with u.top t.top) u t) pm
        { s with hashes := s.hashes ++ [Hash.hash_with u.top t.top] }
        (fun v hv => hshape v (by simp [hv]))
        (by exact ⟨hcase, hus, hts⟩)
        ((List.pairwise_cons.mp hinc).2)
        (by
          intro v hv
          have h11 := (List.pairwise_cons.mp hinc).1 v hv
          rw [ht2ht]
          omega)
        (by
          intro j hj
          rw [ht2ht] at hj
          rw [hbit j (by omega)]
          constructor
          · rintro ⟨v, hv, rfl⟩
            rcases List.mem_cons.mp hv with rfl | hv2
            · omega
            · exact ⟨v, hv2, rfl⟩
          · rintro ⟨v, hv, rfl⟩
            exact ⟨v, by simp [hv], rfl⟩)
        (by simp at hfuel ⊢; omega)
        (by
          show s.base_offset
            < (A ++ (PTree.node (Hash.hash_with u.top t.top) u t).flat).length
          have h10 : (A
              ++ (PTree.node (Hash.hash_with u.top t.top) u t).flat).length
              = A.length + (u.flat.length + t.flat.length + 1) := by
            rw [List.length_append, ht2len]
          omega)
        htail2 hcov2
      rw [ht2ht] at ih2
      exact ih2
    · -- no merge: t slots in front
      have hb : pm.testBit t.ht = false := by
        by_contra hcon
        rcases (hbit t.ht (le_refl _)).mp (by simpa using hcon) with ⟨v, hv, hveq⟩
        rcases List.mem_cons.mp hv with rfl | hv2
        · exact hcase hveq
        · have h1 := (List.pairwise_cons.mp hinc).1 v hv2
          have h2 := hge u (by simp)
          omega
      show (if pm.testBit t.ht = true then _ else _) = _
      rw [if_neg (by simp [hb])]
      have hins : insertT t (u :: G) = t :: u :: G := by
        show (if u.ht = t.ht then _ else _) = _
        rw [if_neg hcase]
      rw [hins, flatF_reverse_cons, flatF_reverse_cons]
      have hLeq : flatF (u :: G).reverse ++ t.flat
          = flatF G.reverse ++ u.flat ++ t.flat := by
        rw [flatF_reverse_cons]
      rw [← hLeq, ← htail]

theorem push_sim_pruned : ∀ (F : List PTree) (h : Hash) (s : PrunedHashSet),
    shapeF F → decF F →
    s.base_offset ≤ lenF F →
    s.hashes = (flatF F).drop s.base_offset →
    (∀ p ∈ rootPositions F, p < s.base_offset →
        PrunedHashSet.get s p = (flatF F)[p]?) →
    MerkleMountainRange.push (σ := PrunedHashSet) ⟨s⟩ h
      = some (.ok (⟨{ s with
          hashes := (flatF (pushF F h)).drop s.base_offset }⟩,
          (flatF (pushF F h)).length - 1)) := by
  intro F h s hshape hdec hbase htail hcov
  obtain ⟨b, pis, phs, hsh⟩ := s
  have hslen : Storage.len (σ := PrunedHashSet) ⟨b, pis, phs, hsh⟩ = lenF F := by
    show b + hsh.length = (flatF F).length
    have : hsh = (flatF F).drop b := htail
    rw [this, List.length_drop]
    have : b ≤ (flatF F).length := hbase
    omega
  cases F with
  | nil =>
    have hb0 : b = 0 := by
      have : b ≤ lenF ([] : List PTree) := hbase
      simpa [lenF_nil] using this
    have hsh0 : hsh = [] := by
      have : hsh = (flatF ([] : List PTree)).drop b := htail
      simpa [flatF_nil] using this
    subst hb0 hsh0
    rfl
  | cons u F' =>
    have hne : lenF (u :: F') ≠ 0 := by
      intro h0
      exact absurd (lenF_eq_zero h0) (by simp)
    have hpm := pmh_forest hshape hdec
    show (if Storage.len (σ := PrunedHashSet) ⟨b, pis, phs, hsh⟩ = 0
        then _ else _) = _
    rw [if_neg (by rw [hslen]; exact hne)]
    have hl : MerkleMountainRange.len (σ := PrunedHashSet)
        ⟨⟨b, pis, phs, hsh⟩⟩ = lenF (u :: F') := hslen
    have hp : (Storage.push (σ := PrunedHashSet) ⟨b, pis, phs, hsh⟩ h).1
        = (⟨b, pis, phs, hsh ++ [h]⟩ : PrunedHashSet) := rfl
    simp only [hl, hpm, hp]
    rw [if_neg (by simp)]
    have hbase2 : b ≤ (flatF (u :: F')).length := hbase
    have htail2 : hsh = (flatF (u :: F')).drop b := htail
    have hsim := pushLoopGo_sim_pruned (u :: F').reverse (bitsF (u :: F') + 1)
      (PTree.leaf h) (bitsF (u :: F')) ⟨b, pis, phs, hsh ++ [h]⟩
      (by
        intro v hv
        exact hshape v (List.mem_reverse.mp hv))
      trivial
      (List.pairwise_reverse.mpr hdec)
      (by
        intro v _
        exact Nat.zero_le _)
      (by
        intro j _
        simp only [List.mem_reverse]
        exact bitsF_testBit _ hdec j)
      (by
        simp only [List.length_reverse]
        have := length_le_bitsF (u :: F')
        omega)
      (by
        show b < _
        rw [List.reverse_reverse]
        show b < ((flatF (u :: F') ++ [h])).length
        simp
        omega)
      (by
        show hsh ++ [h] = _
        rw [List.reverse_reverse]
        show hsh ++ [h] = (flatF (u :: F') ++ [h]).drop b
        have hda : (flatF (u :: F') ++ [h]).drop b
            = (flatF (u :: F')).drop b ++ [h] :=
          List.drop_append_of_le_length hbase2
        rw [hda, ← htail2])
      (by
        intro p hp hplow
        rw [List.reverse_reverse] at hp
        have hplow2 : p < b := hplow
        show PrunedHashSet.get ⟨b, pis, phs, hsh ++ [h]⟩ p
          = (flatF (u :: F').reverse.reverse ++ [h])[p]?
        rw [List.reverse_reverse]
        have hgl : (flatF (u :: F') ++ [h])[p]? = (flatF (u :: F'))[p]? :=
          List.getElem?_append_left (by omega)
        rw [hgl]
        have hlow : PrunedHashSet.get
            (⟨b, pis, phs, hsh ++ [h]⟩ : PrunedHashSet) p
            = PrunedHashSet.get (⟨b, pis, phs, hsh⟩ : PrunedHashSet) p := by
          show (if p < b then _ else _) = (if p < b then _ else _)
          rw [if_pos hplow2, if_pos hplow2]
        rw [hlow]
        exact hcov p hp hplow2)
    rw [List.reverse_reverse] at hsim
    simp only [PTree.ht, PTree.flat] at hsim
    have hpos : (flatF (u :: F') ++ [h]).length - 1 = lenF (u :: F') := by
      simp [lenF]
    rw [hpos] at hsim
    rw [hsim]
    rfl

theorem findIdx_strict_mono : ∀ (l : List Nat), l.Pairwise (· < ·) →
    ∀ (i p : Nat), l[i]? = some p → l.findIdx? (· = p) = some i := by
  intro l
  induction l with
  | nil =>
    intro _ i p hi
    simp at hi
  | cons a l ih =>
    intro hpw i p hi
    obtain ⟨hlt, hpw2⟩ := List.pairwise_cons.mp hpw
    cases i with
    | zero =>
      have ha : a = p := by simpa using hi
      rw [List.findIdx?_cons]
      simp [ha]
    | succ n =>
      have hn : l[n]? = some p := by simpa using hi
      have hmem : p ∈ l := List.getElem?_mem hn
      have hap : a ≠ p := by
        have := hlt p hmem
        omega
      rw [List.findIdx?_cons]
      rw [if_neg (by simp [hap])]
      rw [List.findIdx?_succ, ih hpw2 n p hn]
      rfl

theorem mapM_some_nth {α β : Type} (f : α → Option β) :
    ∀ (l : List α) (r : List β), l.mapM f = some r →
    ∀ (i : Nat) (p : α), l[i]? = some p → f p = r[i]? := by
  intro l
  induction l with
  | nil =>
    intro r _ i p hi
    simp at hi
  | cons a l ih =>
    intro r hr i p hi
    rw [List.mapM_cons] at hr
    cases hfa : f a with
    | none => rw [hfa] at hr; simp at hr
    | some b =>
      rw [hfa] at hr
      cases hl : l.mapM f with
      | none => rw [hl] at hr; simp at hr
      | some bs =>
        rw [hl] at hr
        simp at hr
        cases i with
        | zero =>
          have ha : a = p := by simpa using hi
          rw [← hr, ← ha, hfa]
          simp
        | succ n =>
          have hn : l[n]? = some p := by simpa using hi
          rw [← hr]
          have := ih bs hl n p hn
          simpa using this

theorem pushF_cover (F : List PTree) (h : Hash) (s : PrunedHashSet)
    (X : List Hash) (hshape : shapeF F) (hdec : decF F)
    (hbase : s.base_offset ≤ lenF F)
    (hcov : ∀ p ∈ rootPositions F, p < s.base_offset →
        PrunedHashSet.get s p = (flatF F)[p]?) :
    ∀ p ∈ rootPositions (pushF F h), p < s.base_offset →
      PrunedHashSet.get { s with hashes := X } p = (flatF (pushF F h))[p]? := by
  obtain ⟨T, G2, hins, hsuf, -, hTs, -, -⟩ :=
    insertT_spec F.reverse (PTree.leaf h)
      (fun v hv => hshape v (List.mem_reverse.mp hv))
      trivial
      (List.pairwise_reverse.mpr hdec)
      (fun v _ => Nat.zero_le _)
  have hpf : pushF F h = G2.reverse ++ [T] := by
    show (insertT (PTree.leaf h) F.reverse).reverse = _
    rw [hins, List.reverse_cons]
  obtain ⟨pre, hpre⟩ := hsuf
  have hFdec : F = G2.reverse ++ pre.reverse := by
    have h1 : F.reverse.reverse = (pre ++ G2).reverse := by rw [hpre]
    rw [List.reverse_reverse, List.reverse_append] at h1
    exact h1
  have hQs : shapeF G2.reverse := by
    intro v hv
    apply hshape
    rw [hFdec]
    exact List.mem_append_left _ hv
  have hTl : T.flat.length = 2 ^ (T.ht + 1) - 1 := PTree.flat_length hTs
  have hlenpush : lenF (pushF F h) = lenF G2.reverse + T.flat.length := by
    rw [hpf, lenF_append]
    simp [lenF, flatF_singleton]
  have hge := pushF_len_ge F h
  have hroots : rootPositions (pushF F h)
      = rootPosGo 0 G2.reverse
        ++ [lenF G2.reverse + 2 ^ (T.ht + 1) - 2] := by
    show rootPosGo 0 (pushF F h) = _
    rw [hpf, rootPosGo_append G2.reverse [T] 0 hQs, Nat.zero_add]
    rfl
  intro p hp hplow
  rw [hroots] at hp
  rcases List.mem_append.mp hp with hpQ | hpT
  · have hpltQ : p < lenF G2.reverse := by
      have := rootPosGo_lt G2.reverse 0 hQs p hpQ
      omega
    have hpF : p ∈ rootPositions F := by
      rw [hFdec]
      show p ∈ rootPosGo 0 (G2.reverse ++ pre.reverse)
      rw [rootPosGo_append G2.reverse pre.reverse 0 hQs]
      exact List.mem_append_left _ hpQ
    rw [pruned_get_low hplow]
    rw [hcov p hpF hplow]
    have hflF : flatF F = flatF G2.reverse ++ flatF pre.reverse := by
      rw [hFdec, flatF_append]
    have hflP : flatF (pushF F h) = flatF G2.reverse ++ T.flat := by
      rw [hpf, flatF_append, flatF_singleton]
    rw [hflF, hflP]
    rw [List.getElem?_append_left (by
        show p < (flatF G2.reverse).length
        exact hpltQ),
      List.getElem?_append_left (by
        show p < (flatF G2.reverse).length
        exact hpltQ)]
  · have hpv : p = lenF G2.reverse + 2 ^ (T.ht + 1) - 2 := by
      simpa using hpT
    have h2 : (2:Nat) ≤ 2 ^ (T.ht + 1) := by
      have h1 : (2:Nat) ^ 1 ≤ 2 ^ (T.ht + 1) :=
        Nat.pow_le_pow_right (by omega) (by omega)
      simpa using h1
    omega

theorem lenF_foldl_ge : ∀ (hs : List Hash) (F : List PTree),
    lenF F ≤ lenF (hs.foldl pushF F) := by
  intro hs
  induction hs with
  | nil =>
    intro F
    exact le_refl _
  | cons h hs ih =>
    intro F
    rw [List.foldl_cons]
    have h1 := pushF_len_ge F h
    have h2 := ih (pushF F h)
    omega

theorem foldl_pushF_cover : ∀ (hs : List Hash) (F : List PTree)
    (s : PrunedHashSet), shapeF F → decF F → s.base_offset ≤ lenF F →
    (∀ p ∈ rootPositions F, p < s.base_offset →
        PrunedHashSet.get s p = (flatF F)[p]?) →
    ∀ p ∈ rootPositions (hs.foldl pushF F), p < s.base_offset →
      PrunedHashSet.get s p = (flatF (hs.foldl pushF F))[p]? := by
  intro hs
  induction hs with
  | nil =>
    intro F s _ _ _ hcov p hp hplow
    exact hcov p hp hplow
  | cons h hs ih =>
    intro F s hshape hdec hbase hcov p hp hplow
    rw [List.foldl_cons] at hp ⊢
    obtain ⟨h1, h2, -⟩ := pushF_inv (h := h) hshape hdec
    have hcov2 : ∀ q ∈ rootPositions (pushF F h), q < s.base_offset →
        PrunedHashSet.get s q = (flatF (pushF F h))[q]? := by
      intro q hq hqlow
      have := pushF_cover F h s s.hashes hshape hdec hbase hcov q hq hqlow
      exact this
    exact ih (pushF F h) s h1 h2
      (le_trans hbase (by have := pushF_len_ge F h; omega)) hcov2 p hp hplow

theorem pushAll_sim_pruned : ∀ (hs : List Hash) (F : List PTree)
    (s : PrunedHashSet), shapeF F → decF F →
    s.base_offset ≤ lenF F →
    s.hashes = (flatF F).drop s.base_offset →
    (∀ p ∈ rootPositions F, p < s.base_offset →
        PrunedHashSet.get s p = (flatF F)[p]?) →
    MerkleMountainRange.pushAll (σ := PrunedHashSet) ⟨s⟩ hs
      = some (.ok ⟨{ s with
          hashes := (flatF (hs.foldl pushF F)).drop s.base_offset }⟩) := by
  intro hs
  induction hs with
  | nil =>
    intro F s _ _ _ htail _
    simp only [List.foldl_nil]
    show (some (Except.ok (⟨s⟩ : MerkleMountainRange PrunedHashSet))
        : Option (Except GeneError (MerkleMountainRange PrunedHashSet))) = _
    rw [← htail]
  | cons h hs ih =>
    intro F s hshape hdec hbase htail hcov
    simp only [MerkleMountainRange.pushAll]
    rw [push_sim_pruned F h s hshape hdec hbase htail hcov]
    obtain ⟨h1, h2, -⟩ := pushF_inv (h := h) hshape hdec
    have hbase2 : s.base_offset ≤ lenF (pushF F h) := by
      have := pushF_len_ge F h
      omega
    have hcov2 : ∀ q ∈ rootPositions (pushF F h), q < s.base_offset →
        PrunedHashSet.get { s with
            hashes := (flatF (pushF F h)).drop s.base_offset } q
          = (flatF (pushF F h))[q]? := by
      intro q hq hqlow
      exact pushF_cover F h s _ hshape hdec hbase hcov q hq hqlow
    have ih2 := ih (pushF F h)
      { s with hashes := (flatF (pushF F h)).drop s.base_offset }
      h1 h2 hbase2 rfl hcov2
    rw [List.foldl_cons]
    exact ih2

theorem get_merkle_root_pruned (F : List PTree) (s : PrunedHashSet)
    (hshape : shapeF F) (hdec : decF F)
    (hbase : s.base_offset ≤ lenF F)
    (htail : s.hashes = (flatF F).drop s.base_offset)
    (hcov : ∀ p ∈ rootPositions F, p < s.base_offset →
        PrunedHashSet.get s p = (flatF F)[p]?) :
    MerkleMountainRange.get_merkle_root (σ := PrunedHashSet) ⟨s⟩
      = MerkleMountainRange.get_merkle_root (σ := List Hash) ⟨flatF F⟩ := by
  have hslen : Storage.len (σ := PrunedHashSet) s = lenF F := by
    show s.base_offset + s.hashes.length = (flatF F).length
    rw [htail, List.length_drop]
    have : s.base_offset ≤ (flatF F).length := hbase
    omega
  have hlen1 : MerkleMountainRange.len (σ := PrunedHashSet) ⟨s⟩ = lenF F :=
    hslen
  have hlen2 : MerkleMountainRange.len (σ := List Hash) ⟨flatF F⟩ = lenF F :=
    rfl
  by_cases hz : lenF F = 0
  · show (if MerkleMountainRange.len (σ := PrunedHashSet) ⟨s⟩ = 0
        then _ else _) = (if lenF F = 0 then _ else _)
    rw [hlen1, if_pos hz, if_pos hz]
  · show (if MerkleMountainRange.len (σ := PrunedHashSet) ⟨s⟩ = 0
        then some Hash.zero
        else (MerkleMountainRange.hash_to_root (σ := PrunedHashSet) ⟨s⟩).map
          Hash.digest)
      = (if lenF F = 0 then some Hash.zero
        else (MerkleMountainRange.hash_to_root (σ := List Hash)
          ⟨flatF F⟩).map Hash.digest)
    rw [hlen1, if_neg hz, if_neg hz]
    have hh : MerkleMountainRange.hash_to_root (σ := PrunedHashSet) ⟨s⟩
        = MerkleMountainRange.hash_to_root (σ := List Hash) ⟨flatF F⟩ := by
      show (find_peaks (MerkleMountainRange.len (σ := PrunedHashSet) ⟨s⟩)).mapM
          (fun i => PrunedHashSet.get s i)
        = (find_peaks (lenF F)).mapM
          (fun i => Storage.get_or_panic (σ := List Hash) (flatF F) i)
      rw [hlen1]
      apply mapM_option_congr
      intro p hp
      rw [find_peaks_forest hshape hdec] at hp
      rw [vec_gop]
      by_cases hplow : p < s.base_offset
      · exact hcov p hp hplow
      · exact pruned_get_eq htail p (by omega)
    rw [hh]

theorem prune_mmr_eq (F : List PTree) (hshape : shapeF F) (hdec : decF F) :
    prune_mmr (σ := List Hash) ⟨flatF F⟩
      = .ok ⟨⟨lenF F, find_peaks (lenF F), F.map PTree.top, []⟩⟩ := by
  have hget : ∀ i, MerkleMountainRange.get_node_hash (σ := List Hash)
      ⟨flatF F⟩ i = (flatF F)[i]? := fun i => rfl
  have hlen : MerkleMountainRange.len (σ := List Hash) ⟨flatF F⟩
      = lenF F := rfl
  have hm : (find_peaks (lenF F)).mapM
      (fun i => MerkleMountainRange.get_node_hash (σ := List Hash)
        ⟨flatF F⟩ i) = some (F.map PTree.top) := by
    rw [mapM_option_congr _ _ _ (fun i _ => hget i)]
    exact find_peaks_mapM_read F hshape hdec
  simp only [prune_mmr, PrunedHashSet.fromMmr, hlen]
  rw [hm]
  rfl

theorem prune_cover (F : List PTree) (hshape : shapeF F) (hdec : decF F) :
    ∀ p ∈ rootPositions F, p < lenF F →
      PrunedHashSet.get
        ⟨lenF F, find_peaks (lenF F), F.map PTree.top, []⟩ p
        = (flatF F)[p]? := by
  intro p hp hplow
  obtain ⟨i, hilen, hival⟩ := List.getElem_of_mem hp
  have hi : (rootPositions F)[i]? = some p := by
    rw [List.getElem?_eq_getElem hilen, hival]
  have hfind : (rootPositions F).findIdx? (· = p) = some i :=
    findIdx_strict_mono (rootPositions F) (rootPosGo_pairwise F 0) i p hi
  show (if p < lenF F then _ else _) = _
  rw [if_pos hplow]
  show (match (find_peaks (lenF F)).findIdx? (· = p) with
    | some n => (F.map PTree.top)[n]?
    | none => none) = _
  rw [find_peaks_forest hshape hdec, hfind]
  show (F.map PTree.top)[i]? = _
  exact (mapM_some_nth _ (find_peaks (lenF F)) (F.map PTree.top)
    (find_peaks_mapM_read F hshape hdec) i p
    (by rw [find_peaks_forest hshape hdec]; exact hi)).symm

/-- C2: after pruning an MMR built from `hs` (snapshotting only its peaks
into a `PrunedHashSet`), pushing any further hashes `h :: more` yields an
MMR whose merkle root equals that of the unpruned MMR after the identical
pushes. -/
theorem c2_pruned_equivalence (hs more : List Hash) (h : Hash)
    (M : MerkleMountainRange (List Hash))
    (hbuild : MerkleMountainRange.pushAll (σ := List Hash) ⟨[]⟩ hs
      = some (.ok M))
    (Mp : MerkleMountainRange PrunedHashSet)
    (hprune : prune_mmr M = .ok Mp) :
    ∃ (Mp2 : MerkleMountainRange PrunedHashSet)
      (Mf2 : MerkleMountainRange (List Hash)),
      Mp.pushAll (h :: more) = some (.ok Mp2) ∧
      M.pushAll (h :: more) = some (.ok Mf2) ∧
      Mp2.get_merkle_root = Mf2.get_merkle_root := by
  have hM : M = ⟨flatF (builtF hs)⟩ := by
    have heq := hbuild.symm.trans (pushAll_built_nil hs)
    exact Except.ok.inj (Option.some.inj heq)
  subst hM
  obtain ⟨hFs, hFd, -, -⟩ := builtF_inv hs
  have hMp : Mp = ⟨⟨lenF (builtF hs), find_peaks (lenF (builtF hs)),
      (builtF hs).map PTree.top, []⟩⟩ := by
    have heq := hprune.symm.trans (prune_mmr_eq (builtF hs) hFs hFd)
    exact Except.ok.inj heq
  subst hMp
  have hbase : (lenF (builtF hs)) ≤ lenF (builtF hs) := le_refl _
  have htail : ([] : List Hash) = (flatF (builtF hs)).drop (lenF (builtF hs)) :=
    (List.drop_length _).symm
  have hcov := prune_cover (builtF hs) hFs hFd
  obtain ⟨hF2s, hF2d, -, -⟩ := foldl_pushF_inv (h :: more) (builtF hs) hFs hFd
    (fun u hu => (builtF_inv hs).2.2.1 u hu)
  refine ⟨⟨{ (⟨lenF (builtF hs), find_peaks (lenF (builtF hs)),
      (builtF hs).map PTree.top, []⟩ : PrunedHashSet) with
      hashes := (flatF ((h :: more).foldl pushF (builtF hs))).drop
        (lenF (builtF hs)) }⟩,
    ⟨flatF ((h :: more).foldl pushF (builtF hs))⟩, ?_, ?_, ?_⟩
  · exact pushAll_sim_pruned (h :: more) (builtF hs) _ hFs hFd hbase htail hcov
  · exact pushAll_built (h :: more) (builtF hs) hFs hFd
  · apply get_merkle_root_pruned ((h :: more).foldl pushF (builtF hs)) _
      hF2s hF2d
    · exact lenF_foldl_ge (h :: more) (builtF hs)
    · rfl
    · intro p hp hplow
      have hplow2 : p < lenF (builtF hs) := hplow
      rw [pruned_get_low hplow2]
      exact foldl_pushF_cover (h :: more) (builtF hs) _ hFs hFd hbase hcov
        p hp hplow2

/-- Witness for C2 at a one-leaf MMR: pruning and pushing one more hash
yields the same root as pushing on the full MMR. -/
theorem c2_pruned_equivalence_witness :
    ∃ (Mp2 : MerkleMountainRange PrunedHashSet)
      (Mf2 : MerkleMountainRange (List Hash)),
      MerkleMountainRange.pushAll
        (⟨⟨1, [0], [Hash.base 0], []⟩⟩ : MerkleMountainRange PrunedHashSet)
        [Hash.base 1] = some (.ok Mp2) ∧
      MerkleMountainRange.pushAll
        (⟨[Hash.base 0]⟩ : MerkleMountainRange (List Hash))
        [Hash.base 1] = some (.ok Mf2) ∧
      Mp2.get_merkle_root = Mf2.get_merkle_root :=
  c2_pruned_equivalence [Hash.base 0] [] (Hash.base 1)
    ⟨[Hash.base 0]⟩ rfl ⟨⟨1, [0], [Hash.base 0], []⟩⟩ rfl

/-- C3: pushing a hash into the empty vector-backed MMR returns 0 even
though the MMR then holds one node: `push` returns the index of the last
node written, not the new total node count. -/
theorem c3_push_return_value :
    MerkleMountainRange.push (σ := List Hash) ⟨[]⟩ (Hash.base 7)
      = some (.ok (⟨[Hash.base 7]⟩, 0))
    ∧ MerkleMountainRange.len (σ := List Hash) ⟨[Hash.base 7]⟩ = 1 :=
  ⟨rfl, rfl⟩

/-- C8: `MerkleProof::verify` on an adversarial proof with an empty peak
list panics (the model returns `none`): `check_root` unwraps an exhausted
peak iterator instead of returning an error. -/
theorem c8_verify_unwrap_panic :
    MerkleProof.verify ⟨1, [], []⟩ Hash.zero (Hash.base 0) 5 = none := rfl

/-- C10: when the inner `MerkleMountainRange::push` fails (here with
`CorruptDataStructure` on a 2-node storage), `MutableMmr::push` discards the
error and still returns `Ok(size)` with the size unchanged. -/
theorem c10_push_swallows_error :
    MerkleMountainRange.push (σ := List Hash) ⟨[Hash.base 0, Hash.base 1]⟩
        (Hash.base 2) = some (.error .corruptDataStructure)
    ∧ MutableMmr.push
        (⟨⟨[Hash.base 0, Hash.base 1]⟩, [], 2⟩ : MutableMmr (List Hash))
        (Hash.base 2)
      = some (⟨⟨[Hash.base 0, Hash.base 1]⟩, [], 2⟩, .ok 2) :=
  ⟨rfl, rfl⟩

/-- When `steps_back` exceeds the checkpoint count, the `usize` subtraction
`checkpoint_count()? - steps_back` in the source underflows: the model
returns `none`. -/
theorem rewind_underflow_none (t : MerkleChangeTracker) (k : Nat)
    (h : t.checkpoint_count < k) : t.rewind k = none := by
  simp only [MerkleChangeTracker.rewind]
  rw [if_neg (by omega)]

/-- Counterexample to C5 as stated: with a pre-populated checkpoint log of
three entries and `max_history_len = 1`, `commit` returns `Ok` yet leaves
three checkpoints — only `hist_commit_count = 1` oldest entries are
promoted, which does not bring the log under the bound. -/
theorem c5_history_bound_counterexample :
    MerkleChangeTracker.new (MutableMmr.new []) [⟨[], []⟩, ⟨[], []⟩, ⟨[], []⟩]
        ⟨1, 1⟩
      = .ok ⟨⟨⟨[]⟩, [], 0⟩, ⟨⟨⟨0, [], [], []⟩⟩, [], 0⟩,
          [⟨[], []⟩, ⟨[], []⟩, ⟨[], []⟩], [], [], ⟨1, 1⟩, 1⟩
    ∧ MerkleChangeTracker.commit
        ⟨⟨⟨[]⟩, [], 0⟩, ⟨⟨⟨0, [], [], []⟩⟩, [], 0⟩,
          [⟨[], []⟩, ⟨[], []⟩, ⟨[], []⟩], [], [], ⟨1, 1⟩, 1⟩
      = some (⟨⟨⟨[]⟩, [], 0⟩, ⟨⟨⟨0, [], [], []⟩⟩, [], 0⟩,
          [⟨[], []⟩, ⟨[], []⟩, ⟨[], []⟩], [], [], ⟨1, 1⟩, 1⟩, .ok ())
    ∧ ¬ (MerkleChangeTracker.checkpoint_count
          ⟨⟨⟨[]⟩, [], 0⟩, ⟨⟨⟨0, [], [], []⟩⟩, [], 0⟩,
            [⟨[], []⟩, ⟨[], []⟩, ⟨[], []⟩], [], [], ⟨1, 1⟩, 1⟩ ≤ 1) :=
  ⟨rfl, rfl, by decide⟩

/-- C5 (amended): when the history bound held before the commit and the
stored promotion width is the one `new` sets, a successful `commit` keeps
`checkpoint_count ≤ max_history_len`, and a commit that overflows the bound
drops exactly the oldest `hist_commit_count` checkpoints from the log after
applying them to the base MMR (the new base is the result of that
application). -/
theorem c5_history_bound_amended (t0 t1 : MerkleChangeTracker)
    (hcfg : t0.config.min_history_len ≤ t0.config.max_history_len)
    (hhcc : t0.hist_commit_count
      = t0.config.max_history_len - t0.config.min_history_len + 1)
    (hbound : t0.checkpoint_count ≤ t0.config.max_history_len)
    (hcommit : t0.commit = some (t1, .ok ())) :
    t1.checkpoint_count ≤ t0.config.max_history_len ∧
    (t0.checkpoint_count = t0.config.max_history_len →
      t1.checkpoints = (t0.checkpoints
        ++ [(⟨t0.current_additions, t0.current_deletions⟩
          : MerkleCheckPoint)]).drop t0.hist_commit_count ∧
      MerkleChangeTracker.baseApplyFold ((t0.checkpoints
        ++ [(⟨t0.current_additions, t0.current_deletions⟩
          : MerkleCheckPoint)]).take t0.hist_commit_count) t0.base
        = some (t1.base, .ok ())) := by
  simp only [MerkleChangeTracker.commit, MerkleChangeTracker.update_base_mmr]
    at hcommit
  by_cases hover : (t0.checkpoints
      ++ [(⟨t0.current_additions, t0.current_deletions⟩ : MerkleCheckPoint)]).length
      > t0.config.max_history_len
  · rw [if_pos hover] at hcommit
    cases hbf : MerkleChangeTracker.baseApplyFold ((t0.checkpoints
        ++ [(⟨t0.current_additions, t0.current_deletions⟩
          : MerkleCheckPoint)]).take t0.hist_commit_count) t0.base with
    | none =>
      rw [hbf] at hcommit
      simp at hcommit
    | some pr =>
      obtain ⟨b1, res⟩ := pr
      rw [hbf] at hcommit
      cases res with
      | error e =>
        simp at hcommit
      | ok u =>
        have hpair := Option.some.inj hcommit
        injection hpair with ht1 hres
        rw [← ht1]
        have hb : t0.checkpoints.length ≤ t0.config.max_history_len := hbound
        constructor
        · show ((t0.checkpoints
              ++ [(⟨t0.current_additions, t0.current_deletions⟩
                : MerkleCheckPoint)]).drop t0.hist_commit_count).length
            ≤ t0.config.max_history_len
          rw [List.length_drop]
          simp
          omega
        · intro _
          exact ⟨rfl, rfl⟩
  · rw [if_neg hover] at hcommit
    have hpair := Option.some.inj hcommit
    injection hpair with ht1 hres
    rw [← ht1]
    have hb : t0.checkpoints.length ≤ t0.config.max_history_len := hbound
    simp only [gt_iff_lt, not_lt] at hover
    constructor
    · show ((t0.checkpoints
          ++ [(⟨t0.current_additions, t0.current_deletions⟩
            : MerkleCheckPoint)]).length) ≤ t0.config.max_history_len
      exact hover
    · intro heq
      exfalso
      have hlen2 : (t0.checkpoints
          ++ [(⟨t0.current_additions, t0.current_deletions⟩
            : MerkleCheckPoint)]).length = t0.checkpoints.length + 1 := by
        simp
      have heq2 : t0.checkpoints.length = t0.config.max_history_len := heq
      omega

/-- Witness for the amended C5 at a concrete tracker whose log is at the
bound before the commit. -/
theorem c5_history_bound_amended_witness :
    MerkleChangeTracker.checkpoint_count
        ⟨⟨⟨[]⟩, [], 0⟩, ⟨⟨⟨0, [], [], []⟩⟩, [], 0⟩,
          [⟨[], []⟩], [], [], ⟨1, 1⟩, 1⟩ ≤ 1
    ∧ (MerkleChangeTracker.checkpoint_count
          (⟨⟨⟨[]⟩, [], 0⟩, ⟨⟨⟨0, [], [], []⟩⟩, [], 0⟩,
            [⟨[], []⟩], [], [], ⟨1, 1⟩, 1⟩ : MerkleChangeTracker) = 1 →
        ([⟨[], []⟩] : List MerkleCheckPoint)
          = (([⟨[], []⟩] : List MerkleCheckPoint)
            ++ ([⟨[], []⟩] : List MerkleCheckPoint)).drop 1
        ∧ MerkleChangeTracker.baseApplyFold
            ((([⟨[], []⟩] : List MerkleCheckPoint)
              ++ ([⟨[], []⟩] : List MerkleCheckPoint)).take 1)
            ⟨⟨[]⟩, [], 0⟩
          = some (⟨⟨[]⟩, [], 0⟩, .ok ())) :=
  c5_history_bound_amended
    ⟨⟨⟨[]⟩, [], 0⟩, ⟨⟨⟨0, [], [], []⟩⟩, [], 0⟩, [⟨[], []⟩], [], [], ⟨1, 1⟩, 1⟩
    ⟨⟨⟨[]⟩, [], 0⟩, ⟨⟨⟨0, [], [], []⟩⟩, [], 0⟩, [⟨[], []⟩], [], [], ⟨1, 1⟩, 1⟩
    (by decide) rfl (by decide) rfl

/-- C6: the mutable MMR's root is the hash of the inner merkle root chained
with the serialized deletion bitmap; when the inner MMR is empty the zero
hash stands in for the inner root. -/
theorem c6_mutable_root_formula (F : List PTree) (m : MutableMmr (List Hash))
    (hshape : shapeF F) (hdec : decF F) (hmmr : m.mmr = ⟨flatF F⟩) :
    m.get_merkle_root
      = some (Hash.digestB
          [if F = [] then Hash.zero else Hash.digest (F.map PTree.top)]
          m.deleted.serialize) := by
  show (match m.mmr.get_merkle_root with
    | none => none
    | some r => some (Hash.digestB [r] m.deleted.serialize)) = _
  rw [hmmr]
  by_cases hz : F = []
  · subst hz
    rw [if_pos rfl]
    rfl
  · rw [get_merkle_root_forest F hz hshape hdec, if_neg hz]

/-- Witness for C6 on a one-leaf MMR with leaf 0 deleted. -/
theorem c6_mutable_root_formula_witness :
    MutableMmr.get_merkle_root
        (⟨⟨[Hash.base 0]⟩, [0], 1⟩ : MutableMmr (List Hash))
      = some (Hash.digestB
          [if [PTree.leaf (Hash.base 0)] = ([] : List PTree) then Hash.zero
           else Hash.digest ([PTree.leaf (Hash.base 0)].map PTree.top)]
          (Bitmap.serialize [0])) :=
  c6_mutable_root_formula [PTree.leaf (Hash.base 0)]
    ⟨⟨[Hash.base 0]⟩, [0], 1⟩
    (by
      intro t ht
      simp at ht
      rw [ht]
      trivial)
    (by simp [decF])
    rfl

theorem replayFold_first_error : ∀ (pre : List MerkleCheckPoint)
    (m0 mOk mErr : MutableMmr PrunedHashSet) (cp : MerkleCheckPoint)
    (post : List MerkleCheckPoint) (e : GeneError),
    applyChainOk pre m0 = some mOk →
    cp.apply mOk = some (mErr, .error e) →
    MerkleChangeTracker.replayFold (pre ++ cp :: post) m0
      = some (mErr, .error e) := by
  intro pre
  induction pre with
  | nil =>
    intro m0 mOk mErr cp post e hok herr
    have hm : m0 = mOk := Option.some.inj hok
    subst hm
    show (match cp.apply m0 with
      | none => none
      | some (m1, Except.error e) => some (m1, Except.error e)
      | some (m1, Except.ok _) => MerkleChangeTracker.replayFold post m1) = _
    rw [herr]
  | cons cp0 pre ih =>
    intro m0 mOk mErr cp post e hok herr
    show (match cp0.apply m0 with
      | none => none
      | some (m1, Except.error e) => some (m1, Except.error e)
      | some (m1, Except.ok _) =>
          MerkleChangeTracker.replayFold (pre ++ cp :: post) m1) = _
    have hok2 : ∃ m1, cp0.apply m0 = some (m1, .ok ())
        ∧ applyChainOk pre m1 = some mOk := by
      revert hok
      show (match cp0.apply m0 with
        | some (m1, Except.ok _) => applyChainOk pre m1
        | _ => none) = some mOk → _
      cases hap : cp0.apply m0 with
      | none => intro hk; simp at hk
      | some pr =>
        obtain ⟨m1, res⟩ := pr
        cases res with
        | error e2 => intro hk; simp at hk
        | ok u => intro hk; exact ⟨m1, rfl, hk⟩
    obtain ⟨m1, hap, hchain⟩ := hok2
    rw [hap]
    exact ih m1 mOk mErr cp post e hchain herr

/-- C7: if, during `replay n`, the checkpoints before `cp` apply cleanly and
applying `cp` fails, replay stops at that first error, returns it, and the
log stays truncated to its first `n` entries — the checkpoints after `cp`
are never applied. -/
theorem c7_replay_error_atomicity (t : MerkleChangeTracker) (n : Nat)
    (m0 : MutableMmr PrunedHashSet)
    (hprune : prune_mutable_mmr t.base = .ok m0)
    (pre post : List MerkleCheckPoint) (cp : MerkleCheckPoint)
    (hsplit : t.checkpoints.take n = pre ++ cp :: post)
    (mOk : MutableMmr PrunedHashSet)
    (hpre : applyChainOk pre m0 = some mOk)
    (mErr : MutableMmr PrunedHashSet) (e : GeneError)
    (herr : cp.apply mOk = some (mErr, .error e)) :
    t.replay n = some ({ t with checkpoints := t.checkpoints.take n
                                current_additions := []
                                current_deletions := Bitmap.create
                                mmr := mErr.compress }, .error e) := by
  simp only [MerkleChangeTracker.replay, MerkleChangeTracker.revert_mmr_to_base,
    prune_mutable_mmr] at *
  rw [hprune]
  simp only [Except.map]
  rw [hsplit, replayFold_first_error pre m0 mOk mErr cp post e hpre herr]

/-- Witness for C7: a replay whose single surviving checkpoint fails with
`MaximumSizeReached` (the base is at the `u32::MAX` size cap). -/
theorem c7_replay_error_atomicity_witness :
    MerkleChangeTracker.replay
        ⟨⟨⟨[]⟩, [], u32Max⟩, ⟨⟨⟨0, [], [], []⟩⟩, [], u32Max⟩,
          [⟨[Hash.base 0], []⟩], [], [], ⟨1, 2⟩, 2⟩ 1
      = some (⟨⟨⟨[]⟩, [], u32Max⟩, ⟨⟨⟨0, [], [], []⟩⟩, [], u32Max⟩,
          [⟨[Hash.base 0], []⟩], [], [], ⟨1, 2⟩, 2⟩,
          .error .maximumSizeReached) :=
  c7_replay_error_atomicity
    ⟨⟨⟨[]⟩, [], u32Max⟩, ⟨⟨⟨0, [], [], []⟩⟩, [], u32Max⟩,
      [⟨[Hash.base 0], []⟩], [], [], ⟨1, 2⟩, 2⟩ 1
    ⟨⟨⟨0, [], [], []⟩⟩, [], u32Max⟩ rfl
    [] [] ⟨[Hash.base 0], []⟩ rfl
    ⟨⟨⟨0, [], [], []⟩⟩, [], u32Max⟩ rfl
    ⟨⟨⟨0, [], [], []⟩⟩, [], u32Max⟩ GeneError.maximumSizeReached rfl

/-- Counterexample to C9 as stated: `restore` adopts the snapshot's deletion
bitmap without checking it against the restored size, so a snapshot with a
stray deleted index leaves a bit set at an index not below `size`. -/
theorem c9_restore_counterexample :
    MutableMmr.restore (⟨⟨[]⟩, [], 0⟩ : MutableMmr (List Hash)) ⟨[], [5]⟩
      = some (⟨⟨[]⟩, [5], 0⟩, .ok ())
    ∧ ¬ deletedOk (⟨⟨[]⟩, [5], 0⟩ : MutableMmr (List Hash)) :=
  ⟨rfl, fun hk => absurd (hk 5 (by decide)) (by decide)⟩

theorem Bitmap.mem_insert : ∀ (b : Bitmap) (i j : Nat),
    j ∈ Bitmap.insert i b → j = i ∨ j ∈ b := by
  intro b
  induction b with
  | nil =>
    intro i j hj
    simp [Bitmap.insert] at hj
    exact Or.inl hj
  | cons x xs ih =>
    intro i j hj
    show j = i ∨ j ∈ x :: xs
    rw [Bitmap.insert] at hj
    by_cases h1 : i < x
    · rw [if_pos h1] at hj
      rcases List.mem_cons.mp hj with rfl | h2
      · exact Or.inl rfl
      · exact Or.inr h2
    · rw [if_neg h1] at hj
      by_cases h2 : i = x
      · rw [if_pos h2] at hj
        exact Or.inr hj
      · rw [if_neg h2] at hj
        rcases List.mem_cons.mp hj with rfl | h3
        · exact Or.inr (by simp)
        · rcases ih i j h3 with h4 | h4
          · exact Or.inl h4
          · exact Or.inr (by simp [h4])

/-- C9 (amended): the deleted-bits bound is an invariant of `new`, `from`,
`push`, `delete_and_compress`, `delete`, `compress` and `clear`; it is not
re-established by `restore` or checkpoint application, which must be given
consistent snapshots. -/
theorem c9_deleted_bound_amended {σ : Type} [Storage σ] (m : MutableMmr σ)
    (hok : deletedOk m) :
    (∀ backend : σ, deletedOk (MutableMmr.new backend))
    ∧ (∀ mmr : MerkleMountainRange σ, deletedOk (MutableMmr.fromMmr mmr))
    ∧ (∀ (h : Hash) (m1 : MutableMmr σ) (r : Except GeneError Nat),
        m.push h = some (m1, r) → deletedOk m1)
    ∧ (∀ (i : Nat) (c : Bool), deletedOk (m.delete_and_compress i c).1)
    ∧ (∀ i : Nat, deletedOk (m.delete i).1)
    ∧ deletedOk m.compress
    ∧ deletedOk m.clear := by
  refine ⟨?_, ?_, ?_, ?_, ?_, ?_, ?_⟩
  · intro backend i hi
    simp [MutableMmr.new, Bitmap.create] at hi
  · intro mmr i hi
    simp [MutableMmr.fromMmr, Bitmap.create] at hi
  · intro h m1 r hpush i hi
    rw [MutableMmr.push] at hpush
    by_cases hsz : m.size ≥ u32Max
    · rw [if_pos hsz] at hpush
      have hp := Option.some.inj hpush
      injection hp with hm hr
      rw [← hm] at hi ⊢
      exact hok i hi
    · rw [if_neg hsz] at hpush
      cases hinner : m.mmr.push h with
      | none =>
        rw [hinner] at hpush
        simp at hpush
      | some res =>
        rw [hinner] at hpush
        cases res with
        | error e =>
          have hp := Option.some.inj hpush
          injection hp with hm hr
          rw [← hm] at hi ⊢
          exact hok i hi
        | ok pr =>
          obtain ⟨mm, rr⟩ := pr
          have hp := Option.some.inj hpush
          injection hp with hm hr
          rw [← hm] at hi ⊢
          have h2 := hok i hi
          show i < m.size + 1
          omega
  · intro j c
    show deletedOk (m.delete_and_compress j c).1
    rw [MutableMmr.delete_and_compress]
    by_cases h1 : (j ≥ m.size || m.deleted.bContains j) = true
    · rw [if_pos h1]
      exact hok
    · rw [if_neg h1]
      have hjlt : j < m.size := by
        simp at h1
        exact h1.1
      cases c with
      | true =>
        intro i hi
        have hi3 : i ∈ m.deleted.add j := hi
        show i < m.size
        rcases Bitmap.mem_insert m.deleted j i hi3 with rfl | h3
        · exact hjlt
        · exact hok i h3
      | false =>
        intro i hi
        have hi3 : i ∈ m.deleted.add j := hi
        show i < m.size
        rcases Bitmap.mem_insert m.deleted j i hi3 with rfl | h3
        · exact hjlt
        · exact hok i h3
  · intro j
    show deletedOk (m.delete_and_compress j true).1
    rw [MutableMmr.delete_and_compress]
    by_cases h1 : (j ≥ m.size || m.deleted.bContains j) = true
    · rw [if_pos h1]
      exact hok
    · rw [if_neg h1]
      have hjlt : j < m.size := by
        simp at h1
        exact h1.1
      intro i hi
      have hi3 : i ∈ m.deleted.add j := hi
      show i < m.size
      rcases Bitmap.mem_insert m.deleted j i hi3 with rfl | h3
      · exact hjlt
      · exact hok i h3
  · intro i hi
    exact hok i hi
  · intro i hi
    simp [MutableMmr.clear, Bitmap.create] at hi

/-- Witness for the amended C9 at a one-leaf mutable MMR with leaf 0
deleted. -/
theorem c9_deleted_bound_amended_witness :
    (∀ backend : List Hash, deletedOk (MutableMmr.new backend))
    ∧ (∀ mmr : MerkleMountainRange (List Hash),
        deletedOk (MutableMmr.fromMmr mmr))
    ∧ (∀ (h : Hash) (m1 : MutableMmr (List Hash)) (r : Except GeneError Nat),
        MutableMmr.push (⟨⟨[Hash.base 0]⟩, [0], 1⟩ : MutableMmr (List Hash)) h
          = some (m1, r) → deletedOk m1)
    ∧ (∀ (i : Nat) (c : Bool), deletedOk
        (MutableMmr.delete_and_compress
          (⟨⟨[Hash.base 0]⟩, [0], 1⟩ : MutableMmr (List Hash)) i c).1)
    ∧ (∀ i : Nat, deletedOk
        (MutableMmr.delete
          (⟨⟨[Hash.base 0]⟩, [0], 1⟩ : MutableMmr (List Hash)) i).1)
    ∧ deletedOk
        (MutableMmr.compress
          (⟨⟨[Hash.base 0]⟩, [0], 1⟩ : MutableMmr (List Hash)))
    ∧ deletedOk
        (MutableMmr.clear
          (⟨⟨[Hash.base 0]⟩, [0], 1⟩ : MutableMmr (List Hash))) :=
  c9_deleted_bound_amended ⟨⟨[Hash.base 0]⟩, [0], 1⟩
    (by
      intro i hi
      simp at hi
      simp [hi])
